import Mathlib

/-!
# Verification of the go-webfinger client

A shallow embedding of the go-webfinger WebFinger client (`client.go` plus the
JRD document model) and of the fragment of Go's `net/url` standard library that
the client relies on (`url.Parse`, `URL.String`, `url.Values.Encode`).

Go strings are byte strings, so strings are modelled as `List (Fin 256)`.
-/

set_option autoImplicit false
set_option maxRecDepth 20000

deriving instance DecidableEq for Except

/-- A Go byte. -/
abbrev Byte := Fin 256

/-- A Go string: a list of bytes. -/
abbrev GoStr := List Byte

/-- Build a byte from a natural number (used for hex decoding/encoding). -/
def mkByte (n : Nat) : Byte := ⟨n % 256, Nat.mod_lt _ (by norm_num)⟩

/-- Convert an ASCII Lean string literal to a Go byte string. -/
def s2b (s : String) : GoStr := s.data.map fun c => mkByte c.toNat

namespace GoStrings

/-- `strings.Contains(s, string(c))` for a single byte. -/
def containsB : GoStr → Byte → Bool
  | [], _ => false
  | c :: r, x => c = x || containsB r x

/-- `strings.HasPrefix(s, pre)`. -/
def startsWith : GoStr → GoStr → Bool
  | _, [] => true
  | [], _ :: _ => false
  | c :: r, p :: ps => c = p && startsWith r ps

/-- `strings.HasSuffix(s, suf)`. -/
def endsWith (s suf : GoStr) : Bool := startsWith s.reverse suf.reverse

/-- `strings.TrimSuffix(s, suf)`. -/
def trimSuffix (s suf : GoStr) : GoStr :=
  if endsWith s suf then s.take (s.length - suf.length) else s

/-- net/url's `split(s, sep, cutc)`: split around the first instance of `sep`;
if `sep` does not appear, returns `(s, "")`. -/
def splitB : GoStr → Byte → Bool → GoStr × GoStr
  | [], _, _ => ([], [])
  | c :: r, sep, cutc =>
    if c = sep then ([], if cutc then r else c :: r)
    else
      let p := splitB r sep cutc
      (c :: p.1, p.2)

/-- `strings.SplitN(s, string(sep), 2)`: `(before, some after)` if `sep` occurs,
else `(s, none)` (a one-element split). -/
def splitN2 : GoStr → Byte → GoStr × Option GoStr
  | [], _ => ([], none)
  | c :: r, sep =>
    if c = sep then ([], some r)
    else
      let p := splitN2 r sep
      (c :: p.1, p.2)

/-- The first component of `strings.Cut(s, string(sep))`: everything before the
first `sep`, or all of `s`. -/
def cutBefore (s : GoStr) (sep : Byte) : GoStr := (splitB s sep true).1

/-- Split at the last occurrence of `sep` (models `strings.LastIndex` plus the
two slices `s[:i]` / `s[i+1:]`); `none` when `sep` does not occur. -/
def splitLast : GoStr → Byte → Option (GoStr × GoStr)
  | [], _ => none
  | c :: r, sep =>
    match splitLast r sep with
    | some (a, b) => some (c :: a, b)
    | none => if c = sep then some ([], r) else none

/-- Split at the first occurrence of the substring `pat` (models
`strings.Index(s, pat)` plus the slices `s[:i]` / `s[i:]`; the second part
keeps `pat`); `none` when `pat` does not occur. -/
def cutSub : GoStr → GoStr → Option (GoStr × GoStr)
  | [], pat => if pat = [] then some ([], []) else none
  | c :: r, pat =>
    if startsWith (c :: r) pat then some ([], c :: r)
    else
      match cutSub r pat with
      | some (a, b) => some (c :: a, b)
      | none => none

/-- `strings.Contains(s, pat)`. -/
def containsSub (s pat : GoStr) : Bool := (cutSub s pat).isSome

/-- ASCII lower-casing of one byte. `strings.ToLower` is applied by the client
only to ASCII data (URL schemes, transport error text), where Go's rune-wise
lowering agrees with byte-wise ASCII lowering. -/
def toLowerB (c : Byte) : Byte :=
  if h : 65 ≤ c.val ∧ c.val ≤ 90 then ⟨c.val + 32, by omega⟩ else c

/-- `strings.ToLower` on ASCII data. -/
def toLowerStr (s : GoStr) : GoStr := s.map toLowerB

end GoStrings

namespace NetUrl

open GoStrings

/-- net/url's `stringContainsCTLByte`. -/
def containsCTL (s : GoStr) : Bool := s.any fun c => c.val < 32 || c.val = 127

/-- The encoding modes of net/url's `shouldEscape`/`escape`/`unescape`. -/
inductive Encoding where
  | path
  | pathSegment
  | host
  | zone
  | userPassword
  | queryComponent
  | fragment
deriving DecidableEq, Repr

def isDigitB (c : Byte) : Bool := 48 ≤ c.val && c.val ≤ 57

def isAlphaB (c : Byte) : Bool := (65 ≤ c.val && c.val ≤ 90) || (97 ≤ c.val && c.val ≤ 122)

def isAlphaNum (c : Byte) : Bool := isDigitB c || isAlphaB c

/-- net/url's `shouldEscape(c, mode)`. Byte values name ASCII characters,
e.g. 33 is the exclamation mark, 36 the dollar sign, 58 the colon. -/
def shouldEscape (c : Byte) (mode : Encoding) : Bool :=
  if isAlphaNum c then false
  else if (mode = .host || mode = .zone) &&
      (c = 33 || c = 36 || c = 38 || c = 39 || c = 40 || c = 41 || c = 42 || c = 43 ||
       c = 44 || c = 59 || c = 61 || c = 58 || c = 91 || c = 93 || c = 60 || c = 62 || c = 34) then
    false
  else if c = 45 || c = 95 || c = 46 || c = 126 then false
  else if c = 36 || c = 38 || c = 43 || c = 44 || c = 47 || c = 58 || c = 59 || c = 61 ||
          c = 63 || c = 64 then
    match mode with
    | .path => c = 63
    | .pathSegment => c = 47 || c = 59 || c = 44 || c = 63
    | .userPassword => c = 64 || c = 47 || c = 63 || c = 58
    | .queryComponent => true
    | .fragment => false
    | .host => true
    | .zone => true
  else if mode = .fragment && (c = 33 || c = 40 || c = 41 || c = 42) then false
  else true

/-- net/url's `ishex`. -/
def ishex (c : Byte) : Bool :=
  isDigitB c || (97 ≤ c.val && c.val ≤ 102) || (65 ≤ c.val && c.val ≤ 70)

/-- net/url's `unhex`. -/
def unhex (c : Byte) : Nat :=
  if 48 ≤ c.val && c.val ≤ 57 then c.val - 48
  else if 97 ≤ c.val && c.val ≤ 102 then c.val - 97 + 10
  else if 65 ≤ c.val && c.val ≤ 70 then c.val - 65 + 10
  else 0

/-- One digit of `upperhex`. -/
def upperHexDig (n : Nat) : Byte := if n < 10 then mkByte (48 + n) else mkByte (55 + n)

/-- The escaping of a single byte inside net/url's `escape` loop:
space becomes a plus sign in query components, bytes that `shouldEscape`
become a percent escape, the rest stay. -/
def escByte (mode : Encoding) (c : Byte) : GoStr :=
  if c = 32 && mode = .queryComponent then [43]
  else if shouldEscape c mode then [37, upperHexDig (c.val / 16), upperHexDig (c.val % 16)]
  else [c]

/-- net/url's `escape(s, mode)`. -/
def escape (s : GoStr) (mode : Encoding) : GoStr := s.flatMap (escByte mode)

/-- net/url's `unescape(s, mode)`; Go's two passes (validate, then decode) are
fused into one, producing the same result and failing exactly when Go fails. -/
def unescape (mode : Encoding) : GoStr → Except GoStr GoStr
  | [] => .ok []
  | c :: rest =>
    if c = 37 then
      match rest with
      | h :: l :: rest2 =>
        if ishex h && ishex l then
          if mode = .host && unhex h < 8 && ¬(h = 50 && l = 53) then
            .error (s2b "invalid URL escape")
          else if mode = .zone &&
              (¬(h = 50 && l = 53) && unhex h * 16 + unhex l ≠ 32 &&
                shouldEscape (mkByte (unhex h * 16 + unhex l)) .host) then
            .error (s2b "invalid URL escape")
          else do
            let t ← unescape mode rest2
            pure (mkByte (unhex h * 16 + unhex l) :: t)
        else .error (s2b "invalid URL escape")
      | _ => .error (s2b "invalid URL escape")
    else if c = 43 then do
      let t ← unescape mode rest
      pure ((if mode = .queryComponent then (32 : Byte) else 43) :: t)
    else
      if (mode = .host || mode = .zone) && c.val < 128 && shouldEscape c mode then
        .error (s2b "invalid character in host name")
      else do
        let t ← unescape mode rest
        pure (c :: t)

/-- The one-step body of `unescape` on a non-empty input, as a non-recursive
function (definitionally equal to `unescape`'s cons case; used to reason about
one step at a time). -/
def unescapeBody (mode : Encoding) (c : Byte) (rest : GoStr) : Except GoStr GoStr :=
  if c = 37 then
    match rest with
    | h :: l :: rest2 =>
      if ishex h && ishex l then
        if mode = .host && unhex h < 8 && ¬(h = 50 && l = 53) then
          .error (s2b "invalid URL escape")
        else if mode = .zone &&
            (¬(h = 50 && l = 53) && unhex h * 16 + unhex l ≠ 32 &&
              shouldEscape (mkByte (unhex h * 16 + unhex l)) .host) then
          .error (s2b "invalid URL escape")
        else do
          let t ← unescape mode rest2
          pure (mkByte (unhex h * 16 + unhex l) :: t)
      else .error (s2b "invalid URL escape")
    | _ => .error (s2b "invalid URL escape")
  else if c = 43 then do
    let t ← unescape mode rest
    pure ((if mode = .queryComponent then (32 : Byte) else 43) :: t)
  else
    if (mode = .host || mode = .zone) && c.val < 128 && shouldEscape c mode then
      .error (s2b "invalid character in host name")
    else do
      let t ← unescape mode rest
      pure (c :: t)

/-- net/url's `validOptionalPort`. -/
def validOptionalPort (port : GoStr) : Bool :=
  match port with
  | [] => true
  | c :: rest => c = 58 && rest.all isDigitB

/-- net/url's `validUserinfo` (any non-ASCII byte fails, as in Go's rune loop). -/
def validUserinfo (s : GoStr) : Bool :=
  s.all fun r =>
    isAlphaNum r || r = 45 || r = 46 || r = 95 || r = 58 || r = 126 || r = 33 || r = 36 ||
      r = 38 || r = 39 || r = 40 || r = 41 || r = 42 || r = 43 || r = 44 || r = 59 ||
      r = 61 || r = 37 || r = 64

/-- net/url's `validEncoded(s, mode)`. -/
def validEncoded (s : GoStr) (mode : Encoding) : Bool :=
  s.all fun c =>
    if c = 33 || c = 36 || c = 38 || c = 39 || c = 40 || c = 41 || c = 42 || c = 43 ||
        c = 44 || c = 59 || c = 61 || c = 58 || c = 64 then true
    else if c = 91 || c = 93 then true
    else if c = 37 then true
    else ¬shouldEscape c mode

/-- net/url's `Userinfo`. -/
structure Userinfo where
  username : GoStr
  password : GoStr
  passwordSet : Bool
deriving DecidableEq, Repr

/-- net/url's `URL` (the Go 1.18 fields the client can reach). -/
structure URL where
  scheme : GoStr := []
  opaquePart : GoStr := []
  user : Option Userinfo := none
  host : GoStr := []
  path : GoStr := []
  rawPath : GoStr := []
  forceQuery : Bool := false
  rawQuery : GoStr := []
  fragment : GoStr := []
  rawFragment : GoStr := []
deriving DecidableEq, Repr

/-- The scan of net/url's `getScheme` past the first byte; `orig` is the whole
input (returned by the no-scheme outcomes), `acc` the scheme bytes read. -/
def getSchemeAux (orig : GoStr) (acc : GoStr) : GoStr → Except GoStr (GoStr × GoStr)
  | [] => .ok ([], orig)
  | c :: rest =>
    if isAlphaB c || isDigitB c || c = 43 || c = 45 || c = 46 then
      getSchemeAux orig (acc ++ [c]) rest
    else if c = 58 then .ok (acc, rest)
    else .ok ([], orig)

/-- net/url's `getScheme`. -/
def getScheme (s : GoStr) : Except GoStr (GoStr × GoStr) :=
  match s with
  | [] => .ok ([], [])
  | c :: rest =>
    if isAlphaB c then getSchemeAux s [c] rest
    else if c = 58 then .error (s2b "missing protocol scheme")
    else .ok ([], s)

/-- net/url's `parseHost`. -/
def parseHost (host : GoStr) : Except GoStr GoStr :=
  if startsWith host [91] then
    match splitLast host 93 with
    | none => .error (s2b "missing right bracket in host")
    | some (pre, post) =>
      if ¬validOptionalPort post then .error (s2b "invalid port after host")
      else
        match cutSub pre (s2b "%25") with
        | some (h1raw, zoneRaw) => do
          let host1 ← unescape .host h1raw
          let host2 ← unescape .zone zoneRaw
          let host3 ← unescape .host (93 :: post)
          pure (host1 ++ host2 ++ host3)
        | none => unescape .host host
  else
    match splitLast host 58 with
    | some (_, post) =>
      if ¬validOptionalPort (58 :: post) then .error (s2b "invalid port after host")
      else unescape .host host
    | none => unescape .host host

/-- net/url's `parseAuthority`. -/
def parseAuthority (authority : GoStr) : Except GoStr (Option Userinfo × GoStr) :=
  match splitLast authority 64 with
  | none => do
    let h ← parseHost authority
    pure (none, h)
  | some (userinfo, hostPart) => do
    let h ← parseHost hostPart
    if ¬validUserinfo userinfo then .error (s2b "net/url: invalid userinfo")
    else
      match splitN2 userinfo 58 with
      | (_, none) => do
        let un ← unescape .userPassword userinfo
        pure (some ⟨un, [], false⟩, h)
      | (unRaw, some pwRaw) => do
        let un ← unescape .userPassword unRaw
        let pw ← unescape .userPassword pwRaw
        pure (some ⟨un, pw, true⟩, h)

/-- net/url's `parse(rawURL, false)` (`viaRequest` is always false for
`url.Parse`, which is the only entry point the client uses). -/
def parseInner (rawURL : GoStr) : Except GoStr URL :=
  if containsCTL rawURL then .error (s2b "net/url: invalid control character in URL")
  else if rawURL = [42] then .ok { path := [42] }
  else do
    let (schemeRaw, rest0) ← getScheme rawURL
    let scheme := toLowerStr schemeRaw
    let qsplit :=
      if endsWith rest0 [63] && ¬containsB (trimSuffix rest0 [63]) 63 then
        (trimSuffix rest0 [63], ([] : GoStr), true)
      else
        let p := splitB rest0 63 true
        (p.1, p.2, false)
    let rest1 := qsplit.1
    let rawQuery := qsplit.2.1
    let forceQuery := qsplit.2.2
    if ¬startsWith rest1 [47] && scheme ≠ [] then
      .ok { scheme := scheme, opaquePart := rest1, rawQuery := rawQuery, forceQuery := forceQuery }
    else if ¬startsWith rest1 [47] && containsB (cutBefore rest1 47) 58 then
      .error (s2b "first path segment in URL cannot contain colon")
    else do
      let auth ←
        if (scheme ≠ [] || ¬startsWith rest1 (s2b "///")) && startsWith rest1 (s2b "//") then do
          let p := splitB (rest1.drop 2) 47 false
          let (user, host) ← parseAuthority p.1
          pure (user, host, p.2)
        else
          pure ((none : Option Userinfo), ([] : GoStr), rest1)
      let path ← unescape .path auth.2.2
      let rawPath := if escape path .path = auth.2.2 then [] else auth.2.2
      .ok { scheme := scheme, user := auth.1, host := auth.2.1, path := path,
            rawPath := rawPath, forceQuery := forceQuery, rawQuery := rawQuery }

/-- net/url's `url.Parse`. -/
def urlParse (rawURL : GoStr) : Except GoStr URL := do
  let p := splitB rawURL 35 true
  let url ← parseInner p.1
  if p.2 = [] then pure url
  else do
    let f ← unescape .fragment p.2
    let rawFragment := if escape f .fragment = p.2 then [] else p.2
    pure { url with fragment := f, rawFragment := rawFragment }

/-- net/url's `URL.EscapedPath` fallback (`escape(u.Path, encodePath)`,
with the `"*"` special case). -/
def escapedPathDefault (u : URL) : GoStr :=
  if u.path = [42] then [42] else escape u.path .path

/-- net/url's `URL.EscapedPath`. -/
def escapedPath (u : URL) : GoStr :=
  if u.rawPath ≠ [] && validEncoded u.rawPath .path then
    match unescape .path u.rawPath with
    | .ok p => if p = u.path then u.rawPath else escapedPathDefault u
    | .error _ => escapedPathDefault u
  else escapedPathDefault u

/-- net/url's `URL.EscapedFragment`. -/
def escapedFragment (u : URL) : GoStr :=
  if u.rawFragment ≠ [] && validEncoded u.rawFragment .fragment then
    match unescape .fragment u.rawFragment with
    | .ok f => if f = u.fragment then u.rawFragment else escape u.fragment .fragment
    | .error _ => escape u.fragment .fragment
  else escape u.fragment .fragment

/-- net/url's `Userinfo.String`. -/
def userinfoString (ui : Userinfo) : GoStr :=
  escape ui.username .userPassword ++
    (if ui.passwordSet then 58 :: escape ui.password .userPassword else [])

/-- net/url's `URL.String` (Go 1.18). -/
def urlString (u : URL) : GoStr :=
  let b1 := if u.scheme ≠ [] then u.scheme ++ [58] else []
  let core :=
    if u.opaquePart ≠ [] then b1 ++ u.opaquePart
    else
      let b2 :=
        if u.scheme ≠ [] || u.host ≠ [] || u.user.isSome then
          (if u.host ≠ [] || u.path ≠ [] || u.user.isSome then [47, 47] else []) ++
            (match u.user with
             | some ui => userinfoString ui ++ [64]
             | none => []) ++
            (if u.host ≠ [] then escape u.host .host else [])
        else []
      let p := escapedPath u
      let b3 := b1 ++ b2 ++ (if p ≠ [] && ¬startsWith p [47] && u.host ≠ [] then [47] else [])
      let b4 := if b3 = [] && containsB (cutBefore p 47) 58 then s2b "./" else []
      b3 ++ b4 ++ p
  core ++ (if u.forceQuery || u.rawQuery ≠ [] then 63 :: u.rawQuery else []) ++
    (if u.fragment ≠ [] then 35 :: escapedFragment u else [])


/-- Schemes produced by `getScheme` followed by `ToLower`: non-empty, an ASCII
lower-case letter first, then lower-case letters, digits, `+`, `-` or `.`. -/
def validSchemeLower (s : GoStr) : Bool :=
  match s with
  | [] => false
  | c :: r => (97 ≤ c.val && c.val ≤ 122) &&
      r.all fun x => (97 ≤ x.val && x.val ≤ 122) || isDigitB x || x = 43 || x = 45 || x = 46

/-- The `user@` prefix of the authority as printed by `URL.String`. -/
def userPart (u : URL) : GoStr :=
  match u.user with
  | some ui => userinfoString ui ++ [64]
  | none => []

/-- The invariants that `url.Parse` guarantees about a successfully parsed URL
with a non-empty scheme and a non-empty host (established by
`urlParse_ok_wf`, consumed by the reassembly proof). -/
def URLWf (u : URL) : Prop :=
  validSchemeLower u.scheme = true ∧
  u.opaquePart = [] ∧
  (∃ rh, parseHost rh = .ok u.host) ∧
  (∀ ui, u.user = some ui → ui.passwordSet = true ∨ ui.password = []) ∧
  (u.path = [] ∨ ∃ t, u.path = 47 :: t) ∧
  (u.rawPath = [] ∨ ∃ t, u.rawPath = 47 :: t) ∧
  (u.forceQuery = true → u.rawQuery = []) ∧
  containsB u.rawQuery 35 = false ∧
  containsCTL u.rawQuery = false ∧
  (u.fragment = [] → u.rawFragment = [])

/-- The query component as printed by `URL.String`. -/
def queryPart (u : URL) : GoStr :=
  if u.forceQuery || u.rawQuery ≠ [] then 63 :: u.rawQuery else []

/-- The fragment component as printed by `URL.String`. -/
def fragPart (u : URL) : GoStr :=
  if u.fragment ≠ [] then 35 :: escapedFragment u else []

/-- The zone-identifier slice of a decoded host string: for a bracketed host,
the bytes from the first `%` inside the brackets up to the closing bracket
(net/url keeps the zone in decoded form after the literal `%` marker);
empty for non-bracketed or zone-free hosts. -/
def zoneBytes (h : GoStr) : GoStr :=
  if startsWith h [91] then
    match splitLast h 93 with
    | some (pre, _) =>
      match cutSub pre [37] with
      | some (_, z) => z
      | none => []
    | none => []
  else []

end NetUrl

namespace Webfinger

open GoStrings NetUrl

/-- A WebFinger `Resource` is a URL (Go: `type Resource url.URL`). -/
abbrev Resource := NetUrl.URL

/-- The body of webfinger's `Parse`, with fuel bounding the recursion depth.
Go's `Parse` recurses at most once (the re-parsed string always carries the
`acct` scheme), which `ParseAux_acct` below makes precise. -/
def ParseAux : Nat → GoStr → Except GoStr Resource
  | 0, _ => .error (s2b "recursion limit")
  | fuel+1, rawurl =>
    match NetUrl.urlParse rawurl with
    | .error e => .error e
    | .ok u =>
      if u.scheme = [] then
        match splitN2 rawurl 64 with
        | (_, none) => .error (s2b "URL must be absolute, or an email address: " ++ rawurl)
        | (_, some _) => ParseAux fuel (s2b "acct:" ++ rawurl)
      else .ok u

/-- webfinger's `Parse`: parse `rawurl` into a `Resource`; an email-like
identifier with no scheme is re-parsed with an `acct:` scheme prepended.
`Parse_eq` proves Go's recursive defining equation for this definition. -/
def Parse (rawurl : GoStr) : Except GoStr Resource := ParseAux 2 rawurl

end Webfinger

namespace Webfinger

open GoStrings NetUrl

/-- webfinger's `Resource.WebFingerHost`: the default host for WebFinger
queries on this resource. -/
def WebFingerHost (r : Resource) : GoStr :=
  if r.host ≠ [] then r.host
  else if r.scheme = s2b "acct" || r.scheme = s2b "mailto" then
    match splitN2 r.opaquePart 64 with
    | (_, some after) => after
    | (_, none) => []
  else []

/-- webfinger's `Resource.String` (reassemble the resource into a URL string). -/
def resourceString (r : Resource) : GoStr := NetUrl.urlString r

/-- net/url's `QueryEscape`. -/
def queryEscape (s : GoStr) : GoStr := NetUrl.escape s .queryComponent

/-- Byte-lexicographic string order (Go's `<` on strings, used by
`sort.Strings`). -/
def lexLe : GoStr → GoStr → Bool
  | [], _ => true
  | _ :: _, [] => false
  | a :: as, b :: bs => if a.val < b.val then true else if b.val < a.val then false else lexLe as bs

def insertSorted (x : GoStr × List GoStr) :
    List (GoStr × List GoStr) → List (GoStr × List GoStr)
  | [] => [x]
  | y :: ys => if lexLe x.1 y.1 then x :: y :: ys else y :: insertSorted x ys

/-- Sort an association list by key (models `sort.Strings(keys)` over the keys
of a `url.Values` map; Go map keys are unique, so any stable sort agrees). -/
def sortByKey (vs : List (GoStr × List GoStr)) : List (GoStr × List GoStr) :=
  vs.foldr insertSorted []

/-- net/url's `Values.Encode`: keys in sorted order, one `k=v` item per value
in order, joined by `&` (the `buf.Len() > 0` guard is exactly an intercalate,
since every item is non-empty). -/
def encodeValues (vs : List (GoStr × List GoStr)) : GoStr :=
  List.intercalate [38]
    ((sortByKey vs).flatMap fun kv =>
      kv.2.map fun v => queryEscape kv.1 ++ 61 :: queryEscape v)

/-- webfinger's `Resource.JRDURL`: the WebFinger query URL for this resource. -/
def JRDURL (r : Resource) (rels : List GoStr) : NetUrl.URL :=
  { scheme := s2b "https",
    host := WebFingerHost r,
    path := s2b "/.well-known/webfinger",
    rawQuery := encodeValues [(s2b "resource", [resourceString r]), (s2b "rel", rels)] }

end Webfinger

namespace Jrd

open GoStrings

/-- Modelled from the spec: a JSON value, the wire format consumed by the
descriptor document decoder (the repository's `jrd.go` defining the JRD model
is not among the sources; only its test is). -/
inductive Json where
  | null
  | boolean (b : Bool)
  | num (lit : GoStr)
  | str (s : GoStr)
  | arr (items : List Json)
  | obj (fields : List (GoStr × Json))

/-- Whether a JSON value is a legal property value (string or explicit null). -/
def isSimpleVal : Json → Bool
  | .null => true
  | .str _ => true
  | _ => false

/-- Modelled from the spec: a typed Link of the descriptor document:
`rel`, `type`, `href`, `template`, `titles`, `properties`; a property value is
optional-of-string so that "present with null" stays distinct from "absent". -/
structure Link where
  rel : GoStr := []
  typ : GoStr := []
  href : GoStr := []
  template : GoStr := []
  titles : List (GoStr × GoStr) := []
  properties : List (GoStr × Option GoStr) := []
deriving DecidableEq, Repr

/-- Modelled from the spec: the JSON Resource Descriptor: subject, aliases,
properties (tri-state values), expiry (kept as its RFC3339 text; the claims do
not touch time arithmetic), and an ordered list of links. -/
structure JRD where
  subject : GoStr := []
  expires : Option GoStr := none
  aliases : List GoStr := []
  properties : List (GoStr × Option GoStr) := []
  links : List Link := []
deriving DecidableEq, Repr

/-- First binding of `key` in an association list of properties (Go map
lookup; JSON object keys are unique). -/
def lookupProp : List (GoStr × Option GoStr) → GoStr → Option (Option GoStr)
  | [], _ => none
  | kv :: r, key => if kv.1 = key then some kv.2 else lookupProp r key

/-- Modelled from the spec: `getProperty` — the value if present and non-null,
else the empty string (covering "absent" and "null" uniformly). -/
def getProperty (props : List (GoStr × Option GoStr)) (key : GoStr) : GoStr :=
  match lookupProp props key with
  | some (some v) => v
  | some none => []
  | none => []

/-- Modelled from the spec: `JRD.GetProperty`. -/
def JRD.GetProperty (doc : JRD) (key : GoStr) : GoStr := getProperty doc.properties key

/-- Modelled from the spec: `Link.GetProperty` (same semantics as the
document-level accessor). -/
def Link.GetProperty (l : Link) (key : GoStr) : GoStr := getProperty l.properties key

/-- Modelled from the spec: the linear scan of `getLinkByRel`. -/
def findLinkByRel (rel : GoStr) : List Link → Option Link
  | [] => none
  | l :: r => if l.rel = rel then some l else findLinkByRel rel r

/-- Modelled from the spec: `JRD.GetLinkByRel` — the first Link in document
order whose `rel` equals the argument, or an absent result. -/
def JRD.GetLinkByRel (doc : JRD) (rel : GoStr) : Option Link := findLinkByRel rel doc.links

/-- Modelled from the spec: decode a JSON value as a string. -/
def decodeStr : Json → Except GoStr GoStr
  | .str s => .ok s
  | _ => .error (s2b "json: cannot unmarshal value into string")

/-- Modelled from the spec: decode a JSON value as an optional string, where
an explicit JSON null is "present with null" (`some none` at the binding). -/
def decodeOptStr : Json → Except GoStr (Option GoStr)
  | .null => .ok none
  | .str s => .ok (some s)
  | _ => .error (s2b "json: cannot unmarshal value into string pointer")

/-- Modelled from the spec: decode a `properties` object; a null member is
kept as a present binding with a null value, distinct from an absent key. -/
def decodeProperties : Json → Except GoStr (List (GoStr × Option GoStr))
  | .null => .ok []
  | .obj fields => fields.mapM fun kv => do
      let v ← decodeOptStr kv.2
      pure (kv.1, v)
  | _ => .error (s2b "json: cannot unmarshal value into properties map")

/-- Modelled from the spec: decode a `titles` object (language tag to title). -/
def decodeTitles : Json → Except GoStr (List (GoStr × GoStr))
  | .null => .ok []
  | .obj fields => fields.mapM fun kv => do
      let v ← decodeStr kv.2
      pure (kv.1, v)
  | _ => .error (s2b "json: cannot unmarshal value into titles map")

/-- Modelled from the spec: decode a list of strings (`aliases`). -/
def decodeStrList : Json → Except GoStr (List GoStr)
  | .null => .ok []
  | .arr items => items.mapM decodeStr
  | _ => .error (s2b "json: cannot unmarshal value into string list")

/-- First binding of `key` in a JSON object's fields. -/
def jsonLookup : List (GoStr × Json) → GoStr → Option Json
  | [], _ => none
  | kv :: r, key => if kv.1 = key then some kv.2 else jsonLookup r key

/-- Decode an optional field with a given decoder and default. -/
def decodeField {α : Type} (fields : List (GoStr × Json)) (key : GoStr)
    (dec : Json → Except GoStr α) (dflt : α) : Except GoStr α :=
  match jsonLookup fields key with
  | none => .ok dflt
  | some j => dec j

/-- Modelled from the spec: decode one Link entity. -/
def decodeLink : Json → Except GoStr Link
  | .obj fields => do
    let rel ← decodeField fields (s2b "rel") decodeStr []
    let typ ← decodeField fields (s2b "type") decodeStr []
    let href ← decodeField fields (s2b "href") decodeStr []
    let template ← decodeField fields (s2b "template") decodeStr []
    let titles ← decodeField fields (s2b "titles") decodeTitles []
    let properties ← decodeField fields (s2b "properties") decodeProperties []
    pure { rel := rel, typ := typ, href := href, template := template,
           titles := titles, properties := properties }
  | _ => .error (s2b "json: cannot unmarshal value into Link")

/-- Modelled from the spec: decode a list of Links, preserving order. -/
def decodeLinks : Json → Except GoStr (List Link)
  | .null => .ok []
  | .arr items => items.mapM decodeLink
  | _ => .error (s2b "json: cannot unmarshal value into link list")

/-- Modelled from the spec: decode a JSON document into a JRD; unknown members
are ignored, missing members default to empty, a malformed member is a decode
error. -/
def decodeJRD : Json → Except GoStr JRD
  | .obj fields => do
    let subject ← decodeField fields (s2b "subject") decodeStr []
    let expires ← decodeField fields (s2b "expires") (fun j => do
      let s ← decodeStr j
      pure (some s)) none
    let aliases ← decodeField fields (s2b "aliases") decodeStrList []
    let properties ← decodeField fields (s2b "properties") decodeProperties []
    let links ← decodeField fields (s2b "links") decodeLinks []
    pure { subject := subject, expires := expires, aliases := aliases,
           properties := properties, links := links }
  | _ => .error (s2b "json: cannot unmarshal value into JRD")

/-- Drop JSON whitespace. -/
def skipWS (s : GoStr) : GoStr :=
  s.dropWhile fun c => c = 32 || c = 9 || c = 10 || c = 13

/-- Bytes that may appear in a JSON number literal. -/
def isNumByte (c : Byte) : Bool :=
  NetUrl.isDigitB c || c = 45 || c = 43 || c = 46 || c = 101 || c = 69

/-- Translate a JSON string escape byte (after a backslash); the common
escapes are mapped, `\u` sequences are not interpreted (no claim touches
them). -/
def escCharJson (c : Byte) : Byte :=
  if c = 110 then 10
  else if c = 116 then 9
  else if c = 114 then 13
  else if c = 98 then 8
  else if c = 102 then 12
  else c

/-- Scan a JSON string body up to the closing quote. -/
def jsonStrAux : GoStr → Except GoStr (GoStr × GoStr)
  | [] => .error (s2b "unexpected end of JSON input")
  | c :: r =>
    if c = 34 then .ok ([], r)
    else if c = 92 then
      match r with
      | [] => .error (s2b "unexpected end of JSON input")
      | e :: r2 => do
        let p ← jsonStrAux r2
        pure (escCharJson e :: p.1, p.2)
    else do
      let p ← jsonStrAux r
      pure (c :: p.1, p.2)

mutual

/-- Modelled from the spec: a recursive-descent JSON value parser (fuelled;
the fuel given by `jsonParse` always suffices). -/
def jsonVal : Nat → GoStr → Except GoStr (Json × GoStr)
  | 0, _ => .error (s2b "json: depth limit")
  | fuel+1, s =>
    match skipWS s with
    | [] => .error (s2b "unexpected end of JSON input")
    | c :: r =>
      if c = 34 then do
        let p ← jsonStrAux r
        pure (.str p.1, p.2)
      else if c = 123 then jsonObj fuel r true
      else if c = 91 then jsonArr fuel r true
      else if startsWith (c :: r) (s2b "null") then .ok (.null, (c :: r).drop 4)
      else if startsWith (c :: r) (s2b "true") then .ok (.boolean true, (c :: r).drop 4)
      else if startsWith (c :: r) (s2b "false") then .ok (.boolean false, (c :: r).drop 5)
      else if isNumByte c then
        .ok (.num ((c :: r).takeWhile isNumByte), (c :: r).dropWhile isNumByte)
      else .error (s2b "invalid character looking for beginning of value")

/-- Parse the remainder of a JSON array (after `[`). -/
def jsonArr (fuel : Nat) (s : GoStr) (first : Bool) : Except GoStr (Json × GoStr) :=
  match fuel with
  | 0 => .error (s2b "json: depth limit")
  | fuel+1 =>
    match skipWS s with
    | [] => .error (s2b "unexpected end of JSON input")
    | c :: r =>
      if c = 93 && first then .ok (.arr [], r)
      else do
        let p ← jsonVal fuel (c :: r)
        match skipWS p.2 with
        | [] => .error (s2b "unexpected end of JSON input")
        | d :: r2 =>
          if d = 93 then .ok (.arr [p.1], r2)
          else if d = 44 then do
            let q ← jsonArr fuel r2 false
            match q.1 with
            | .arr items => pure (.arr (p.1 :: items), q.2)
            | _ => .error (s2b "json: internal")
          else .error (s2b "invalid character after array element")

/-- Parse the remainder of a JSON object (after the opening brace). -/
def jsonObj (fuel : Nat) (s : GoStr) (first : Bool) : Except GoStr (Json × GoStr) :=
  match fuel with
  | 0 => .error (s2b "json: depth limit")
  | fuel+1 =>
    match skipWS s with
    | [] => .error (s2b "unexpected end of JSON input")
    | c :: r =>
      if c = 125 && first then .ok (.obj [], r)
      else if c = 34 then do
        let k ← jsonStrAux r
        match skipWS k.2 with
        | [] => .error (s2b "unexpected end of JSON input")
        | d :: r2 =>
          if d = 58 then do
            let v ← jsonVal fuel r2
            match skipWS v.2 with
            | [] => .error (s2b "unexpected end of JSON input")
            | e :: r3 =>
              if e = 125 then .ok (.obj [(k.1, v.1)], r3)
              else if e = 44 then do
                let q ← jsonObj fuel r3 false
                match q.1 with
                | .obj fields => pure (.obj ((k.1, v.1) :: fields), q.2)
                | _ => .error (s2b "json: internal")
              else .error (s2b "invalid character after object member")
          else .error (s2b "invalid character after object key")
      else .error (s2b "invalid character looking for beginning of object key")

end

/-- Modelled from the spec: parse bytes into a JSON value (trailing
non-whitespace is an error, as for `json.Unmarshal`). -/
def jsonParse (content : GoStr) : Except GoStr Json := do
  let p ← jsonVal (2 * content.length + 2) content
  if skipWS p.2 = [] then pure p.1
  else .error (s2b "invalid character after top-level value")

/-- Modelled from the spec: webfinger's `ParseJRD` — decode bytes into a JRD
or fail with a decode error. -/
def ParseJRD (content : GoStr) : Except GoStr JRD := do
  let j ← jsonParse content
  decodeJRD j

end Jrd

namespace Webfinger

open GoStrings

/-- The outcome of one HTTP GET through the injected transport collaborator:
either a transport-level error with its message, or a response carrying the
numeric status code, the status text (Go's `res.Status`), and the body. -/
inductive TransportResult where
  | err (msg : GoStr)
  | resp (statusCode : Nat) (status : GoStr) (body : GoStr)

/-- The injected HTTP collaborator (`http.Client.Get`, redirects included):
a function from the URL string to the result of the GET. -/
def Transport : Type := GoStr → TransportResult

/-- The status / body handling at the end of `Client.fetchJRD`: any status
outside 200..299 fails with the status text; otherwise the body is decoded. -/
def finishFetch (code : Nat) (status : GoStr) (body : GoStr) : Except GoStr Jrd.JRD :=
  if ¬(200 ≤ code ∧ code < 300) then .error status
  else Jrd.ParseJRD body

/-- webfinger's `Client.fetchJRD`, instrumented with the list of GET request
URLs it issues (the source logs exactly these): GET the URL; on a transport
error whose lowered text mentions "connection refused" or
"ssl_certificate_error" and with `AllowHTTP` set, retry once with the scheme
downgraded to `http`; then check the status and decode the body. -/
def fetchJRD (allowHTTP : Bool) (t : Transport) (jrdURL : NetUrl.URL) :
    Except GoStr Jrd.JRD × List GoStr :=
  let u1 := NetUrl.urlString jrdURL
  match t u1 with
  | .err msg =>
    let errString := toLowerStr msg
    if (containsSub errString (s2b "connection refused") ||
        containsSub errString (s2b "ssl_certificate_error")) && allowHTTP then
      let u2 := NetUrl.urlString { jrdURL with scheme := s2b "http" }
      match t u2 with
      | .err msg2 => (.error msg2, [u1, u2])
      | .resp code status body => (finishFetch code status body, [u1, u2])
    else (.error msg, [u1])
  | .resp code status body => (finishFetch code status body, [u1])

/-- webfinger's `Client` (the logger collaborator has no observable effect on
results and is omitted). -/
structure Client where
  allowHTTP : Bool := false
  transport : Transport

/-- webfinger's `Client.LookupResource`, instrumented like `fetchJRD`. -/
def Client.LookupResource (c : Client) (resource : Resource) (rels : List GoStr) :
    Except GoStr Jrd.JRD × List GoStr :=
  fetchJRD c.allowHTTP c.transport (JRDURL resource rels)

/-- webfinger's `Client.Lookup`: parse the identifier, then look up the
resource; a parse failure is returned at once. -/
def Client.Lookup (c : Client) (identifier : GoStr) (rels : List GoStr) :
    Except GoStr Jrd.JRD × List GoStr :=
  match Parse identifier with
  | .error e => (.error e, [])
  | .ok resource => c.LookupResource resource rels

end Webfinger

namespace Webfinger

open GoStrings

/-- The condition under which `fetchJRD` downgrades to `http` and retries:
the first GET failed at transport level, the lowered error text mentions
"connection refused" or "ssl_certificate_error", and `AllowHTTP` is set. -/
def fallbackCond (allowHTTP : Bool) : TransportResult → Bool
  | .err msg =>
    (containsSub (toLowerStr msg) (s2b "connection refused") ||
      containsSub (toLowerStr msg) (s2b "ssl_certificate_error")) && allowHTTP
  | .resp _ _ _ => false

end Webfinger

namespace GoStrings

theorem containsB_append (a b : GoStr) (c : Byte) :
    containsB (a ++ b) c = (containsB a c || containsB b c) := by
  induction a with
  | nil => simp [containsB]
  | cons x r ih => simp [containsB, ih, Bool.or_assoc]

theorem splitB_not_contains {s : GoStr} {sep : Byte} (cutc : Bool)
    (h : containsB s sep = false) : splitB s sep cutc = (s, []) := by
  induction s with
  | nil => simp [splitB]
  | cons c r ih =>
    simp only [containsB, Bool.or_eq_false_iff, decide_eq_false_iff_not] at h
    simp [splitB, h.1, ih h.2]

theorem splitB_append {pre : GoStr} {sep : Byte} (s : GoStr) (cutc : Bool)
    (h : containsB pre sep = false) :
    splitB (pre ++ s) sep cutc = (pre ++ (splitB s sep cutc).1, (splitB s sep cutc).2) := by
  induction pre with
  | nil => simp
  | cons c r ih =>
    simp only [containsB, Bool.or_eq_false_iff, decide_eq_false_iff_not] at h
    simp [splitB, h.1, ih h.2]

theorem splitN2_not_contains {s : GoStr} {sep : Byte}
    (h : containsB s sep = false) : splitN2 s sep = (s, none) := by
  induction s with
  | nil => simp [splitN2]
  | cons c r ih =>
    simp only [containsB, Bool.or_eq_false_iff, decide_eq_false_iff_not] at h
    simp [splitN2, h.1, ih h.2]

theorem splitN2_append {pre : GoStr} {sep : Byte} (rest : GoStr)
    (h : containsB pre sep = false) :
    splitN2 (pre ++ sep :: rest) sep = (pre, some rest) := by
  induction pre with
  | nil => simp [splitN2]
  | cons c r ih =>
    simp only [containsB, Bool.or_eq_false_iff, decide_eq_false_iff_not] at h
    simp [splitN2, h.1, ih h.2]

theorem containsB_iff_mem {s : GoStr} {c : Byte} : containsB s c = true ↔ c ∈ s := by
  induction s with
  | nil => simp [containsB]
  | cons x r ih =>
    simp only [containsB, Bool.or_eq_true, decide_eq_true_eq, ih, List.mem_cons]
    constructor
    · rintro (h | h)
      · exact Or.inl h.symm
      · exact Or.inr h
    · rintro (h | h)
      · exact Or.inl h.symm
      · exact Or.inr h

end GoStrings

theorem except_bind_ok {α β ε : Type} (a : α) (k : α → Except ε β) :
    (Except.ok a >>= k) = k a := rfl

theorem except_bind_error {α β ε : Type} (e : ε) (k : α → Except ε β) :
    ((Except.error e : Except ε α) >>= k) = .error e := rfl

theorem except_pure {α ε : Type} (a : α) : (pure a : Except ε α) = .ok a := rfl

theorem except_bind_ok_inv {α β ε : Type} {e : Except ε α} {k : α → Except ε β} {b : β}
    (h : (e >>= k) = .ok b) : ∃ a, e = .ok a ∧ k a = .ok b := by
  cases e with
  | error f => rw [except_bind_error] at h; cases h
  | ok a => exact ⟨a, rfl, h⟩

namespace Webfinger

open GoStrings NetUrl

theorem s2b_acctColon : s2b "acct:" = [97, 99, 99, 116, 58] := by decide

theorem s2b_acct : s2b "acct" = [97, 99, 99, 116] := by decide

theorem getScheme_acct (s : GoStr) :
    NetUrl.getScheme (s2b "acct:" ++ s) = .ok (s2b "acct", s) := by
  rw [s2b_acctColon, s2b_acct]
  simp +decide [NetUrl.getScheme, NetUrl.getSchemeAux]

theorem parseInner_ok_scheme (raw : GoStr) (u : NetUrl.URL)
    (h : NetUrl.parseInner raw = .ok u) :
    raw = [42] ∨ ∃ p, NetUrl.getScheme raw = .ok p ∧ u.scheme = toLowerStr p.1 := by
  unfold NetUrl.parseInner at h
  split at h
  · cases h
  · split at h
    · next heq => exact Or.inl heq
    · cases hp : NetUrl.getScheme raw with
      | error e => rw [hp, except_bind_error] at h; cases h
      | ok p =>
        rw [hp, except_bind_ok] at h
        refine Or.inr ⟨p, rfl, ?_⟩
        obtain ⟨s1, s2⟩ := p
        simp only at h
        repeat' split at h
        all_goals
          first
            | (cases h; done)
            | (repeat obtain ⟨_, _, h⟩ := except_bind_ok_inv h
               rw [Except.ok.injEq] at h
               subst h
               rfl)

theorem parseInner_acct_scheme (s : GoStr) (u : NetUrl.URL)
    (h : NetUrl.parseInner (s2b "acct:" ++ s) = .ok u) : u.scheme = s2b "acct" := by
  rcases parseInner_ok_scheme _ _ h with h42 | ⟨p, hp, hs⟩
  · exact absurd (congrArg List.length h42) (by rw [s2b_acctColon]; simp)
  · rw [getScheme_acct, Except.ok.injEq] at hp
    subst hp
    rw [hs]
    show toLowerStr (s2b "acct") = s2b "acct"
    decide

theorem urlParse_acct_scheme (s : GoStr) (u : NetUrl.URL)
    (h : NetUrl.urlParse (s2b "acct:" ++ s) = .ok u) : u.scheme = s2b "acct" := by
  unfold NetUrl.urlParse at h
  have hsplit : splitB (s2b "acct:" ++ s) 35 true =
      (s2b "acct:" ++ (splitB s 35 true).1, (splitB s 35 true).2) :=
    splitB_append s true (by decide)
  rw [hsplit] at h
  simp only at h
  obtain ⟨u0, hu0, hk⟩ := except_bind_ok_inv h
  have hs0 := parseInner_acct_scheme _ _ hu0
  split at hk
  · rw [except_pure, Except.ok.injEq] at hk
    subst hk; exact hs0
  · obtain ⟨f, _, hk2⟩ := except_bind_ok_inv hk
    rw [except_pure, Except.ok.injEq] at hk2
    subst hk2
    exact hs0

theorem ParseAux_acct (fuel : Nat) (s : GoStr) :
    ParseAux (fuel+1) (s2b "acct:" ++ s) =
      match NetUrl.urlParse (s2b "acct:" ++ s) with
      | .error e => .error e
      | .ok u => .ok u := by
  unfold ParseAux
  cases hu : NetUrl.urlParse (s2b "acct:" ++ s) with
  | error e => rfl
  | ok u =>
    have hs := urlParse_acct_scheme s u hu
    simp only
    rw [if_neg]
    rw [hs, s2b_acct]
    simp

/-- Go's defining equation of `Parse`: exactly the source's recursion. -/
theorem Parse_eq (rawurl : GoStr) :
    Parse rawurl =
      match NetUrl.urlParse rawurl with
      | .error e => .error e
      | .ok u =>
        if u.scheme = [] then
          match splitN2 rawurl 64 with
          | (_, none) => .error (s2b "URL must be absolute, or an email address: " ++ rawurl)
          | (_, some _) => Parse (s2b "acct:" ++ rawurl)
        else .ok u := by
  show ParseAux 2 rawurl = _
  unfold ParseAux
  cases NetUrl.urlParse rawurl with
  | error e => rfl
  | ok u =>
    simp only
    split
    · cases hsp : splitN2 rawurl 64 with
      | mk a b =>
        cases b with
        | none => rfl
        | some after =>
          show ParseAux 1 (s2b "acct:" ++ rawurl) = ParseAux 2 (s2b "acct:" ++ rawurl)
          rw [ParseAux_acct 0, ParseAux_acct 1]
    · rfl


end Webfinger

open GoStrings Webfinger Jrd in
/-- C1: `WebFingerHost` returns a non-empty host verbatim; with an empty host
and scheme `acct`/`mailto` it returns everything after the first `@` of the
opaque part (later `@`s included in the returned host); in every other case
(empty host with another scheme, or no `@` in the opaque part) it returns the
empty string.  In particular opaque `bob@example.com` gives `example.com` and
opaque `juliet%40capulet.example@shoppingsite.example` gives
`shoppingsite.example`. -/
theorem webFingerHost_spec :
    (∀ r : Resource,
      (r.host ≠ [] → WebFingerHost r = r.host) ∧
      ((r.host = [] ∧ (r.scheme = s2b "acct" ∨ r.scheme = s2b "mailto")) →
        ∀ l d : GoStr, r.opaquePart = l ++ 64 :: d → containsB l 64 = false →
          WebFingerHost r = d) ∧
      ((r.host = [] ∧ ¬(r.scheme = s2b "acct" ∨ r.scheme = s2b "mailto")) →
        WebFingerHost r = []) ∧
      ((r.host = [] ∧ containsB r.opaquePart 64 = false) → WebFingerHost r = [])) ∧
    WebFingerHost { scheme := s2b "acct", opaquePart := s2b "bob@example.com" } =
      s2b "example.com" ∧
    WebFingerHost
        { scheme := s2b "acct",
          opaquePart := s2b "juliet%40capulet.example@shoppingsite.example" } =
      s2b "shoppingsite.example" := by
  refine ⟨fun r => ⟨?_, ?_, ?_, ?_⟩, by decide, by decide⟩
  · intro h
    simp [WebFingerHost, h]
  · rintro ⟨hh, hs⟩ l d hop hl
    have : splitN2 r.opaquePart 64 = (l, some d) := by rw [hop]; exact splitN2_append d hl
    rcases hs with hs | hs <;> simp [WebFingerHost, hh, hs, this]
  · rintro ⟨hh, hs⟩
    rw [not_or] at hs
    simp [WebFingerHost, hh, hs.1, hs.2]
  · rintro ⟨hh, hno⟩
    have : splitN2 r.opaquePart 64 = (r.opaquePart, none) := splitN2_not_contains hno
    by_cases hs : r.scheme = s2b "acct" <;>
      by_cases hm : r.scheme = s2b "mailto" <;>
        simp [WebFingerHost, hh, hs, hm, this]

open GoStrings Webfinger in
/-- C1 witness: the implications of `webFingerHost_spec` applied at concrete
resources. -/
theorem webFingerHost_spec_witness :
    WebFingerHost { host := s2b "example.com", scheme := s2b "http" } = s2b "example.com" ∧
    WebFingerHost { scheme := s2b "acct", opaquePart := s2b "juliet@capulet.example@shoppingsite.example" } =
      s2b "capulet.example@shoppingsite.example" ∧
    WebFingerHost { scheme := s2b "file", path := s2b "/example" } = [] ∧
    WebFingerHost { scheme := s2b "acct", opaquePart := s2b "nobody" } = [] := by
  refine ⟨?_, ?_, ?_, ?_⟩
  · exact (webFingerHost_spec.1 { host := s2b "example.com", scheme := s2b "http" }).1 (by decide)
  · exact (webFingerHost_spec.1
      { scheme := s2b "acct",
        opaquePart := s2b "juliet@capulet.example@shoppingsite.example" }).2.1 (by decide)
      (s2b "juliet") (s2b "capulet.example@shoppingsite.example") (by decide) (by decide)
  · exact (webFingerHost_spec.1 { scheme := s2b "file", path := s2b "/example" }).2.2.1 (by decide)
  · exact (webFingerHost_spec.1 { scheme := s2b "acct", opaquePart := s2b "nobody" }).2.2.2 (by decide)

namespace Jrd

theorem findLinkByRel_none_iff (rel : GoStr) (ls : List Link) :
    findLinkByRel rel ls = none ↔ ∀ l ∈ ls, l.rel ≠ rel := by
  induction ls with
  | nil => simp [findLinkByRel]
  | cons l r ih =>
    by_cases h : l.rel = rel
    · simp [findLinkByRel, h]
    · simp [findLinkByRel, h, ih]

theorem findLinkByRel_first (rel : GoStr) (ls : List Link) (i : Nat) (hi : i < ls.length)
    (hrel : (ls.get ⟨i, hi⟩).rel = rel)
    (hbefore : ∀ j (hj : j < i), (ls.get ⟨j, by omega⟩).rel ≠ rel) :
    findLinkByRel rel ls = some (ls.get ⟨i, hi⟩) := by
  induction ls generalizing i with
  | nil => simp at hi
  | cons l r ih =>
    cases i with
    | zero => simp [findLinkByRel, hrel] at hrel ⊢; simp [hrel]
    | succ n =>
      have h0 : l.rel ≠ rel := hbefore 0 (Nat.succ_pos n)
      simp only [findLinkByRel, if_neg h0]
      exact ih n (Nat.lt_of_succ_lt_succ hi) hrel
        (fun j hj => hbefore (j + 1) (Nat.succ_lt_succ hj))

end Jrd

open GoStrings Jrd in
/-- C3: `GetLinkByRel` returns the first Link in original document order whose
`rel` equals the argument (so under ties the earliest one), and an absent
result exactly when no Link matches. -/
theorem getLinkByRel_spec :
    ∀ (doc : JRD) (rel : GoStr),
      (doc.GetLinkByRel rel = none ↔ ∀ l ∈ doc.links, l.rel ≠ rel) ∧
      (∀ i (hi : i < doc.links.length),
        (doc.links.get ⟨i, hi⟩).rel = rel →
        (∀ j (hj : j < i), (doc.links.get ⟨j, by omega⟩).rel ≠ rel) →
        doc.GetLinkByRel rel = some (doc.links.get ⟨i, hi⟩)) := by
  intro doc rel
  refine ⟨findLinkByRel_none_iff rel doc.links, ?_⟩
  intro i hi hrel hbefore
  exact findLinkByRel_first rel doc.links i hi hrel hbefore

open GoStrings Jrd in
/-- C3 witness: on a document with two `author` links and one `copyright`
link, `GetLinkByRel` returns the first `author` link, and an unknown rel gives
an absent result. -/
theorem getLinkByRel_spec_witness :
    JRD.GetLinkByRel
        { links := [{ rel := s2b "author", href := s2b "h1" },
                    { rel := s2b "author", href := s2b "h2" },
                    { rel := s2b "copyright", template := s2b "t" }] }
        (s2b "author") = some { rel := s2b "author", href := s2b "h1" } ∧
    JRD.GetLinkByRel
        { links := [{ rel := s2b "author", href := s2b "h1" }] } (s2b "missing") = none := by
  constructor
  · exact (getLinkByRel_spec
      { links := [{ rel := s2b "author", href := s2b "h1" },
                  { rel := s2b "author", href := s2b "h2" },
                  { rel := s2b "copyright", template := s2b "t" }] } (s2b "author")).2
      0 (by decide) (by decide) (by omega)
  · exact ((getLinkByRel_spec
      { links := [{ rel := s2b "author", href := s2b "h1" }] } (s2b "missing")).1).2
      (by decide)

namespace Jrd

theorem decodeProperties_null_binding (fields : List (GoStr × Json)) (key : GoStr)
    (ps : List (GoStr × Option GoStr))
    (hdec : decodeProperties (.obj fields) = .ok ps)
    (hkey : jsonLookup fields key = some .null) :
    lookupProp ps key = some none := by
  induction fields generalizing ps with
  | nil => simp [jsonLookup] at hkey
  | cons kv r ih =>
    simp only [decodeProperties, List.mapM_cons] at hdec
    obtain ⟨b, hb, hdec⟩ := except_bind_ok_inv hdec
    obtain ⟨rest, hrest, hdec2⟩ := except_bind_ok_inv hdec
    obtain ⟨v1, hv1, hb2⟩ := except_bind_ok_inv hb
    rw [except_pure, Except.ok.injEq] at hb2 hdec2
    subst hb2 hdec2
    by_cases hk : kv.1 = key
    · rw [jsonLookup] at hkey
      rw [if_pos hk] at hkey
      rw [Option.some.injEq] at hkey
      rw [hkey] at hv1
      simp only [decodeOptStr, Except.ok.injEq] at hv1
      simp [lookupProp, hk, ← hv1]
    · rw [jsonLookup, if_neg hk] at hkey
      simp only [lookupProp, if_neg hk]
      exact ih rest (by simpa [decodeProperties] using hrest) hkey

theorem decodeProperties_total (fields : List (GoStr × Json))
    (h : fields.all (fun kv => isSimpleVal kv.2) = true) :
    ∃ ps, decodeProperties (.obj fields) = .ok ps := by
  induction fields with
  | nil => exact ⟨[], rfl⟩
  | cons kv r ih =>
    rw [List.all_cons, Bool.and_eq_true] at h
    obtain ⟨ps, hps⟩ := ih h.2
    have hv : ∃ v, decodeOptStr kv.2 = .ok v := by
      have h1 := h.1
      cases hj : kv.2 <;> rw [hj] at h1 <;> simp [isSimpleVal] at h1 <;> exact ⟨_, rfl⟩
    obtain ⟨v, hv⟩ := hv
    refine ⟨(kv.1, v) :: ps, ?_⟩
    simp only [decodeProperties, List.mapM_cons] at hps ⊢
    rw [hv, except_bind_ok, except_pure, except_bind_ok, hps, except_bind_ok, except_pure]

end Jrd

open GoStrings Jrd in
/-- C4: `GetProperty` (on documents and on links alike) returns the stored
value for a key present with a non-null value, and the empty string both for
an absent key and for a key present with an explicit null; decoding a JSON
object whose property value is an explicit null succeeds and keeps the
present-with-null binding (`some none`) structurally distinct from absence
(`none`). -/
theorem getProperty_spec :
    (∀ (doc : JRD) (key : GoStr),
      (lookupProp doc.properties key = none → doc.GetProperty key = []) ∧
      (lookupProp doc.properties key = some none → doc.GetProperty key = []) ∧
      (∀ v, lookupProp doc.properties key = some (some v) → doc.GetProperty key = v)) ∧
    (∀ (l : Link) (key : GoStr),
      (lookupProp l.properties key = none → l.GetProperty key = []) ∧
      (lookupProp l.properties key = some none → l.GetProperty key = []) ∧
      (∀ v, lookupProp l.properties key = some (some v) → l.GetProperty key = v)) ∧
    (∀ (fields : List (GoStr × Json)) (key : GoStr) (ps : List (GoStr × Option GoStr)),
      decodeProperties (.obj fields) = .ok ps →
      jsonLookup fields key = some .null →
      lookupProp ps key = some none ∧ lookupProp ps key ≠ none) ∧
    (∀ (fields : List (GoStr × Json)),
      fields.all (fun kv => isSimpleVal kv.2) = true →
      ∃ ps, decodeProperties (.obj fields) = .ok ps) := by
  refine ⟨?_, ?_, ?_, decodeProperties_total⟩
  · intro doc key
    refine ⟨?_, ?_, ?_⟩ <;> intro h0 <;> try intro h1
    · simp [JRD.GetProperty, getProperty, h0]
    · simp [JRD.GetProperty, getProperty, h0]
    · simp [JRD.GetProperty, getProperty, h1]
  · intro l key
    refine ⟨?_, ?_, ?_⟩ <;> intro h0 <;> try intro h1
    · simp [Link.GetProperty, getProperty, h0]
    · simp [Link.GetProperty, getProperty, h0]
    · simp [Link.GetProperty, getProperty, h1]
  · intro fields key ps hdec hkey
    have := decodeProperties_null_binding fields key ps hdec hkey
    simp [this]

open GoStrings Jrd in
/-- C4 witness: `getProperty_spec` applied to the RFC 6415 example document:
key `a` is present with value `1.3`, key `b` is present with an explicit null,
key `c` is absent; decode of `{a: "1.3", b: null}` succeeds. -/
theorem getProperty_spec_witness :
    JRD.GetProperty { properties := [(s2b "a", some (s2b "1.3")), (s2b "b", none)] } (s2b "a") =
      s2b "1.3" ∧
    JRD.GetProperty { properties := [(s2b "a", some (s2b "1.3")), (s2b "b", none)] } (s2b "b") =
      [] ∧
    JRD.GetProperty { properties := [(s2b "a", some (s2b "1.3")), (s2b "b", none)] } (s2b "c") =
      [] ∧
    lookupProp [(s2b "a", some (s2b "1.3")), (s2b "b", none)] (s2b "b") ≠ none ∧
    (∃ ps, decodeProperties
      (.obj [(s2b "a", Json.str (s2b "1.3")), (s2b "b", Json.null)]) = .ok ps) := by
  refine ⟨?_, ?_, ?_, ?_, ?_⟩
  · exact (getProperty_spec.1 { properties := [(s2b "a", some (s2b "1.3")), (s2b "b", none)] }
      (s2b "a")).2.2 (s2b "1.3") (by decide)
  · exact (getProperty_spec.1 { properties := [(s2b "a", some (s2b "1.3")), (s2b "b", none)] }
      (s2b "b")).2.1 (by decide)
  · exact (getProperty_spec.1 { properties := [(s2b "a", some (s2b "1.3")), (s2b "b", none)] }
      (s2b "c")).1 (by decide)
  · exact (getProperty_spec.2.2.1 [(s2b "a", Json.str (s2b "1.3")), (s2b "b", Json.null)]
      (s2b "b") [(s2b "a", some (s2b "1.3")), (s2b "b", none)] rfl rfl).2
  · exact getProperty_spec.2.2.2 [(s2b "a", Json.str (s2b "1.3")), (s2b "b", Json.null)] rfl

namespace Webfinger

theorem encodeValues_rel_resource (rels : List GoStr) (rs : GoStr) :
    encodeValues [(s2b "resource", [rs]), (s2b "rel", rels)] =
      List.intercalate [38]
        ((rels.map fun v => s2b "rel=" ++ queryEscape v) ++
          [s2b "resource=" ++ queryEscape rs]) := by
  have hsort : sortByKey [(s2b "resource", [rs]), (s2b "rel", rels)] =
      [(s2b "rel", rels), (s2b "resource", [rs])] := by
    simp +decide [sortByKey, insertSorted]
  rw [encodeValues, hsort]
  have hrel : (fun v => queryEscape (s2b "rel") ++ 61 :: queryEscape v) =
      (fun v => s2b "rel=" ++ queryEscape v) := by
    funext v
    rw [show queryEscape (s2b "rel") = s2b "rel" from by decide]
    rw [show s2b "rel" = [114, 101, 108] from by decide,
        show s2b "rel=" = [114, 101, 108, 61] from by decide]
    rfl
  have hres : queryEscape (s2b "resource") ++ 61 :: queryEscape rs =
      s2b "resource=" ++ queryEscape rs := by
    rw [show queryEscape (s2b "resource") = s2b "resource" from by decide]
    rw [show s2b "resource" = [114, 101, 115, 111, 117, 114, 99, 101] from by decide,
        show s2b "resource=" = [114, 101, 115, 111, 117, 114, 99, 101, 61] from by decide]
    rfl
  simp only [List.flatMap_cons, List.flatMap_nil, List.map_cons, List.map_nil, List.append_nil,
    hrel, hres]

end Webfinger

open GoStrings Webfinger NetUrl in
/-- C5: `JRDURL` builds a URL with scheme `https`, host `WebFingerHost r`,
path `/.well-known/webfinger`, and a query string holding one `rel=`
parameter per requested relation in the order given (no deduplication)
followed by the single `resource=` parameter set to the resource's canonical
string form; on the resource parsed from `bob@example.com` with relations
`a`, `b` the resulting URL string is exactly the expected one. -/
theorem jrdURL_spec :
    (∀ (r : Resource) (rels : List GoStr),
      (JRDURL r rels).scheme = s2b "https" ∧
      (JRDURL r rels).host = WebFingerHost r ∧
      (JRDURL r rels).path = s2b "/.well-known/webfinger" ∧
      (JRDURL r rels).rawQuery =
        List.intercalate [38]
          ((rels.map fun v => s2b "rel=" ++ queryEscape v) ++
            [s2b "resource=" ++ queryEscape (resourceString r)])) ∧
    (Parse (s2b "bob@example.com")).map
        (fun r => NetUrl.urlString (JRDURL r [s2b "a", s2b "b"])) =
      .ok (s2b
        "https://example.com/.well-known/webfinger?rel=a&rel=b&resource=acct%3Abob%40example.com") := by
  refine ⟨fun r rels => ⟨rfl, rfl, rfl, ?_⟩, by decide⟩
  exact encodeValues_rel_resource rels (resourceString r)

open GoStrings Webfinger in
/-- C6: whenever the GET that produced a response (be it the direct one or the
single HTTP fallback) returns a status outside 200..299, the lookup fails with
exactly the response's status text — for every body, so the body is never
decoded. -/
theorem fetch_status_error_spec :
    ∀ (allowHTTP : Bool) (t : Transport) (u : NetUrl.URL) (code : Nat) (status body : GoStr),
      (t (NetUrl.urlString u) = .resp code status body → ¬(200 ≤ code ∧ code < 300) →
        (fetchJRD allowHTTP t u).1 = .error status) ∧
      (∀ msg, t (NetUrl.urlString u) = .err msg →
        (containsSub (toLowerStr msg) (s2b "connection refused") ||
          containsSub (toLowerStr msg) (s2b "ssl_certificate_error")) = true →
        allowHTTP = true →
        t (NetUrl.urlString { u with scheme := s2b "http" }) = .resp code status body →
        ¬(200 ≤ code ∧ code < 300) →
        (fetchJRD allowHTTP t u).1 = .error status) := by
  intro allowHTTP t u code status body
  constructor
  · intro h1 hcode
    rw [fetchJRD, h1]
    simp [finishFetch, hcode]
  · intro msg h1 hmatch hallow h2 hcode
    rw [fetchJRD, h1]
    simp only [hallow, hmatch, Bool.and_self, if_true, Bool.and_true]
    rw [h2]
    simp [finishFetch, hcode]

open GoStrings Webfinger in
/-- C6 witness: a transport answering 404 makes the lookup fail with the
status text `404 Not Found`, whatever the body says. -/
theorem fetch_status_error_spec_witness :
    (fetchJRD false
        (fun _ => .resp 404 (s2b "404 Not Found") (s2b "\x7b\"subject\":\"x\"\x7d"))
        { scheme := s2b "https", host := s2b "example.com" }).1 =
      .error (s2b "404 Not Found") := by
  exact (fetch_status_error_spec false
      (fun _ => .resp 404 (s2b "404 Not Found") (s2b "\x7b\"subject\":\"x\"\x7d"))
      { scheme := s2b "https", host := s2b "example.com" } 404 (s2b "404 Not Found")
      (s2b "\x7b\"subject\":\"x\"\x7d")).1 rfl (by omega)

open GoStrings Webfinger in
/-- C7: a lookup issues at most two GETs; the second is issued exactly when
the first GET fails at transport level with an error matching the
connection-refused / certificate patterns while `AllowHTTP` is set, and then
it targets the same URL with the scheme downgraded to `http`; in every other
transport-error case the first error is propagated with no second request. -/
theorem fetch_fallback_spec :
    ∀ (allowHTTP : Bool) (t : Transport) (u : NetUrl.URL),
      ((fetchJRD allowHTTP t u).2.length ≤ 2) ∧
      ((fetchJRD allowHTTP t u).2 =
        if fallbackCond allowHTTP (t (NetUrl.urlString u)) then
          [NetUrl.urlString u, NetUrl.urlString { u with scheme := s2b "http" }]
        else [NetUrl.urlString u]) ∧
      (∀ msg, t (NetUrl.urlString u) = .err msg →
        fallbackCond allowHTTP (t (NetUrl.urlString u)) = false →
        fetchJRD allowHTTP t u = (.error msg, [NetUrl.urlString u])) := by
  intro allowHTTP t u
  refine ⟨?_, ?_, ?_⟩
  · rw [fetchJRD]
    cases t (NetUrl.urlString u) with
    | err msg =>
      simp only
      split
      · split <;> simp
      · simp
    | resp code status body => simp
  · rw [fetchJRD]
    cases ht : t (NetUrl.urlString u) with
    | err msg =>
      simp only [fallbackCond]
      split
      · cases t (NetUrl.urlString { u with scheme := s2b "http" }) <;> rfl
      · rfl
    | resp code status body => simp [fallbackCond]
  · intro msg hmsg hcond
    rw [hmsg, fallbackCond] at hcond
    rw [fetchJRD, hmsg]
    simp only [hcond, Bool.false_eq_true, if_false]

open GoStrings Webfinger in
/-- C7 witness: with `AllowHTTP` set and a transport refusing the connection,
exactly the https request and then the http request are issued; with
`AllowHTTP` unset the error propagates after the single https request. -/
theorem fetch_fallback_spec_witness :
    (fetchJRD true (fun _ => .err (s2b "connection refused"))
        { scheme := s2b "https", host := s2b "example.com" }).2 =
      [NetUrl.urlString { scheme := s2b "https", host := s2b "example.com" },
       NetUrl.urlString { scheme := s2b "http", host := s2b "example.com" }] ∧
    fetchJRD false (fun _ => .err (s2b "connection refused"))
        { scheme := s2b "https", host := s2b "example.com" } =
      (.error (s2b "connection refused"),
       [NetUrl.urlString { scheme := s2b "https", host := s2b "example.com" }]) := by
  constructor
  · have h := (fetch_fallback_spec true (fun _ => .err (s2b "connection refused"))
      { scheme := s2b "https", host := s2b "example.com" }).2.1
    rw [h, if_pos (by decide)]
  · exact (fetch_fallback_spec false (fun _ => .err (s2b "connection refused"))
      { scheme := s2b "https", host := s2b "example.com" }).2.2
      (s2b "connection refused") rfl (by decide)

open GoStrings Webfinger in
/-- C10: when the identifier fails to parse, `Client.Lookup` returns the parse
error and issues no HTTP request at all. -/
theorem lookup_parse_error_spec :
    ∀ (c : Client) (identifier : GoStr) (rels : List GoStr) (e : GoStr),
      Parse identifier = .error e →
      c.Lookup identifier rels = (.error e, []) := by
  intro c identifier rels e h
  rw [Client.Lookup, h]

open GoStrings Webfinger in
/-- C10 witness: `bob` (no scheme, no `@`) fails to parse and the lookup
issues no request, independently of the transport. -/
theorem lookup_parse_error_spec_witness :
    Client.Lookup
        { allowHTTP := true, transport := fun _ => .err (s2b "connection refused") }
        (s2b "bob") [] =
      (.error (s2b "URL must be absolute, or an email address: bob"), []) := by
  exact lookup_parse_error_spec
    { allowHTTP := true, transport := fun _ => .err (s2b "connection refused") }
    (s2b "bob") [] (s2b "URL must be absolute, or an email address: bob") (by decide)

namespace GoStrings

theorem containsCTL_append (a b : GoStr) :
    NetUrl.containsCTL (a ++ b) = (NetUrl.containsCTL a || NetUrl.containsCTL b) := by
  simp [NetUrl.containsCTL]

theorem endsWith_single_not {s : GoStr} {c : Byte} (h : containsB s c = false) :
    endsWith s [c] = false := by
  cases hs : s.reverse with
  | nil => simp [endsWith, hs, startsWith]
  | cons x t =>
    have hx : x ∈ s := by
      have hx0 : x ∈ s.reverse := by rw [hs]; exact List.mem_cons_self x t
      simpa using hx0
    have hne : ¬(x = c) := by
      intro he
      rw [he] at hx
      rw [← containsB_iff_mem] at hx
      rw [hx] at h
      cases h
    simp [endsWith, hs, startsWith, hne]

theorem splitN2_isSome (s : GoStr) (c : Byte) :
    (splitN2 s c).2.isSome = containsB s c := by
  induction s with
  | nil => simp [splitN2, containsB]
  | cons x r ih =>
    by_cases h : x = c
    · simp [splitN2, containsB, h]
    · simp only [splitN2, containsB, if_neg h]
      rw [ih]
      simp [h]

end GoStrings

namespace NetUrl

theorem parseInner_ok_noCTL (raw : GoStr) (u : URL) (h : parseInner raw = .ok u) :
    containsCTL raw = false := by
  by_contra hc
  rw [Bool.not_eq_false] at hc
  unfold parseInner at h
  rw [if_pos hc] at h
  cases h

theorem urlParse_ok_inner (raw : GoStr) (u : URL) (h : urlParse raw = .ok u)
    (hh : GoStrings.containsB raw 35 = false) : parseInner raw = .ok u := by
  unfold urlParse at h
  rw [GoStrings.splitB_not_contains true hh] at h
  simp only at h
  obtain ⟨url, hurl, hk⟩ := except_bind_ok_inv h
  simp only [if_true, except_pure, Except.ok.injEq] at hk
  rw [hk] at hurl
  exact hurl

end NetUrl

namespace Webfinger

open GoStrings NetUrl

theorem parseInner_acct_opq (raw : GoStr)
    (hctl : containsCTL raw = false) (hq : containsB raw 63 = false)
    (hsl : startsWith raw [47] = false) :
    NetUrl.parseInner (s2b "acct:" ++ raw) = .ok { scheme := s2b "acct", opaquePart := raw } := by
  unfold NetUrl.parseInner
  rw [if_neg (by
    rw [containsCTL_append, hctl]
    simp +decide [containsCTL])]
  rw [if_neg (by
    intro he
    have := congrArg List.length he
    rw [s2b_acctColon] at this
    simp at this)]
  rw [getScheme_acct, except_bind_ok]
  simp only
  rw [endsWith_single_not hq]
  simp only [Bool.false_and, Bool.false_eq_true, if_false]
  rw [splitB_not_contains true hq]
  simp only
  rw [if_pos]
  · rw [show toLowerStr (s2b "acct") = s2b "acct" from by decide]
  · rw [hsl]
    simp +decide

theorem urlParse_acct_opq (raw : GoStr)
    (hctl : containsCTL raw = false) (hq : containsB raw 63 = false)
    (hh : containsB raw 35 = false) (hsl : startsWith raw [47] = false) :
    NetUrl.urlParse (s2b "acct:" ++ raw) = .ok { scheme := s2b "acct", opaquePart := raw } := by
  unfold NetUrl.urlParse
  have hsplit : splitB (s2b "acct:" ++ raw) 35 true = (s2b "acct:" ++ raw, []) := by
    apply splitB_not_contains
    rw [containsB_append, hh]
    simp +decide
  rw [hsplit]
  simp only
  rw [parseInner_acct_opq raw hctl hq hsl, except_bind_ok]
  rfl

theorem ParseAux_scheme_ne (fuel : Nat) : ∀ (raw : GoStr) (r : Resource),
    ParseAux fuel raw = .ok r → r.scheme ≠ [] := by
  induction fuel with
  | zero => intro raw r h; cases h
  | succ n ih =>
    intro raw r h
    unfold ParseAux at h
    cases hu : NetUrl.urlParse raw with
    | error e => rw [hu] at h; cases h
    | ok u =>
      rw [hu] at h
      simp only at h
      split at h
      · split at h
        · cases h
        · exact ih _ _ h
      · next hne =>
        rw [Except.ok.injEq] at h
        subst h
        exact hne

/-- Evaluation of `Parse` on an email-like identifier: if the raw text parses
with an empty scheme, contains an `@`, and is free of the `?`, `#` and
leading-`/` URL delimiters, the result is the `acct` resource whose opaque
part is exactly the raw text. -/
theorem Parse_email_eval (raw : GoStr) (u : NetUrl.URL)
    (hu : NetUrl.urlParse raw = .ok u) (hs0 : u.scheme = [])
    (hat : containsB raw 64 = true) (hq : containsB raw 63 = false)
    (hh : containsB raw 35 = false) (hsl : startsWith raw [47] = false) :
    Parse raw = .ok { scheme := s2b "acct", opaquePart := raw } := by
  have hctl : containsCTL raw = false :=
    NetUrl.parseInner_ok_noCTL raw u (NetUrl.urlParse_ok_inner raw u hu hh)
  obtain ⟨d, hd⟩ : ∃ d, (splitN2 raw 64).2 = some d := by
    have := splitN2_isSome raw 64
    rw [hat] at this
    exact Option.isSome_iff_exists.mp this
  show ParseAux 2 raw = _
  unfold ParseAux
  rw [hu]
  simp only
  rw [if_pos hs0]
  have hsp : splitN2 raw 64 = ((splitN2 raw 64).1, some d) := by
    rw [← hd]
  rw [hsp]
  simp only
  show ParseAux 1 (s2b "acct:" ++ raw) = _
  unfold ParseAux
  rw [urlParse_acct_opq raw hctl hq hh hsl]
  simp only
  rw [if_neg (by rw [s2b_acct]; simp)]

end Webfinger

open GoStrings Webfinger in
/-- C2 counterexample: `a@b?c` is structurally parseable with an empty scheme
and contains exactly one `@`-delimited local/domain pair, yet `Parse` succeeds
with opaque part `a@b`, not the original raw text — the `?c` suffix is split
off into the query component. -/
theorem parse_error_handling_counterexample :
    (NetUrl.urlParse (s2b "a@b?c")).map NetUrl.URL.scheme = .ok [] ∧
    (splitN2 (s2b "a@b?c") 64).2.isSome = true ∧
    (Parse (s2b "a@b?c")).map NetUrl.URL.opaquePart = .ok (s2b "a@b") ∧
    s2b "a@b" ≠ s2b "a@b?c" := by decide

open GoStrings Webfinger in
/-- C2 (amended): every raw text that `url.Parse` rejects structurally (such
as the invalid escape `%`) makes `Parse` fail with that same error; on raw
text that parses with an empty scheme and has no `@` it fails with the
malformed-identifier error; and on raw text that parses with an empty scheme,
contains an `@`, and is free of the URL delimiters `?`, `#` and a leading `/`
(as `local@domain` identifiers are), it succeeds with scheme `acct` and opaque
part exactly the raw text. -/
theorem parse_error_handling_spec :
    (∀ (raw e : GoStr), NetUrl.urlParse raw = .error e → Parse raw = .error e) ∧
    (∀ (raw : GoStr) (u : NetUrl.URL),
      NetUrl.urlParse raw = .ok u → u.scheme = [] → containsB raw 64 = false →
      Parse raw = .error (s2b "URL must be absolute, or an email address: " ++ raw)) ∧
    (∀ (raw : GoStr) (u : NetUrl.URL),
      NetUrl.urlParse raw = .ok u → u.scheme = [] → containsB raw 64 = true →
      containsB raw 63 = false → containsB raw 35 = false → startsWith raw [47] = false →
      Parse raw = .ok { scheme := s2b "acct", opaquePart := raw }) := by
  refine ⟨?_, ?_, Parse_email_eval⟩
  · intro raw e he
    show ParseAux 2 raw = _
    unfold ParseAux
    rw [he]
  · intro raw u hu hs0 hno
    show ParseAux 2 raw = _
    unfold ParseAux
    rw [hu]
    simp only
    rw [if_pos hs0, splitN2_not_contains hno]

open GoStrings Webfinger in
/-- C2 witness: `bob@example.com` becomes the `acct` resource with the raw
text as opaque part; `example.com` fails with the malformed-identifier
error. -/
theorem parse_error_handling_spec_witness :
    Parse (s2b "%") = .error (s2b "invalid URL escape") ∧
    Parse (s2b "bob@example.com") =
      .ok { scheme := s2b "acct", opaquePart := s2b "bob@example.com" } ∧
    Parse (s2b "example.com") =
      .error (s2b "URL must be absolute, or an email address: " ++ s2b "example.com") := by
  refine ⟨?_, ?_, ?_⟩
  · exact parse_error_handling_spec.1 (s2b "%") (s2b "invalid URL escape") (by decide)
  · exact parse_error_handling_spec.2.2 (s2b "bob@example.com")
      { path := s2b "bob@example.com" } (by decide) rfl (by decide) (by decide) (by decide)
      (by decide)
  · exact parse_error_handling_spec.2.1 (s2b "example.com")
      { path := s2b "example.com" } (by decide) rfl (by decide)

open GoStrings Webfinger in
/-- C9 counterexample: `a#b@c` is email-like in the claim's sense (parses with
no scheme, contains an `@`), yet the parsed resource's opaque part is `a`,
not the original input — the fragment is split off before the rewrite. -/
theorem parse_scheme_invariant_counterexample :
    (NetUrl.urlParse (s2b "a#b@c")).map NetUrl.URL.scheme = .ok [] ∧
    containsB (s2b "a#b@c") 64 = true ∧
    (Parse (s2b "a#b@c")).map NetUrl.URL.opaquePart = .ok (s2b "a") ∧
    s2b "a" ≠ s2b "a#b@c" := by decide

open GoStrings Webfinger in
/-- C9 (amended): every successful `Parse` yields a non-empty scheme; an
email-like bare identifier (no scheme, containing `@`) that is free of the
URL delimiters `?`, `#` and a leading `/` is rewritten to scheme `acct` with
the original input as its opaque part. -/
theorem parse_scheme_invariant_spec :
    (∀ (raw : GoStr) (r : Resource), Parse raw = .ok r → r.scheme ≠ []) ∧
    (∀ (raw : GoStr) (u : NetUrl.URL),
      NetUrl.urlParse raw = .ok u → u.scheme = [] → containsB raw 64 = true →
      containsB raw 63 = false → containsB raw 35 = false → startsWith raw [47] = false →
      Parse raw = .ok { scheme := s2b "acct", opaquePart := raw }) :=
  ⟨fun raw r => ParseAux_scheme_ne 2 raw r, Parse_email_eval⟩

open GoStrings Webfinger in
/-- C9 witness: the invariant applied to the resource parsed from an absolute
URL, and the `acct` rewrite applied to `alice@example.org`. -/
theorem parse_scheme_invariant_spec_witness :
    ({ scheme := s2b "http", host := s2b "example.com", path := s2b "/" } : Resource).scheme ≠
      [] ∧
    Parse (s2b "alice@example.org") =
      .ok { scheme := s2b "acct", opaquePart := s2b "alice@example.org" } := by
  constructor
  · exact parse_scheme_invariant_spec.1 (s2b "http://example.com/")
      { scheme := s2b "http", host := s2b "example.com", path := s2b "/" } (by decide)
  · exact parse_scheme_invariant_spec.2 (s2b "alice@example.org")
      { path := s2b "alice@example.org" } (by decide) rfl (by decide) (by decide) (by decide)
      (by decide)


namespace NetUrl

open GoStrings

theorem escape_append (a b : GoStr) (mode : Encoding) :
    escape (a ++ b) mode = escape a mode ++ escape b mode := by
  simp [escape]

theorem hexDig_spec : ∀ b : Byte,
    ishex (upperHexDig (b.val / 16)) = true ∧ ishex (upperHexDig (b.val % 16)) = true ∧
    mkByte (unhex (upperHexDig (b.val / 16)) * 16 + unhex (upperHexDig (b.val % 16))) = b := by
  decide

theorem shouldEscape_pct : ∀ mode : Encoding, shouldEscape 37 mode = true := by
  intro mode
  cases mode <;> decide

theorem escape_all {mode : Encoding} {p : Byte → Bool}
    (h : ∀ b : Byte, (escByte mode b).all p = true) :
    ∀ s : GoStr, ((escape s mode).all p) = true := by
  intro s
  induction s with
  | nil => rfl
  | cons c t ih =>
    show ((escByte mode c ++ escape t mode).all p) = true
    rw [List.all_append, h c, ih]
    rfl

theorem escape_id_of_allowed {mode : Encoding} {s : GoStr}
    (h : ∀ b ∈ s, shouldEscape b mode = false ∧ ¬(b = 32 ∧ mode = .queryComponent)) :
    escape s mode = s := by
  induction s with
  | nil => rfl
  | cons c t ih =>
    have hc := h c (List.mem_cons_self c t)
    show escByte mode c ++ escape t mode = c :: t
    rw [escByte, if_neg (by simp; intro h32; exact fun hq => hc.2 ⟨by exact_mod_cast h32, hq⟩),
      if_neg (by simp [hc.1])]
    rw [ih fun b hb => h b (List.mem_cons_of_mem c hb)]
    rfl

theorem unescape_cons_eq (mode : Encoding) (c : Byte) (rest : GoStr) :
    unescape mode (c :: rest) = unescapeBody mode c rest := by
  conv_lhs => rw [unescape.eq_def]
  rfl

theorem unescape_cons_lit (mode : Encoding) (c : Byte) (rest : GoStr)
    (h37 : ¬c = 37) (h43 : ¬c = 43)
    (hchk : ¬((mode = .host ∨ mode = .zone) ∧ c.val < 128 ∧ shouldEscape c mode = true)) :
    unescape mode (c :: rest) = (unescape mode rest).map (c :: ·) := by
  rw [unescape_cons_eq]
  unfold unescapeBody
  rw [if_neg (by simpa using h37), if_neg (by simpa using h43),
    if_neg (by
      simp only [Bool.and_eq_true, Bool.or_eq_true, decide_eq_true_eq]
      intro hx
      exact hchk ⟨hx.1.1, hx.1.2, hx.2⟩)]
  cases hrest : unescape mode rest <;> simp [Except.map, hrest, except_bind_error, except_bind_ok]

theorem unescape_cons_plus (mode : Encoding) (rest : GoStr) (hm3 : mode ≠ .queryComponent) :
    unescape mode (43 :: rest) = (unescape mode rest).map (43 :: ·) := by
  rw [unescape_cons_eq]
  unfold unescapeBody
  rw [if_neg (by simp), if_pos (by simp)]
  rw [if_neg hm3]
  cases hrest : unescape mode rest <;> simp [Except.map, hrest, except_bind_error, except_bind_ok]

theorem unescape_cons_esc (mode : Encoding) (h l : Byte) (rest : GoStr)
    (hhex : ishex h = true ∧ ishex l = true)
    (hmode : ¬(mode = .host ∧ unhex h < 8 ∧ ¬(h = 50 ∧ l = 53)))
    (hzone : ¬(mode = .zone ∧ (¬(h = 50 ∧ l = 53) ∧ unhex h * 16 + unhex l ≠ 32 ∧
      shouldEscape (mkByte (unhex h * 16 + unhex l)) .host = true))) :
    unescape mode (37 :: h :: l :: rest) =
      (unescape mode rest).map (mkByte (unhex h * 16 + unhex l) :: ·) := by
  rw [unescape_cons_eq]
  show (if ishex h && ishex l then
      if mode = .host && unhex h < 8 && ¬(h = 50 && l = 53) then
        (.error (s2b "invalid URL escape") : Except GoStr GoStr)
      else if mode = .zone &&
          (¬(h = 50 && l = 53) && unhex h * 16 + unhex l ≠ 32 &&
            shouldEscape (mkByte (unhex h * 16 + unhex l)) .host) then
        .error (s2b "invalid URL escape")
      else do
        let t ← unescape mode rest
        pure (mkByte (unhex h * 16 + unhex l) :: t)
    else .error (s2b "invalid URL escape")) = _
  rw [if_pos (by rw [hhex.1, hhex.2]; rfl)]
  rw [if_neg (by
    simp only [Bool.and_eq_true, decide_eq_true_eq, Bool.not_eq_true,
      decide_eq_false_iff_not]
    intro hx
    exact hmode ⟨hx.1.1, hx.1.2, hx.2⟩)]
  rw [if_neg (by
    simp only [Bool.and_eq_true, decide_eq_true_eq, Bool.not_eq_true, ne_eq,
      decide_eq_false_iff_not]
    intro hx
    exact hzone ⟨hx.1, hx.2.1.1, hx.2.1.2, hx.2.2⟩)]
  cases hrest : unescape mode rest <;> simp [Except.map, hrest, except_bind_error, except_bind_ok]

theorem unescape_escape {mode : Encoding} (hm1 : mode ≠ .host) (hm2 : mode ≠ .zone)
    (hm3 : mode ≠ .queryComponent) :
    ∀ s : GoStr, unescape mode (escape s mode) = .ok s := by
  intro s
  induction s with
  | nil => rfl
  | cons c t ih =>
    show unescape mode (escByte mode c ++ escape t mode) = _
    rw [escByte, if_neg (by simp; intro _ hq; exact hm3 hq)]
    by_cases hse : shouldEscape c mode
    · rw [if_pos hse]
      show unescape mode (37 :: upperHexDig (c.val / 16) :: upperHexDig (c.val % 16) ::
        escape t mode) = _
      rw [unescape_cons_esc mode _ _ _ ⟨(hexDig_spec c).1, (hexDig_spec c).2.1⟩
        (by intro hx; exact hm1 hx.1) (by intro hx; exact hm2 hx.1)]
      rw [ih, (hexDig_spec c).2.2]
      rfl
    · rw [if_neg hse]
      show unescape mode (c :: escape t mode) = _
      have hc37 : ¬(c = 37) := by
        intro he
        rw [he, shouldEscape_pct] at hse
        exact hse rfl
      by_cases hc43 : c = 43
      · rw [hc43, unescape_cons_plus mode _ hm3, ih]
        rfl
      · rw [unescape_cons_lit mode c _ hc37 hc43 (by rintro ⟨_, _, hse2⟩; exact hse hse2)]
        rw [ih]
        rfl

end NetUrl

theorem except_map_ok_inv {α β ε : Type} {f : α → β} {e : Except ε α} {b : β}
    (h : e.map f = .ok b) : ∃ a, e = .ok a ∧ f a = b := by
  cases e with
  | error f => cases h
  | ok a =>
    refine ⟨a, rfl, ?_⟩
    rw [show (Except.ok a).map f = Except.ok (f a) from rfl, Except.ok.injEq] at h
    exact h

namespace NetUrl

theorem unhex_lt : ∀ b : Byte, unhex b < 16 := by decide

theorem unescape_esc_step (mode : Encoding) (x y : Byte) (rest : GoStr) :
    unescape mode (37 :: x :: y :: rest) =
      (if ishex x && ishex y then
        if mode = .host && unhex x < 8 && ¬(x = 50 && y = 53) then
          (.error (s2b "invalid URL escape") : Except GoStr GoStr)
        else if mode = .zone &&
            (¬(x = 50 && y = 53) && unhex x * 16 + unhex y ≠ 32 &&
              shouldEscape (mkByte (unhex x * 16 + unhex y)) .host) then
          .error (s2b "invalid URL escape")
        else do
          let t ← unescape mode rest
          pure (mkByte (unhex x * 16 + unhex y) :: t)
      else .error (s2b "invalid URL escape")) := by
  rw [unescape_cons_eq]
  rfl

/-- Decoding a percent-free, escape-free ASCII host is the identity: if the
unescaped host contains only ASCII bytes and no percent sign, the raw host
was already in decoded form. -/
theorem unescape_host_ascii : ∀ (n : Nat) (s t : GoStr), s.length ≤ n →
    unescape .host s = .ok t →
    (∀ b ∈ t, b.val < 128 ∧ ¬b = 37) →
    s = t ∧ ∀ b ∈ t, shouldEscape b .host = false := by
  intro n
  induction n with
  | zero =>
    intro s t hlen h hb
    have hs : s = [] := List.length_eq_zero.mp (Nat.le_zero.mp hlen)
    subst hs
    rw [show unescape Encoding.host [] = .ok [] from rfl, Except.ok.injEq] at h
    subst h
    exact ⟨rfl, by simp⟩
  | succ n ih =>
    intro s t hlen h hb
    cases s with
    | nil =>
      rw [show unescape Encoding.host [] = .ok [] from rfl, Except.ok.injEq] at h
      subst h
      exact ⟨rfl, by simp⟩
    | cons c rest =>
      by_cases hc37 : c = 37
      · subst hc37
        cases rest with
        | nil =>
          rw [unescape_cons_eq,
            show unescapeBody Encoding.host 37 [] = .error (s2b "invalid URL escape") from
              rfl] at h
          cases h
        | cons x r1 =>
          cases r1 with
          | nil =>
            rw [unescape_cons_eq,
              show unescapeBody Encoding.host 37 [x] = .error (s2b "invalid URL escape") from
                rfl] at h
            cases h
          | cons y r2 =>
            rw [unescape_esc_step] at h
            split at h
            · split at h
              · cases h
              · split at h
                · cases h
                · next hx _ =>
                  obtain ⟨t2, ht2, hcons⟩ := except_bind_ok_inv h
                  rw [except_pure, Except.ok.injEq] at hcons
                  exfalso
                  simp only [Bool.and_eq_true, decide_eq_true_eq, Bool.not_eq_true,
                    decide_eq_false_iff_not] at hx
                  have hmem : mkByte (unhex x * 16 + unhex y) ∈ t := by
                    rw [← hcons]
                    exact List.mem_cons_self _ t2
                  have hbm := hb _ hmem
                  by_cases h50 : x = 50 ∧ y = 53
                  · have : mkByte (unhex x * 16 + unhex y) = 37 := by
                      rw [h50.1, h50.2]
                      decide
                    exact hbm.2 this
                  · have h8 : 8 ≤ unhex x := by
                      by_contra hlt
                      exact hx ⟨⟨trivial, by omega⟩, h50⟩
                    have hv : (mkByte (unhex x * 16 + unhex y)).val =
                        unhex x * 16 + unhex y := by
                      have hy := unhex_lt y
                      have hx16 := unhex_lt x
                      simp only [mkByte]
                      omega
                    have := hbm.1
                    rw [hv] at this
                    omega
            · cases h
      · by_cases hc43 : c = 43
        · subst hc43
          rw [unescape_cons_plus _ _ (by intro hq; cases hq)] at h
          obtain ⟨t2, ht2, hmap⟩ := except_map_ok_inv h
          have hih := ih rest t2 (by simp at hlen; omega) ht2
            (fun b hbm => hb b (by rw [← hmap]; exact List.mem_cons_of_mem _ hbm))
          constructor
          · rw [← hmap, hih.1]
          · intro b hbm
            rw [← hmap] at hbm
            rcases List.mem_cons.mp hbm with hbe | hbm2
            · rw [hbe]; decide
            · exact hih.2 b hbm2
        · rw [unescape_cons_eq] at h
          unfold unescapeBody at h
          rw [if_neg (by simpa using hc37), if_neg (by simpa using hc43)] at h
          split at h
          · cases h
          · next hchk =>
            obtain ⟨t2, ht2, hcons⟩ := except_bind_ok_inv h
            rw [except_pure, Except.ok.injEq] at hcons
            have hmemc : c ∈ t := by
              rw [← hcons]
              exact List.mem_cons_self c t2
            have hse : shouldEscape c .host = false := by
              simp only [Bool.and_eq_true, Bool.or_eq_true, decide_eq_true_eq,
                Bool.not_eq_true] at hchk
              rcases Bool.eq_false_or_eq_true (shouldEscape c Encoding.host) with ht | hf
              · exact absurd ⟨⟨Or.inl trivial, (hb c hmemc).1⟩, ht⟩ hchk
              · exact hf
            have hih := ih rest t2 (by simp at hlen; omega) ht2
              (fun b hbm => hb b (by rw [← hcons]; exact List.mem_cons_of_mem _ hbm))
            constructor
            · rw [← hcons, hih.1]
            · intro b hbm
              rw [← hcons] at hbm
              rcases List.mem_cons.mp hbm with hbe | hbm2
              · rw [hbe]; exact hse
              · exact hih.2 b hbm2

end NetUrl

namespace GoStrings

theorem cutSub_starts : ∀ (s pat a b : GoStr), cutSub s pat = some (a, b) →
    startsWith b pat = true := by
  intro s
  induction s with
  | nil =>
    intro pat a b h
    rw [cutSub] at h
    split at h
    · next hp =>
      rw [Option.some.injEq, Prod.mk.injEq] at h
      rw [← h.2, hp]
      rfl
    · cases h
  | cons c r ih =>
    intro pat a b h
    rw [cutSub] at h
    split at h
    · next hs =>
      rw [Option.some.injEq, Prod.mk.injEq] at h
      rw [← h.2]
      exact hs
    · split at h
      · next a2 b2 hrec =>
        rw [Option.some.injEq, Prod.mk.injEq] at h
        rw [← h.2]
        exact ih pat a2 b2 hrec
      · cases h

theorem startsWith_eq_append : ∀ (pat s : GoStr), startsWith s pat = true →
    ∃ s2, s = pat ++ s2 := by
  intro pat
  induction pat with
  | nil => intro s _; exact ⟨s, rfl⟩
  | cons p ps ih =>
    intro s h
    cases s with
    | nil => cases h
    | cons c r =>
      rw [startsWith, Bool.and_eq_true, decide_eq_true_eq] at h
      obtain ⟨s2, hs2⟩ := ih r h.2
      exact ⟨s2, by rw [h.1, hs2]; rfl⟩

end GoStrings

namespace NetUrl

open GoStrings

theorem unescape_zone_pct_head (rest t : GoStr)
    (h : unescape .zone (37 :: 50 :: 53 :: rest) = .ok t) : ∃ t2, t = 37 :: t2 := by
  rw [unescape_esc_step, if_pos (by decide), if_neg (by decide), if_neg (by decide)] at h
  obtain ⟨t2, _, hk⟩ := except_bind_ok_inv h
  rw [except_pure, Except.ok.injEq] at hk
  refine ⟨t2, ?_⟩
  rw [← hk]
  rw [show mkByte (unhex 50 * 16 + unhex 53) = (37 : Byte) from by decide]

/-- With an all-ASCII, percent-free decoded host, `parseHost` is the identity
on its input: the raw host slice equals the decoded host, every byte of which
is a host-safe byte. -/
theorem parseHost_self (rh h : GoStr) (hp : parseHost rh = .ok h)
    (hascii : ∀ b ∈ h, b.val < 128 ∧ ¬b = 37) :
    rh = h ∧ ∀ b ∈ h, shouldEscape b .host = false := by
  unfold parseHost at hp
  split at hp
  · split at hp
    · cases hp
    · split at hp
      · cases hp
      · split at hp
        · next h1raw zoneRaw heq =>
          obtain ⟨host1, h1, hk⟩ := except_bind_ok_inv hp
          obtain ⟨host2, h2, hk2⟩ := except_bind_ok_inv hk
          obtain ⟨host3, h3, hk3⟩ := except_bind_ok_inv hk2
          rw [except_pure, Except.ok.injEq] at hk3
          have hzs := cutSub_starts _ _ _ _ heq
          obtain ⟨z2, hz2⟩ := startsWith_eq_append _ _ hzs
          rw [hz2] at h2
          obtain ⟨t2, ht2⟩ := unescape_zone_pct_head z2 host2 (by
            rw [show s2b "%25" ++ z2 = 37 :: 50 :: 53 :: z2 from rfl] at h2
            exact h2)
          exfalso
          have hmem : (37 : Byte) ∈ h := by
            rw [← hk3, ht2]
            simp
          exact (hascii _ hmem).2 rfl
        · exact unescape_host_ascii rh.length rh h le_rfl hp hascii
  · split at hp
    · split at hp
      · cases hp
      · exact unescape_host_ascii rh.length rh h le_rfl hp hascii
    · exact unescape_host_ascii rh.length rh h le_rfl hp hascii

end NetUrl

namespace GoStrings

theorem containsB_eq_false_iff {s : GoStr} {c : Byte} : containsB s c = false ↔ c ∉ s := by
  rw [← containsB_iff_mem]
  cases containsB s c <;> simp

end GoStrings

namespace NetUrl

open GoStrings

theorem escape_mem {mode : Encoding} {P : Byte → Prop} [DecidablePred P]
    (h : ∀ a : Byte, (escByte mode a).all (fun x => decide (P x)) = true) :
    ∀ (s : GoStr), ∀ b ∈ escape s mode, P b := by
  intro s b hb
  obtain ⟨a, _, hbe⟩ := List.mem_flatMap.mp hb
  have := List.all_eq_true.mp (h a) b hbe
  exact of_decide_eq_true this

theorem escByte_up_prop : ∀ a : Byte, (escByte .userPassword a).all (fun x =>
    decide (¬x = 35 ∧ ¬x = 63 ∧ ¬x = 47 ∧ ¬x = 64 ∧ ¬x = 58 ∧ 32 ≤ x.val ∧
      ¬x.val = 127)) = true := by decide

theorem escByte_path_prop : ∀ a : Byte, (escByte .path a).all (fun x =>
    decide (¬x = 35 ∧ ¬x = 63 ∧ 32 ≤ x.val ∧ ¬x.val = 127)) = true := by decide

theorem escByte_frag_prop : ∀ a : Byte, (escByte .fragment a).all (fun x =>
    decide (¬x = 35 ∧ 32 ≤ x.val ∧ ¬x.val = 127)) = true := by decide

theorem validUserinfo_escape (s : GoStr) : validUserinfo (escape s .userPassword) = true := by
  have h : ∀ a : Byte, (escByte .userPassword a).all (fun r =>
      isAlphaNum r || r = 45 || r = 46 || r = 95 || r = 58 || r = 126 || r = 33 || r = 36 ||
        r = 38 || r = 39 || r = 40 || r = 41 || r = 42 || r = 43 || r = 44 || r = 59 ||
        r = 61 || r = 37 || r = 64) = true := by decide
  exact escape_all h s

theorem validEncoded_all_mem {s : GoStr} {mode : Encoding} (h : validEncoded s mode = true) :
    ∀ b ∈ s, validEncoded [b] mode = true := by
  intro b hb
  have := List.all_eq_true.mp h b hb
  show List.all [b] _ = true
  simp only [List.all_cons, List.all_nil, Bool.and_true]
  exact this

theorem vE_path_byte : ∀ b : Byte, validEncoded [b] .path = true →
    ¬b = 35 ∧ ¬b = 63 ∧ 32 ≤ b.val ∧ ¬b.val = 127 := by decide

theorem vE_frag_byte : ∀ b : Byte, validEncoded [b] .fragment = true →
    ¬b = 35 ∧ 32 ≤ b.val ∧ ¬b.val = 127 := by decide

theorem hostSE_byte : ∀ b : Byte, shouldEscape b .host = false →
    ¬b = 35 ∧ ¬b = 63 ∧ ¬b = 47 ∧ ¬b = 64 ∧ 32 ≤ b.val ∧ ¬b.val = 127 := by decide


theorem schemeLower_byte : ∀ b : Byte,
    ((97 ≤ b.val && b.val ≤ 122) || isDigitB b || b = 43 || b = 45 || b = 46) = true →
    ¬b = 35 ∧ ¬b = 63 ∧ ¬b = 58 ∧ ¬b = 47 ∧ 32 ≤ b.val ∧ ¬b.val = 127 := by decide

theorem schemeLower_head : ∀ b : Byte, (97 ≤ b.val && b.val ≤ 122) = true →
    isAlphaB b = true ∧ ¬b = 35 ∧ ¬b = 63 ∧ ¬b = 58 ∧ ¬b = 47 ∧ ¬b = 42 ∧ 32 ≤ b.val ∧
      ¬b.val = 127 := by decide

theorem getSchemeAux_valid (rest : GoStr) : ∀ (r : GoStr) (orig acc : GoStr),
    (r.all fun x => isAlphaB x || isDigitB x || x = 43 || x = 45 || x = 46) = true →
    getSchemeAux orig acc (r ++ 58 :: rest) = .ok (acc ++ r, rest) := by
  intro r
  induction r with
  | nil =>
    intro orig acc _
    show getSchemeAux orig acc (58 :: rest) = _
    rw [getSchemeAux, if_neg (by decide), if_pos rfl]
    simp
  | cons c r2 ih =>
    intro orig acc hall
    rw [List.all_cons, Bool.and_eq_true] at hall
    show getSchemeAux orig acc (c :: (r2 ++ 58 :: rest)) = _
    rw [getSchemeAux, if_pos hall.1, ih orig (acc ++ [c]) hall.2]
    simp

theorem getScheme_valid {sch : GoStr} (rest : GoStr) (h : validSchemeLower sch = true) :
    getScheme (sch ++ 58 :: rest) = .ok (sch, rest) := by
  cases sch with
  | nil => cases h
  | cons c r =>
    rw [validSchemeLower, Bool.and_eq_true] at h
    have hperByte : ∀ b : Byte,
        ((97 ≤ b.val && b.val ≤ 122) || isDigitB b || b = 43 || b = 45 || b = 46) = true →
        (isAlphaB b || isDigitB b || b = 43 || b = 45 || b = 46) = true := by decide
    show getScheme (c :: (r ++ 58 :: rest)) = _
    rw [getScheme, if_pos (schemeLower_head c h.1).1]
    rw [getSchemeAux_valid rest r _ [c]
      (List.all_eq_true.mpr fun b hb => hperByte b (List.all_eq_true.mp h.2 b hb))]
    rfl

theorem toLowerStr_id_of_mem {s : GoStr} (h : ∀ b ∈ s, toLowerB b = b) :
    toLowerStr s = s := by
  induction s with
  | nil => rfl
  | cons c r ih =>
    show toLowerB c :: toLowerStr r = c :: r
    rw [h c (List.mem_cons_self c r), ih fun b hb => h b (List.mem_cons_of_mem c hb)]

theorem toLowerStr_id_of_schemeLower {s : GoStr} (h : validSchemeLower s = true) :
    toLowerStr s = s := by
  cases s with
  | nil => rfl
  | cons c r =>
    rw [validSchemeLower, Bool.and_eq_true] at h
    have hid : ∀ b : Byte,
        ((97 ≤ b.val && b.val ≤ 122) || isDigitB b || b = 43 || b = 45 || b = 46) = true →
        toLowerB b = b := by decide
    have hc : ∀ b : Byte, (97 ≤ b.val && b.val ≤ 122) = true → toLowerB b = b := by decide
    apply toLowerStr_id_of_mem
    intro b hb
    rcases List.mem_cons.mp hb with he | hm
    · rw [he]; exact hc c h.1
    · exact hid b (List.all_eq_true.mp h.2 b hm)

end NetUrl

namespace GoStrings

theorem splitB_fst_not_contains (s : GoStr) (c : Byte) (cutc : Bool) :
    containsB (splitB s c cutc).1 c = false := by
  induction s with
  | nil => rfl
  | cons x r ih =>
    by_cases hx : x = c
    · simp [splitB, hx, containsB]
    · simp only [splitB, if_neg hx]
      simp [containsB, hx, ih]

theorem splitB_fst_mem {s : GoStr} {c : Byte} {cutc : Bool} :
    ∀ b ∈ (splitB s c cutc).1, b ∈ s := by
  induction s with
  | nil => intro b hb; cases hb
  | cons x r ih =>
    intro b hb
    by_cases hx : x = c
    · rw [splitB, if_pos hx] at hb
      cases hb
    · rw [splitB, if_neg hx] at hb
      rcases List.mem_cons.mp hb with he | hm
      · rw [he]; exact List.mem_cons_self x r
      · exact List.mem_cons_of_mem x (ih b hm)

theorem splitB_snd_mem {s : GoStr} {c : Byte} {cutc : Bool} :
    ∀ b ∈ (splitB s c cutc).2, b ∈ s := by
  induction s with
  | nil => intro b hb; cases hb
  | cons x r ih =>
    intro b hb
    by_cases hx : x = c
    · rw [splitB, if_pos hx] at hb
      cases cutc with
      | false => exact hb
      | true => exact List.mem_cons_of_mem x hb
    · rw [splitB, if_neg hx] at hb
      exact List.mem_cons_of_mem x (ih b hb)

theorem splitB_snd_false_shape (s : GoStr) (c : Byte) :
    (splitB s c false).2 = [] ∨ ∃ t, (splitB s c false).2 = c :: t := by
  induction s with
  | nil => exact Or.inl rfl
  | cons x r ih =>
    by_cases hx : x = c
    · rw [splitB, if_pos hx]
      exact Or.inr ⟨r, by rw [hx]; rfl⟩
    · rw [splitB, if_neg hx]
      exact ih

theorem trimSuffix_mem {s suf : GoStr} : ∀ b ∈ trimSuffix s suf, b ∈ s := by
  intro b hb
  rw [trimSuffix] at hb
  split at hb
  · exact List.take_subset _ _ hb
  · exact hb

theorem containsCTL_eq_false_iff {s : GoStr} :
    NetUrl.containsCTL s = false ↔ ∀ b ∈ s, ¬(b.val < 32 ∨ b.val = 127) := by
  rw [NetUrl.containsCTL, List.any_eq_false]
  constructor
  · intro h b hb
    have := h b hb
    simpa using this
  · intro h b hb
    have := h b hb
    simpa using this

end GoStrings

namespace NetUrl

open GoStrings

theorem getSchemeAux_out : ∀ (s orig acc p rest : GoStr),
    getSchemeAux orig acc s = .ok (p, rest) →
    p = [] ∨ ∃ ext, p = acc ++ ext ∧
      (ext.all fun x => isAlphaB x || isDigitB x || x = 43 || x = 45 || x = 46) = true := by
  intro s
  induction s with
  | nil =>
    intro orig acc p rest h
    rw [getSchemeAux, Except.ok.injEq, Prod.mk.injEq] at h
    exact Or.inl h.1.symm
  | cons c r ih =>
    intro orig acc p rest h
    rw [getSchemeAux] at h
    split at h
    · next hcond =>
      rcases ih orig (acc ++ [c]) p rest h with h0 | ⟨ext, hext, hall⟩
      · exact Or.inl h0
      · refine Or.inr ⟨c :: ext, ?_, ?_⟩
        · rw [hext, List.append_assoc]
          rfl
        · rw [List.all_cons, hcond, hall]
          rfl
    · split at h
      · rw [Except.ok.injEq, Prod.mk.injEq] at h
        exact Or.inr ⟨[], by rw [← h.1, List.append_nil], rfl⟩
      · rw [Except.ok.injEq, Prod.mk.injEq] at h
        exact Or.inl h.1.symm

theorem getScheme_out (s p rest : GoStr) (h : getScheme s = .ok (p, rest)) :
    p = [] ∨ validSchemeLower (toLowerStr p) = true := by
  cases s with
  | nil =>
    rw [getScheme, Except.ok.injEq, Prod.mk.injEq] at h
    exact Or.inl h.1.symm
  | cons c r =>
    rw [getScheme] at h
    split at h
    · next halpha =>
      rcases getSchemeAux_out r (c :: r) [c] p rest h with h0 | ⟨ext, hext, hall⟩
      · exact Or.inl h0
      · refine Or.inr ?_
        rw [hext]
        show validSchemeLower (toLowerB c :: toLowerStr ext) = true
        rw [validSchemeLower]
        have hhead : ∀ b : Byte, isAlphaB b = true →
            (97 ≤ (toLowerB b).val && (toLowerB b).val ≤ 122) = true := by decide
        have htail : ∀ b : Byte,
            (isAlphaB b || isDigitB b || b = 43 || b = 45 || b = 46) = true →
            ((97 ≤ (toLowerB b).val && (toLowerB b).val ≤ 122) || isDigitB (toLowerB b) ||
              toLowerB b = 43 || toLowerB b = 45 || toLowerB b = 46) = true := by decide
        rw [hhead c halpha]
        show ((toLowerStr ext).all _) = true
        rw [toLowerStr, List.all_map]
        refine (List.all_eq_true.mpr ?_)
        intro b hb
        exact htail b (List.all_eq_true.mp hall b hb)
    · split at h
      · cases h
      · rw [Except.ok.injEq, Prod.mk.injEq] at h
        exact Or.inl h.1.symm

theorem getSchemeAux_rest_mem : ∀ (s orig acc p rest : GoStr),
    getSchemeAux orig acc s = .ok (p, rest) →
    (∀ b ∈ rest, b ∈ s) ∨ rest = orig := by
  intro s
  induction s with
  | nil =>
    intro orig acc p rest h
    rw [getSchemeAux, Except.ok.injEq, Prod.mk.injEq] at h
    exact Or.inr h.2.symm
  | cons c r ih =>
    intro orig acc p rest h
    rw [getSchemeAux] at h
    split at h
    · rcases ih orig (acc ++ [c]) p rest h with hm | ho
      · exact Or.inl fun b hb => List.mem_cons_of_mem c (hm b hb)
      · exact Or.inr ho
    · split at h
      · rw [Except.ok.injEq, Prod.mk.injEq] at h
        exact Or.inl fun b hb => List.mem_cons_of_mem c (h.2 ▸ hb)
      · rw [Except.ok.injEq, Prod.mk.injEq] at h
        exact Or.inr h.2.symm

theorem getScheme_rest_mem (s p rest : GoStr) (h : getScheme s = .ok (p, rest)) :
    ∀ b ∈ rest, b ∈ s := by
  cases s with
  | nil =>
    rw [getScheme, Except.ok.injEq, Prod.mk.injEq] at h
    intro b hb
    rw [← h.2] at hb
    cases hb
  | cons c r =>
    rw [getScheme] at h
    split at h
    · rcases getSchemeAux_rest_mem r (c :: r) [c] p rest h with hm | ho
      · exact fun b hb => List.mem_cons_of_mem c (hm b hb)
      · exact fun b hb => ho ▸ hb
    · split at h
      · cases h
      · rw [Except.ok.injEq, Prod.mk.injEq] at h
        exact fun b hb => h.2 ▸ hb

end NetUrl

namespace GoStrings

theorem splitLast_not_contains {s : GoStr} {c : Byte} (h : containsB s c = false) :
    splitLast s c = none := by
  induction s with
  | nil => rfl
  | cons x r ih =>
    rw [containsB, Bool.or_eq_false_iff, decide_eq_false_iff_not] at h
    rw [splitLast, ih h.2]
    exact if_neg h.1

theorem splitLast_append {a b : GoStr} {c : Byte} (h : containsB b c = false) :
    splitLast (a ++ c :: b) c = some (a, b) := by
  induction a with
  | nil =>
    show splitLast (c :: b) c = some ([], b)
    rw [splitLast, splitLast_not_contains h, if_pos rfl]
  | cons x r ih =>
    show splitLast (x :: (r ++ c :: b)) c = some (x :: r, b)
    rw [splitLast, ih]

theorem startsWith_nil (s : GoStr) : startsWith s [] = true := by
  cases s <;> rfl

theorem endsWith_append_single (s : GoStr) (c : Byte) :
    endsWith (s ++ [c]) [c] = true := by
  show startsWith (s ++ [c]).reverse [c].reverse = true
  rw [List.reverse_append]
  show startsWith (c :: s.reverse) [c] = true
  rw [startsWith, startsWith_nil]
  simp

theorem endsWith_single_mem {s : GoStr} {c : Byte} (h : endsWith s [c] = true) : c ∈ s := by
  rw [show endsWith s [c] = startsWith s.reverse [c] from rfl] at h
  cases hs : s.reverse with
  | nil => rw [hs] at h; cases h
  | cons x r =>
    rw [hs, startsWith, Bool.and_eq_true, decide_eq_true_eq] at h
    rw [← List.mem_reverse, hs, ← h.1]
    exact List.mem_cons_self x r

theorem trimSuffix_append_single (s : GoStr) (c : Byte) :
    trimSuffix (s ++ [c]) [c] = s := by
  rw [trimSuffix, if_pos (endsWith_append_single s c), List.length_append]
  show (s ++ [c]).take (s.length + 1 - 1) = s
  rw [Nat.add_sub_cancel]
  exact List.take_left s [c]

theorem containsB_false_of_mem {s : GoStr} {c : Byte} (h : ∀ b ∈ s, ¬b = c) :
    containsB s c = false := by
  rw [containsB_eq_false_iff]
  intro hm
  exact h c hm rfl

end GoStrings

namespace NetUrl

open GoStrings

theorem unescape_ok_ne_nil {mode : Encoding} {s t : GoStr} (hs : s ≠ [])
    (h : unescape mode s = .ok t) : t ≠ [] := by
  cases s with
  | nil => exact absurd rfl hs
  | cons c rest =>
    rw [unescape_cons_eq] at h
    unfold unescapeBody at h
    repeat' split at h
    all_goals first
      | cases h
      | (obtain ⟨t2, _, hk⟩ := except_bind_ok_inv h
         rw [except_pure, Except.ok.injEq] at hk
         rw [← hk]
         exact List.cons_ne_nil _ _)

theorem unescape_path_head47 {t p : GoStr} (h : unescape .path (47 :: t) = .ok p) :
    ∃ p2, p = 47 :: p2 := by
  rw [unescape_cons_lit .path 47 t (by decide) (by decide)
    (by rintro ⟨h1 | h1, -, -⟩ <;> exact Encoding.noConfusion h1)] at h
  obtain ⟨a, _, hk⟩ := except_map_ok_inv h
  exact ⟨a, hk.symm⟩

theorem escape_cons (c : Byte) (t : GoStr) (mode : Encoding) :
    escape (c :: t) mode = escByte mode c ++ escape t mode := rfl

theorem escByte_ne_nil (mode : Encoding) (c : Byte) : escByte mode c ≠ [] := by
  rw [escByte]
  split
  · exact List.cons_ne_nil _ _
  · split <;> exact List.cons_ne_nil _ _

theorem escape_ne_nil {mode : Encoding} {c : Byte} {t : GoStr} :
    escape (c :: t) mode ≠ [] := by
  rw [escape_cons]
  intro hcon
  exact escByte_ne_nil mode c (List.append_eq_nil.mp hcon).1

theorem validSchemeLower_ne_nil {s : GoStr} (h : validSchemeLower s = true) : s ≠ [] := by
  cases s with
  | nil => cases h
  | cons c r => exact List.cons_ne_nil _ _

theorem validSchemeLower_bytes {s : GoStr} (h : validSchemeLower s = true) :
    ∀ b ∈ s, ¬b = 35 ∧ ¬b = 63 ∧ ¬b = 58 ∧ ¬b = 47 ∧ 32 ≤ b.val ∧ ¬b.val = 127 := by
  cases s with
  | nil => intro b hb; cases hb
  | cons c r =>
    rw [validSchemeLower, Bool.and_eq_true] at h
    intro b hb
    rcases List.mem_cons.mp hb with he | hm
    · obtain ⟨-, h35, h63, h58, h47, -, h32, h127⟩ := schemeLower_head c h.1
      rw [he]
      exact ⟨h35, h63, h58, h47, h32, h127⟩
    · obtain ⟨h35, h63, h58, h47, h32, h127⟩ :=
        schemeLower_byte b (List.all_eq_true.mp h.2 b hm)
      exact ⟨h35, h63, h58, h47, h32, h127⟩


theorem userPart_mem (u : URL) :
    ∀ b ∈ userPart u, ¬b = 35 ∧ ¬b = 63 ∧ ¬b = 47 ∧ 32 ≤ b.val ∧ ¬b.val = 127 := by
  rw [userPart]
  split
  · next ui _ =>
    intro b hb
    rw [userinfoString] at hb
    have hesc : ∀ (s : GoStr), ∀ b2 ∈ escape s .userPassword,
        ¬b2 = 35 ∧ ¬b2 = 63 ∧ ¬b2 = 47 ∧ 32 ≤ b2.val ∧ ¬b2.val = 127 := by
      intro s b2 hb2
      obtain ⟨h35, h63, h47, -, -, h32, h127⟩ :=
        escape_mem (P := fun x => ¬x = 35 ∧ ¬x = 63 ∧ ¬x = 47 ∧ ¬x = 64 ∧ ¬x = 58 ∧
          32 ≤ x.val ∧ ¬x.val = 127) escByte_up_prop s b2 hb2
      exact ⟨h35, h63, h47, h32, h127⟩
    rcases List.mem_append.mp hb with hb1 | hb2
    · rcases List.mem_append.mp hb1 with hb3 | hb4
      · exact hesc _ b hb3
      · split at hb4
        · rcases List.mem_cons.mp hb4 with he | hm
          · rw [he]; refine ⟨by decide, by decide, by decide, by decide, by decide⟩
          · exact hesc _ b hm
        · cases hb4
    · rcases List.mem_cons.mp hb2 with he | hm
      · rw [he]; refine ⟨by decide, by decide, by decide, by decide, by decide⟩
      · cases hm
  · intro b hb; cases hb

theorem escapedPathDefault_ok (u : URL) :
    unescape .path (escapedPathDefault u) = .ok u.path := by
  rw [escapedPathDefault]
  split
  · next h42 => rw [h42]; rfl
  · exact unescape_escape (by decide) (by decide) (by decide) u.path

theorem escapedPath_ok (u : URL) : unescape .path (escapedPath u) = .ok u.path := by
  rw [escapedPath]
  split
  · split
    · next p hup =>
      split
      · next hpu => rw [hup, hpu]
      · exact escapedPathDefault_ok u
    · exact escapedPathDefault_ok u
  · exact escapedPathDefault_ok u

theorem escapedPath_shape (u : URL)
    (hp : u.path = [] ∨ ∃ t, u.path = 47 :: t)
    (hrp : u.rawPath = [] ∨ ∃ t, u.rawPath = 47 :: t) :
    escapedPath u = [] ∨ ∃ t, escapedPath u = 47 :: t := by
  have hdef : escapedPathDefault u = [] ∨ ∃ t, escapedPathDefault u = 47 :: t := by
    rcases hp with h0 | ⟨t, ht⟩
    · rw [escapedPathDefault, if_neg (by rw [h0]; intro he; cases he), h0]
      exact Or.inl rfl
    · rw [escapedPathDefault, if_neg (by
        rw [ht]
        intro he
        rw [List.cons.injEq] at he
        exact absurd he.1 (by decide)), ht, escape_cons]
      exact Or.inr ⟨_, rfl⟩
  rw [escapedPath]
  split
  · next hcond =>
    split
    · next p hup =>
      split
      · rcases hrp with h0 | ⟨t, ht⟩
        · rw [h0] at hcond
          simp at hcond
        · exact Or.inr ⟨t, ht⟩
      · exact hdef
    · exact hdef
  · exact hdef

theorem escapedPath_mem (u : URL) :
    ∀ b ∈ escapedPath u, ¬b = 35 ∧ ¬b = 63 ∧ 32 ≤ b.val ∧ ¬b.val = 127 := by
  have hesc : ∀ (s : GoStr), ∀ b ∈ escape s .path,
      ¬b = 35 ∧ ¬b = 63 ∧ 32 ≤ b.val ∧ ¬b.val = 127 :=
    fun s => escape_mem (P := fun x => ¬x = 35 ∧ ¬x = 63 ∧ 32 ≤ x.val ∧ ¬x.val = 127)
      escByte_path_prop s
  have hdef : ∀ b ∈ escapedPathDefault u,
      ¬b = 35 ∧ ¬b = 63 ∧ 32 ≤ b.val ∧ ¬b.val = 127 := by
    rw [escapedPathDefault]
    split
    · intro b hb
      rcases List.mem_cons.mp hb with he | hm
      · rw [he]; exact ⟨by decide, by decide, by decide, by decide⟩
      · cases hm
    · exact hesc u.path
  rw [escapedPath]
  split
  · next hcond =>
    split
    · next p hup =>
      split
      · intro b hb
        have hve : validEncoded u.rawPath .path = true := by
          simp only [Bool.and_eq_true, decide_eq_true_eq] at hcond
          exact hcond.2
        exact vE_path_byte b (validEncoded_all_mem hve b hb)
      · exact hdef
    · exact hdef
  · exact hdef

theorem escapedFragment_ok (u : URL) :
    unescape .fragment (escapedFragment u) = .ok u.fragment := by
  rw [escapedFragment]
  split
  · split
    · next f huf =>
      split
      · next hfu => rw [huf, hfu]
      · exact unescape_escape (by decide) (by decide) (by decide) u.fragment
    · exact unescape_escape (by decide) (by decide) (by decide) u.fragment
  · exact unescape_escape (by decide) (by decide) (by decide) u.fragment

theorem escapedFragment_ne_nil (u : URL) (hf : u.fragment ≠ []) :
    escapedFragment u ≠ [] := by
  have hesc : escape u.fragment .fragment ≠ [] := by
    cases hfr : u.fragment with
    | nil => exact absurd hfr hf
    | cons c t => exact escape_ne_nil
  rw [escapedFragment]
  split
  · next hcond =>
    split
    · split
      · simp only [Bool.and_eq_true, decide_eq_true_eq] at hcond
        exact hcond.1
      · exact hesc
    · exact hesc
  · exact hesc

end NetUrl

namespace GoStrings

theorem splitLast_none_not_contains {s : GoStr} {c : Byte} (h : splitLast s c = none) :
    c ∉ s := by
  induction s with
  | nil => exact List.not_mem_nil c
  | cons x r ih =>
    rw [splitLast] at h
    split at h
    · cases h
    · next heq =>
      split at h
      · cases h
      · next hx =>
        intro hm
        rcases List.mem_cons.mp hm with he | hm2
        · exact hx he.symm
        · exact ih heq hm2

theorem splitLast_some_inv : ∀ {s : GoStr} {c : Byte} {a b : GoStr},
    splitLast s c = some (a, b) → s = a ++ c :: b ∧ c ∉ b := by
  intro s
  induction s with
  | nil => intro c a b h; cases h
  | cons x r ih =>
    intro c a b h
    rw [splitLast] at h
    split at h
    · next a2 b2 heq =>
      rw [Option.some.injEq, Prod.mk.injEq] at h
      obtain ⟨hr, hnb⟩ := ih heq
      refine ⟨?_, ?_⟩
      · rw [← h.1, ← h.2]
        rw [List.cons_append, ← hr]
      · rw [← h.2]
        exact hnb
    · next heq =>
      split at h
      · next hx =>
        rw [Option.some.injEq, Prod.mk.injEq] at h
        refine ⟨?_, ?_⟩
        · rw [← h.1, ← h.2, hx]
          rfl
        · rw [← h.2]
          exact splitLast_none_not_contains heq
      · cases h

theorem startsWith_mono : ∀ (pat p q : GoStr), startsWith p pat = true →
    startsWith (p ++ q) pat = true := by
  intro pat
  induction pat with
  | nil => intro p q _; exact startsWith_nil _
  | cons c cs ih =>
    intro p q h
    cases p with
    | nil => cases h
    | cons x r =>
      rw [startsWith, Bool.and_eq_true] at h
      show startsWith (x :: (r ++ q)) (c :: cs) = true
      rw [startsWith, Bool.and_eq_true]
      exact ⟨h.1, ih r q h.2⟩

theorem cutSub_eq_append : ∀ (s pat a b : GoStr), cutSub s pat = some (a, b) →
    s = a ++ b := by
  intro s
  induction s with
  | nil =>
    intro pat a b h
    rw [cutSub] at h
    split at h
    · rw [Option.some.injEq, Prod.mk.injEq] at h
      rw [← h.1, ← h.2]
      rfl
    · cases h
  | cons c r ih =>
    intro pat a b h
    rw [cutSub] at h
    split at h
    · rw [Option.some.injEq, Prod.mk.injEq] at h
      rw [← h.1, ← h.2]
      rfl
    · split at h
      · next a2 b2 heq =>
        rw [Option.some.injEq, Prod.mk.injEq] at h
        rw [← h.1, ← h.2]
        show c :: r = (c :: a2) ++ b2
        rw [List.cons_append, ih pat a2 b2 heq]
      · cases h

theorem cutSub_fst_none : ∀ (s pat a b : GoStr), pat ≠ [] → cutSub s pat = some (a, b) →
    cutSub a pat = none := by
  intro s
  induction s with
  | nil =>
    intro pat a b hp h
    rw [cutSub, if_neg hp] at h
    cases h
  | cons c r ih =>
    intro pat a b hp h
    rw [cutSub] at h
    split at h
    · rw [Option.some.injEq, Prod.mk.injEq] at h
      rw [← h.1, cutSub, if_neg hp]
    · next hst =>
      split at h
      · next a2 b2 heq =>
        rw [Option.some.injEq, Prod.mk.injEq] at h
        rw [← h.1]
        have hsub : r = a2 ++ b2 := cutSub_eq_append r pat a2 b2 heq
        have hst2 : ¬startsWith (c :: a2) pat = true := by
          intro hsw
          have hmono := startsWith_mono pat (c :: a2) b2 hsw
          rw [show (c :: a2) ++ b2 = c :: r from by rw [List.cons_append, ← hsub]] at hmono
          exact hst hmono
        rw [cutSub, if_neg hst2, ih pat a2 b2 hp heq]
      · cases h

theorem cutSub_single_append {a : GoStr} {c : Byte} (b : GoStr) (h : c ∉ a) :
    cutSub (a ++ c :: b) [c] = some (a, c :: b) := by
  induction a with
  | nil =>
    show cutSub (c :: b) [c] = some ([], c :: b)
    rw [cutSub, if_pos (by rw [startsWith, startsWith_nil]; simp)]
  | cons x r ih =>
    have hx : ¬x = c := by
      intro he
      exact h (by rw [he]; exact List.mem_cons_self c r)
    have hr : c ∉ r := fun hm => h (List.mem_cons_of_mem x hm)
    show cutSub (x :: (r ++ c :: b)) [c] = some (x :: r, c :: b)
    rw [cutSub, if_neg (by rw [startsWith, startsWith_nil]; simp [hx]), ih hr]

theorem containsSub_cons {c : Byte} {r pat : GoStr} (h : containsSub (c :: r) pat = false) :
    containsSub r pat = false := by
  rw [containsSub]
  cases hc : cutSub r pat with
  | none => rfl
  | some p =>
    exfalso
    obtain ⟨p1, p2⟩ := p
    rw [containsSub, cutSub] at h
    split at h
    · simp at h
    · rw [hc] at h
      simp at h

end GoStrings

namespace NetUrl

open GoStrings

/-- Full one-step inversion of `unescape` on a successful non-empty input:
the head is a percent-escape, a plus, or a literal byte, with the guards each
branch had to pass. -/
theorem unescape_cons_inv (mode : Encoding) (c : Byte) (rest t : GoStr)
    (h : unescape mode (c :: rest) = .ok t) :
    (c = 37 ∧ ∃ x y r2 t2, rest = x :: y :: r2 ∧
      t = mkByte (unhex x * 16 + unhex y) :: t2 ∧ unescape mode r2 = .ok t2 ∧
      ishex x = true ∧ ishex y = true ∧
      (mode = .host → ¬(unhex x < 8 ∧ ¬(x = 50 ∧ y = 53))) ∧
      (mode = .zone → (x = 50 ∧ y = 53) ∨ unhex x * 16 + unhex y = 32 ∨
        shouldEscape (mkByte (unhex x * 16 + unhex y)) .host = false)) ∨
    (c = 43 ∧ ∃ t2, t = (if mode = .queryComponent then (32 : Byte) else 43) :: t2 ∧
      unescape mode rest = .ok t2) ∨
    (¬c = 37 ∧ ¬c = 43 ∧ (128 ≤ c.val ∨ shouldEscape c mode = false ∨
      (¬mode = .host ∧ ¬mode = .zone)) ∧
      ∃ t2, t = c :: t2 ∧ unescape mode rest = .ok t2) := by
  by_cases hc37 : c = 37
  · subst hc37
    refine Or.inl ⟨rfl, ?_⟩
    cases rest with
    | nil =>
      rw [unescape_cons_eq] at h
      rw [show unescapeBody mode 37 [] = .error (s2b "invalid URL escape") from by
        rw [unescapeBody, if_pos rfl]
        intro a b c he
        simp at he] at h
      cases h
    | cons x r1 =>
      cases r1 with
      | nil =>
        rw [unescape_cons_eq] at h
        rw [show unescapeBody mode 37 [x] = .error (s2b "invalid URL escape") from by
          rw [unescapeBody, if_pos rfl]
          intro a b c he
          simp at he] at h
        cases h
      | cons y r2 =>
        rw [unescape_esc_step] at h
        split at h
        · next hhex =>
          split at h
          · cases h
          · next hhost =>
            split at h
            · cases h
            · next hzone =>
              obtain ⟨t2, ht2, hcons⟩ := except_bind_ok_inv h
              rw [except_pure, Except.ok.injEq] at hcons
              rw [Bool.and_eq_true] at hhex
              refine ⟨x, y, r2, t2, rfl, hcons.symm, ht2, hhex.1, hhex.2, ?_, ?_⟩
              · rintro hm ⟨hlt, hne⟩
                apply hhost
                simp only [Bool.and_eq_true, decide_eq_true_eq, Bool.not_eq_true,
                  decide_eq_false_iff_not]
                exact ⟨⟨hm, hlt⟩, hne⟩
              · intro hm
                by_contra hcon
                push_neg at hcon
                apply hzone
                simp only [Bool.and_eq_true, decide_eq_true_eq, Bool.not_eq_true, ne_eq,
                  decide_eq_false_iff_not]
                refine ⟨hm, ⟨fun hp => hcon.1 hp.1 hp.2, hcon.2.1⟩, ?_⟩
                rcases Bool.eq_false_or_eq_true
                    (shouldEscape (mkByte (unhex x * 16 + unhex y)) .host) with htr | hf
                · exact htr
                · exact absurd hf hcon.2.2
        · cases h
  · by_cases hc43 : c = 43
    · subst hc43
      rw [unescape_cons_eq] at h
      unfold unescapeBody at h
      rw [if_neg (by decide), if_pos rfl] at h
      obtain ⟨t2, ht2, hcons⟩ := except_bind_ok_inv h
      rw [except_pure, Except.ok.injEq] at hcons
      exact Or.inr (Or.inl ⟨rfl, t2, hcons.symm, ht2⟩)
    · rw [unescape_cons_eq] at h
      unfold unescapeBody at h
      rw [if_neg (by simpa using hc37), if_neg (by simpa using hc43)] at h
      split at h
      · cases h
      · next hchk =>
        obtain ⟨t2, ht2, hcons⟩ := except_bind_ok_inv h
        rw [except_pure, Except.ok.injEq] at hcons
        refine Or.inr (Or.inr ⟨hc37, hc43, ?_, t2, hcons.symm, ht2⟩)
        by_cases hmz : mode = .host ∨ mode = .zone
        · rcases Bool.eq_false_or_eq_true (shouldEscape c mode) with htr | hf
          · by_cases hlt : c.val < 128
            · exfalso
              apply hchk
              simp only [Bool.and_eq_true, Bool.or_eq_true, decide_eq_true_eq]
              exact ⟨⟨by rcases hmz with hm | hm; exacts [Or.inl hm, Or.inr hm], hlt⟩, htr⟩
            · exact Or.inl (by omega)
          · exact Or.inr (Or.inl hf)
        · push_neg at hmz
          exact Or.inr (Or.inr hmz)

end NetUrl

namespace NetUrl

open GoStrings

theorem SE_zone_eq_host : ∀ b : Byte, shouldEscape b .zone = shouldEscape b .host := by
  decide

theorem escByte_host_lit (c : Byte) (h : shouldEscape c .host = false) :
    escByte .host c = [c] := by
  rw [escByte, if_neg (by simp), if_neg (by simp [h])]

theorem escByte_host_esc (c : Byte) (h : shouldEscape c .host = true) :
    escByte .host c = [37, upperHexDig (c.val / 16), upperHexDig (c.val % 16)] := by
  rw [escByte, if_neg (by simp), if_pos h]

theorem s2b_pct25 : s2b "%25" = [37, 50, 53] := by decide

theorem escPair_ne_2553 : ∀ b : Byte, ¬b = 37 →
    ¬(upperHexDig (b.val / 16) = 50 ∧ upperHexDig (b.val % 16) = 53) := by decide

theorem unhex_upperHexDig : ∀ b : Byte,
    unhex (upperHexDig (b.val / 16)) = b.val / 16 ∧
    unhex (upperHexDig (b.val % 16)) = b.val % 16 := by decide

theorem upperHexDig_ne37 : ∀ b : Byte,
    ¬upperHexDig (b.val / 16) = 37 ∧ ¬upperHexDig (b.val % 16) = 37 := by decide

theorem escByte_host_no58 : ∀ a : Byte, ¬a = 58 → (58 : Byte) ∉ escByte .host a := by
  decide

theorem digitB_class : ∀ b : Byte, isDigitB b = true →
    ¬b = 37 ∧ ¬b = 43 ∧ shouldEscape b .host = false ∧ ¬b = 93 ∧ ¬b = 58 ∧ ¬b = 91 := by
  decide

theorem escVal_ge (x y : Byte) (h : 8 ≤ unhex x) :
    128 ≤ (mkByte (unhex x * 16 + unhex y)).val := by
  have hx := unhex_lt x
  have hy := unhex_lt y
  have hlt : unhex x * 16 + unhex y < 256 := by omega
  rw [show (mkByte (unhex x * 16 + unhex y)).val = (unhex x * 16 + unhex y) % 256 from rfl,
    Nat.mod_eq_of_lt hlt]
  omega

theorem escVal_2553 : mkByte (unhex 50 * 16 + unhex 53) = 37 := by decide

theorem escape_host_mem : ∀ (s : GoStr), ∀ b ∈ escape s .host,
    ¬b = 35 ∧ ¬b = 63 ∧ ¬b = 47 ∧ ¬b = 64 ∧ 32 ≤ b.val ∧ ¬b.val = 127 := by
  have h : ∀ a : Byte, (escByte .host a).all (fun x =>
      decide (¬x = 35 ∧ ¬x = 63 ∧ ¬x = 47 ∧ ¬x = 64 ∧ 32 ≤ x.val ∧ ¬x.val = 127)) = true := by
    decide
  exact escape_mem h

theorem startsWith_cons_ne {d p : Byte} (r ps : GoStr) (h : ¬d = p) :
    startsWith (d :: r) (p :: ps) = false := by
  simp [startsWith, h]

theorem cutSub_cons_none {c : Byte} {r pat : GoStr} (hsw : startsWith (c :: r) pat = false)
    (hr : cutSub r pat = none) : cutSub (c :: r) pat = none := by
  rw [cutSub, if_neg (by simp [hsw]), hr]

theorem cutSub_cons_some {c : Byte} {r pat a b2 : GoStr}
    (hsw : startsWith (c :: r) pat = false) (hr : cutSub r pat = some (a, b2)) :
    cutSub (c :: r) pat = some (c :: a, b2) := by
  rw [cutSub, if_neg (by simp [hsw]), hr]

theorem containsSub_of_starts {c : Byte} {r pat : GoStr}
    (h : startsWith (c :: r) pat = true) : containsSub (c :: r) pat = true := by
  rw [containsSub, cutSub, if_pos h]
  rfl

theorem startsWith_pct25_triple {H1 H2 : Byte} (rest : GoStr) (h : ¬(H1 = 50 ∧ H2 = 53)) :
    startsWith (37 :: H1 :: H2 :: rest) [37, 50, 53] = false := by
  by_cases h1 : H1 = 50
  · by_cases h2 : H2 = 53
    · exact absurd ⟨h1, h2⟩ h
    · simp [startsWith, startsWith_nil, h1, h2]
  · simp [startsWith, startsWith_nil, h1]

theorem escape_host_starts91 {s : GoStr} (hh : startsWith s [91] = true) :
    startsWith (escape s .host) [91] = true := by
  cases s with
  | nil => cases hh
  | cons c r =>
    have hc : c = 91 := by
      rw [startsWith, startsWith_nil, Bool.and_true] at hh
      exact of_decide_eq_true hh
    subst hc
    rw [escape_cons, escByte_host_lit 91 (by decide)]
    show startsWith (91 :: escape r .host) [91] = true
    simp [startsWith, startsWith_nil]

theorem escape_host_not91 {s : GoStr} (hh : startsWith s [91] = false) :
    startsWith (escape s .host) [91] = false := by
  cases s with
  | nil => rfl
  | cons c r =>
    have hc : ¬c = 91 := by
      rw [startsWith, startsWith_nil, Bool.and_true] at hh
      exact of_decide_eq_false hh
    rw [escape_cons]
    by_cases hse : shouldEscape c .host = true
    · rw [escByte_host_esc c hse]
      show startsWith (37 :: (upperHexDig (c.val / 16) :: upperHexDig (c.val % 16) ::
        escape r .host)) [91] = false
      simp [startsWith, startsWith_nil]
    · rw [escByte_host_lit c (Bool.not_eq_true _ ▸ hse)]
      show startsWith (c :: escape r .host) [91] = false
      simp [startsWith, startsWith_nil, hc]

theorem unescape_host_memAux : ∀ (n : Nat) (s t : GoStr), s.length ≤ n →
    unescape .host s = .ok t →
    ∀ b ∈ t, 128 ≤ b.val ∨ shouldEscape b .host = false ∨ b = 37 := by
  intro n
  induction n with
  | zero =>
    intro s t hlen h b hb
    have hs : s = [] := List.length_eq_zero.mp (Nat.le_zero.mp hlen)
    subst hs
    rw [show unescape Encoding.host [] = .ok [] from rfl, Except.ok.injEq] at h
    subst h
    cases hb
  | succ n ih =>
    intro s t hlen h b hb
    cases s with
    | nil =>
      rw [show unescape Encoding.host [] = .ok [] from rfl, Except.ok.injEq] at h
      subst h
      cases hb
    | cons c rest =>
      rcases unescape_cons_inv _ _ _ _ h with
        ⟨hc, x, y, r2, t2, hr, ht, h2, hhx, hhy, hhost, hzone⟩ |
        ⟨hc, t2, ht, h2⟩ | ⟨hc1, hc2, hcls, t2, ht, h2⟩
      · subst ht
        rcases List.mem_cons.mp hb with he | hm
        · subst he
          rcases Decidable.em (unhex x < 8) with h8 | h8
          · have h2553 : x = 50 ∧ y = 53 := by
              by_contra hno
              exact hhost rfl ⟨h8, hno⟩
            right; right
            rw [h2553.1, h2553.2]
            exact escVal_2553
          · left
            exact escVal_ge x y (Nat.le_of_not_lt h8)
        · have hlen2 : r2.length ≤ n := by
            subst hr
            simp only [List.length_cons] at hlen
            omega
          exact ih r2 t2 hlen2 h2 b hm
      · subst ht
        rcases List.mem_cons.mp hb with he | hm
        · subst he
          right; left
          decide
        · exact ih rest t2 (by simp only [List.length_cons] at hlen; omega) h2 b hm
      · subst ht
        rcases List.mem_cons.mp hb with he | hm
        · subst he
          rcases hcls with h1 | h1 | h1
          · exact Or.inl h1
          · exact Or.inr (Or.inl h1)
          · exact absurd rfl h1.1
        · exact ih rest t2 (by simp only [List.length_cons] at hlen; omega) h2 b hm

theorem unescape_host_mem {s t : GoStr} (h : unescape .host s = .ok t) :
    ∀ b ∈ t, 128 ≤ b.val ∨ shouldEscape b .host = false ∨ b = 37 :=
  unescape_host_memAux s.length s t le_rfl h

theorem unescape_zone_memAux : ∀ (n : Nat) (s t : GoStr), s.length ≤ n →
    unescape .zone s = .ok t →
    ∀ b ∈ t, b = 37 ∨ b.val = 32 ∨ shouldEscape b .host = false ∨ 128 ≤ b.val := by
  intro n
  induction n with
  | zero =>
    intro s t hlen h b hb
    have hs : s = [] := List.length_eq_zero.mp (Nat.le_zero.mp hlen)
    subst hs
    rw [show unescape Encoding.zone [] = .ok [] from rfl, Except.ok.injEq] at h
    subst h
    cases hb
  | succ n ih =>
    intro s t hlen h b hb
    cases s with
    | nil =>
      rw [show unescape Encoding.zone [] = .ok [] from rfl, Except.ok.injEq] at h
      subst h
      cases hb
    | cons c rest =>
      rcases unescape_cons_inv _ _ _ _ h with
        ⟨hc, x, y, r2, t2, hr, ht, h2, hhx, hhy, hhost, hzone⟩ |
        ⟨hc, t2, ht, h2⟩ | ⟨hc1, hc2, hcls, t2, ht, h2⟩
      · subst ht
        rcases List.mem_cons.mp hb with he | hm
        · subst he
          rcases hzone rfl with h2553 | hv32 | hsef
          · left
            rw [h2553.1, h2553.2]
            exact escVal_2553
          · right; left
            rw [show (mkByte (unhex x * 16 + unhex y)).val =
              (unhex x * 16 + unhex y) % 256 from rfl, hv32]
          · right; right; left
            exact hsef
        · have hlen2 : r2.length ≤ n := by
            subst hr
            simp only [List.length_cons] at hlen
            omega
          exact ih r2 t2 hlen2 h2 b hm
      · subst ht
        rcases List.mem_cons.mp hb with he | hm
        · subst he
          right; right; left
          decide
        · exact ih rest t2 (by simp only [List.length_cons] at hlen; omega) h2 b hm
      · subst ht
        rcases List.mem_cons.mp hb with he | hm
        · subst he
          rcases hcls with h1 | h1 | h1
          · exact Or.inr (Or.inr (Or.inr h1))
          · right; right; left
            rw [← SE_zone_eq_host]
            exact h1
          · exact absurd rfl h1.2
        · exact ih rest t2 (by simp only [List.length_cons] at hlen; omega) h2 b hm

theorem unescape_zone_mem {s t : GoStr} (h : unescape .zone s = .ok t) :
    ∀ b ∈ t, b = 37 ∨ b.val = 32 ∨ shouldEscape b .host = false ∨ 128 ≤ b.val :=
  unescape_zone_memAux s.length s t le_rfl h

theorem unescape_host_id {s : GoStr}
    (hcls : ∀ b ∈ s, ¬b = 37 ∧ ¬b = 43 ∧ shouldEscape b .host = false) :
    unescape .host s = .ok s := by
  induction s with
  | nil => rfl
  | cons c r ih =>
    have hc := hcls c (List.mem_cons_self c r)
    rw [unescape_cons_lit .host c r hc.1 hc.2.1
      (by rintro ⟨-, -, hse⟩; rw [hc.2.2] at hse; cases hse)]
    rw [ih fun b hb => hcls b (List.mem_cons_of_mem c hb)]
    rfl

theorem unescape_escape_host {s : GoStr}
    (hcls : ∀ b ∈ s, 128 ≤ b.val ∨ shouldEscape b .host = false ∨ b = 37) :
    unescape .host (escape s .host) = .ok s := by
  induction s with
  | nil => rfl
  | cons c r ih =>
    have hc := hcls c (List.mem_cons_self c r)
    have ihr := ih fun b hb => hcls b (List.mem_cons_of_mem c hb)
    rw [escape_cons]
    by_cases hse : shouldEscape c .host = true
    · rw [escByte_host_esc c hse]
      have hdig := hexDig_spec c
      show unescape .host (37 :: upperHexDig (c.val / 16) :: upperHexDig (c.val % 16) ::
        escape r .host) = _
      rw [unescape_cons_esc .host _ _ _ ⟨hdig.1, hdig.2.1⟩
        (by
          rintro ⟨-, h8, hne⟩
          rcases hc with h128 | hsef | h37
          · rw [(unhex_upperHexDig c).1] at h8
            omega
          · rw [hse] at hsef
            cases hsef
          · subst h37
            exact hne ⟨by decide, by decide⟩)
        (by rintro ⟨hzz, -⟩; exact Encoding.noConfusion hzz)]
      rw [ihr]
      show Except.ok (mkByte (unhex (upperHexDig (c.val / 16)) * 16 +
        unhex (upperHexDig (c.val % 16))) :: r) = _
      rw [hdig.2.2]
    · have hse2 : shouldEscape c .host = false := Bool.not_eq_true _ ▸ hse
      rw [escByte_host_lit c hse2]
      by_cases hc43 : c = 43
      · subst hc43
        show unescape .host (43 :: escape r .host) = _
        rw [unescape_cons_plus .host _ (by decide), ihr]
        rfl
      · show unescape .host (c :: escape r .host) = _
        rw [unescape_cons_lit .host c _
          (by intro he; rw [he] at hse2; exact absurd hse2 (by decide)) hc43
          (by rintro ⟨-, -, hx⟩; rw [hse2] at hx; cases hx)]
        rw [ihr]
        rfl

theorem unescape_zone_escape_host {s : GoStr}
    (hcls : ∀ b ∈ s, b = 37 ∨ b.val = 32 ∨ shouldEscape b .host = false) :
    unescape .zone (escape s .host) = .ok s := by
  induction s with
  | nil => rfl
  | cons c r ih =>
    have hc := hcls c (List.mem_cons_self c r)
    have ihr := ih fun b hb => hcls b (List.mem_cons_of_mem c hb)
    rw [escape_cons]
    by_cases hse : shouldEscape c .host = true
    · rw [escByte_host_esc c hse]
      have hdig := hexDig_spec c
      have hval : unhex (upperHexDig (c.val / 16)) * 16 + unhex (upperHexDig (c.val % 16)) =
          c.val := by
        rw [(unhex_upperHexDig c).1, (unhex_upperHexDig c).2]
        omega
      show unescape .zone (37 :: upperHexDig (c.val / 16) :: upperHexDig (c.val % 16) ::
        escape r .host) = _
      rw [unescape_cons_esc .zone _ _ _ ⟨hdig.1, hdig.2.1⟩
        (by rintro ⟨hzz, -⟩; exact Encoding.noConfusion hzz)
        (by
          rintro ⟨-, hne, h32, hsev⟩
          rcases hc with h37 | h32v | hsef
          · subst h37
            exact hne ⟨by decide, by decide⟩
          · exact h32 (hval.trans h32v)
          · rw [hse] at hsef
            cases hsef)]
      rw [ihr]
      show Except.ok (mkByte (unhex (upperHexDig (c.val / 16)) * 16 +
        unhex (upperHexDig (c.val % 16))) :: r) = _
      rw [hdig.2.2]
    · have hse2 : shouldEscape c .host = false := Bool.not_eq_true _ ▸ hse
      rw [escByte_host_lit c hse2]
      by_cases hc43 : c = 43
      · subst hc43
        show unescape .zone (43 :: escape r .host) = _
        rw [unescape_cons_plus .zone _ (by decide), ihr]
        rfl
      · show unescape .zone (c :: escape r .host) = _
        rw [unescape_cons_lit .zone c _
          (by intro he; rw [he] at hse2; exact absurd hse2 (by decide)) hc43
          (by rintro ⟨-, -, hx⟩; rw [SE_zone_eq_host, hse2] at hx; cases hx)]
        rw [ihr]
        rfl

theorem escape_host_cutSub_none : ∀ {s : GoStr}, (37 : Byte) ∉ s →
    cutSub (escape s .host) (s2b "%25") = none := by
  intro s
  induction s with
  | nil =>
    intro h37
    decide
  | cons c r ih =>
    intro h37
    have hc37 : ¬c = 37 := fun he => h37 (he ▸ List.mem_cons_self c r)
    have ihr := ih fun hm => h37 (List.mem_cons_of_mem c hm)
    rw [escape_cons, s2b_pct25]
    rw [s2b_pct25] at ihr
    by_cases hse : shouldEscape c .host = true
    · rw [escByte_host_esc c hse]
      show cutSub (37 :: upperHexDig (c.val / 16) :: upperHexDig (c.val % 16) ::
        escape r .host) [37, 50, 53] = none
      exact cutSub_cons_none (startsWith_pct25_triple _ (escPair_ne_2553 c hc37))
        (cutSub_cons_none (startsWith_cons_ne _ _ (upperHexDig_ne37 c).1)
          (cutSub_cons_none (startsWith_cons_ne _ _ (upperHexDig_ne37 c).2) ihr))
    · rw [escByte_host_lit c (Bool.not_eq_true _ ▸ hse)]
      show cutSub (c :: escape r .host) [37, 50, 53] = none
      exact cutSub_cons_none (startsWith_cons_ne _ _ hc37) ihr

theorem escape_host_cutSub_marker : ∀ {s : GoStr}, (37 : Byte) ∉ s → ∀ (b : GoStr),
    cutSub (escape s .host ++ 37 :: 50 :: 53 :: b) (s2b "%25") =
      some (escape s .host, 37 :: 50 :: 53 :: b) := by
  intro s
  induction s with
  | nil =>
    intro h37 b
    show cutSub (37 :: 50 :: 53 :: b) (s2b "%25") = some ([], 37 :: 50 :: 53 :: b)
    rw [s2b_pct25, cutSub, if_pos (by simp [startsWith, startsWith_nil])]
  | cons c r ih =>
    intro h37 b
    have hc37 : ¬c = 37 := fun he => h37 (he ▸ List.mem_cons_self c r)
    have ihr := ih (fun hm => h37 (List.mem_cons_of_mem c hm)) b
    rw [escape_cons, s2b_pct25]
    rw [s2b_pct25] at ihr
    by_cases hse : shouldEscape c .host = true
    · rw [escByte_host_esc c hse]
      show cutSub (37 :: upperHexDig (c.val / 16) :: upperHexDig (c.val % 16) ::
        (escape r .host ++ 37 :: 50 :: 53 :: b)) [37, 50, 53] =
        some (37 :: upperHexDig (c.val / 16) :: upperHexDig (c.val % 16) ::
          escape r .host, 37 :: 50 :: 53 :: b)
      exact cutSub_cons_some (startsWith_pct25_triple _ (escPair_ne_2553 c hc37))
        (cutSub_cons_some (startsWith_cons_ne _ _ (upperHexDig_ne37 c).1)
          (cutSub_cons_some (startsWith_cons_ne _ _ (upperHexDig_ne37 c).2) ihr))
    · rw [escByte_host_lit c (Bool.not_eq_true _ ▸ hse)]
      show cutSub (c :: (escape r .host ++ 37 :: 50 :: 53 :: b)) [37, 50, 53] =
        some (c :: escape r .host, 37 :: 50 :: 53 :: b)
      exact cutSub_cons_some (startsWith_cons_ne _ _ hc37) ihr

theorem escape_host_no58 {s : GoStr} (h : (58 : Byte) ∉ s) :
    (58 : Byte) ∉ escape s .host := by
  intro hmem
  obtain ⟨a, ha, hbe⟩ := List.mem_flatMap.mp hmem
  exact escByte_host_no58 a (fun he => h (he ▸ ha)) hbe

theorem unescape_host_no37Aux : ∀ (n : Nat) (s t : GoStr), s.length ≤ n →
    containsSub s (s2b "%25") = false →
    unescape .host s = .ok t → (37 : Byte) ∉ t := by
  intro n
  induction n with
  | zero =>
    intro s t hlen h37 h
    have hs : s = [] := List.length_eq_zero.mp (Nat.le_zero.mp hlen)
    subst hs
    rw [show unescape Encoding.host [] = .ok [] from rfl, Except.ok.injEq] at h
    subst h
    exact List.not_mem_nil 37
  | succ n ih =>
    intro s t hlen h37 h
    cases s with
    | nil =>
      rw [show unescape Encoding.host [] = .ok [] from rfl, Except.ok.injEq] at h
      subst h
      exact List.not_mem_nil 37
    | cons c rest =>
      rcases unescape_cons_inv _ _ _ _ h with
        ⟨hc, x, y, r2, t2, hr, ht, h2, hhx, hhy, hhost, hzone⟩ |
        ⟨hc, t2, ht, h2⟩ | ⟨hc1, hc2, hcls, t2, ht, h2⟩
      · subst ht
        subst hc
        subst hr
        have hne : ¬(x = 50 ∧ y = 53) := by
          rintro ⟨hx, hy⟩
          subst hx
          subst hy
          rw [containsSub_of_starts (by rw [s2b_pct25]; simp [startsWith, startsWith_nil] :
            startsWith (37 :: 50 :: 53 :: r2) (s2b "%25") = true)] at h37
          cases h37
        have h8 : 8 ≤ unhex x := by
          rcases Decidable.em (unhex x < 8) with hlt | hge
          · exact absurd ⟨hlt, hne⟩ (hhost rfl)
          · exact Nat.le_of_not_lt hge
        intro hmem
        rcases List.mem_cons.mp hmem with he | hm
        · have := escVal_ge x y h8
          rw [← he] at this
          exact absurd this (by decide)
        · have h372 : containsSub r2 (s2b "%25") = false :=
            containsSub_cons (containsSub_cons (containsSub_cons h37))
          exact ih r2 t2 (by simp only [List.length_cons] at hlen; omega) h372 h2 hm
      · subst ht
        intro hmem
        rcases List.mem_cons.mp hmem with he | hm
        · exact absurd he.symm (by decide)
        · exact ih rest t2 (by simp only [List.length_cons] at hlen; omega)
            (containsSub_cons h37) h2 hm
      · subst ht
        intro hmem
        rcases List.mem_cons.mp hmem with he | hm
        · exact hc1 he.symm
        · exact ih rest t2 (by simp only [List.length_cons] at hlen; omega)
            (containsSub_cons h37) h2 hm

theorem unescape_host_no37 {s t : GoStr} (h37 : containsSub s (s2b "%25") = false)
    (h : unescape .host s = .ok t) : (37 : Byte) ∉ t :=
  unescape_host_no37Aux s.length s t le_rfl h37 h

theorem unescape_host_not_memAux : ∀ (n : Nat) (s t : GoStr) (k : Byte), s.length ≤ n →
    k.val < 128 → ¬k = 37 → ¬k = 43 → k ∉ s → unescape .host s = .ok t → k ∉ t := by
  intro n
  induction n with
  | zero =>
    intro s t k hlen hk128 hk37 hk43 hks h
    have hs : s = [] := List.length_eq_zero.mp (Nat.le_zero.mp hlen)
    subst hs
    rw [show unescape Encoding.host [] = .ok [] from rfl, Except.ok.injEq] at h
    subst h
    exact List.not_mem_nil k
  | succ n ih =>
    intro s t k hlen hk128 hk37 hk43 hks h
    cases s with
    | nil =>
      rw [show unescape Encoding.host [] = .ok [] from rfl, Except.ok.injEq] at h
      subst h
      exact List.not_mem_nil k
    | cons c rest =>
      rcases unescape_cons_inv _ _ _ _ h with
        ⟨hc, x, y, r2, t2, hr, ht, h2, hhx, hhy, hhost, hzone⟩ |
        ⟨hc, t2, ht, h2⟩ | ⟨hc1, hc2, hcls, t2, ht, h2⟩
      · subst ht
        subst hr
        intro hmem
        rcases List.mem_cons.mp hmem with he | hm
        · rcases Decidable.em (unhex x < 8) with h8 | h8
          · have h2553 : x = 50 ∧ y = 53 := by
              by_contra hno
              exact hhost rfl ⟨h8, hno⟩
            rw [h2553.1, h2553.2, escVal_2553] at he
            exact hk37 he
          · have := escVal_ge x y (Nat.le_of_not_lt h8)
            rw [← he] at this
            omega
        · exact ih r2 t2 k (by simp only [List.length_cons] at hlen; omega) hk128 hk37 hk43
            (fun hm2 => hks (by
              right; right; right
              exact hm2)) h2 hm
      · subst ht
        intro hmem
        rcases List.mem_cons.mp hmem with he | hm
        · exact hk43 (by rw [he]; rfl)
        · exact ih rest t2 k (by simp only [List.length_cons] at hlen; omega) hk128 hk37 hk43
            (fun hm2 => hks (List.mem_cons_of_mem c hm2)) h2 hm
      · subst ht
        intro hmem
        rcases List.mem_cons.mp hmem with he | hm
        · exact hks (he ▸ List.mem_cons_self c rest)
        · exact ih rest t2 k (by simp only [List.length_cons] at hlen; omega) hk128 hk37 hk43
            (fun hm2 => hks (List.mem_cons_of_mem c hm2)) h2 hm

theorem unescape_host_not_mem {s t : GoStr} {k : Byte} (hk128 : k.val < 128)
    (hk37 : ¬k = 37) (hk43 : ¬k = 43) (hks : k ∉ s) (h : unescape .host s = .ok t) :
    k ∉ t :=
  unescape_host_not_memAux s.length s t k le_rfl hk128 hk37 hk43 hks h

theorem unescape_host_split_base {b t : GoStr} {c : Byte} (hc37 : ¬c = 37) (hc43 : ¬c = 43)
    (hse : shouldEscape c .host = false)
    (h : unescape .host (c :: b) = .ok t) :
    ∃ tb, t = c :: tb ∧ unescape .host b = .ok tb := by
  rw [unescape_cons_lit .host c b hc37 hc43
    (by rintro ⟨-, -, hx⟩; rw [hse] at hx; cases hx)] at h
  obtain ⟨tb, htb, hmap⟩ := except_map_ok_inv h
  exact ⟨tb, hmap.symm, htb⟩

theorem unescape_host_splitAux : ∀ (n : Nat) (a b t : GoStr) (c : Byte), a.length ≤ n →
    ¬c = 37 → ¬c = 43 → ishex c = false → shouldEscape c .host = false →
    unescape .host (a ++ c :: b) = .ok t →
    ∃ ta tb, t = ta ++ c :: tb ∧ unescape .host a = .ok ta ∧ unescape .host b = .ok tb := by
  intro n
  induction n with
  | zero =>
    intro a b t c hlen hc37 hc43 hhex hse h
    have ha : a = [] := List.length_eq_zero.mp (Nat.le_zero.mp hlen)
    subst ha
    obtain ⟨tb, ht, hb⟩ := unescape_host_split_base hc37 hc43 hse h
    exact ⟨[], tb, ht, rfl, hb⟩
  | succ n ih =>
    intro a b t c hlen hc37 hc43 hhex hse h
    cases a with
    | nil =>
      obtain ⟨tb, ht, hb⟩ := unescape_host_split_base hc37 hc43 hse h
      exact ⟨[], tb, ht, rfl, hb⟩
    | cons d r =>
      rw [List.cons_append] at h
      rcases unescape_cons_inv _ _ _ _ h with
        ⟨hd, x, y, r2, t2, hr, ht, h2, hhx, hhy, hhost, hzone⟩ |
        ⟨hd, t2, ht, h2⟩ | ⟨hd1, hd2, hcls, t2, ht, h2⟩
      · subst hd
        cases r with
        | nil =>
          rw [List.nil_append] at hr
          injection hr with h1 hr2
          rw [← h1] at hhx
          rw [hhex] at hhx
          cases hhx
        | cons e r' =>
          cases r' with
          | nil =>
            rw [List.cons_append, List.nil_append] at hr
            injection hr with h1 hr2
            injection hr2 with h2q hr3
            rw [← h2q] at hhy
            rw [hhex] at hhy
            cases hhy
          | cons f r'' =>
            rw [List.cons_append, List.cons_append] at hr
            injection hr with h1 hr2
            injection hr2 with h2q hr3
            subst h1
            subst h2q
            rw [← hr3] at h2
            obtain ⟨ta2, tb, ht2, hta, htb⟩ := ih r'' b t2 c
              (by simp only [List.length_cons] at hlen; omega) hc37 hc43 hhex hse h2
            refine ⟨mkByte (unhex e * 16 + unhex f) :: ta2, tb, ?_, ?_, htb⟩
            · rw [ht, ht2]
              rfl
            · rw [unescape_cons_esc .host e f r'' ⟨hhx, hhy⟩
                (by rintro ⟨-, hlt, hne⟩; exact hhost rfl ⟨hlt, hne⟩)
                (by rintro ⟨hzz, -⟩; exact Encoding.noConfusion hzz), hta]
              rfl
      · subst hd
        obtain ⟨ta2, tb, ht2, hta, htb⟩ := ih r b t2 c
          (by simp only [List.length_cons] at hlen; omega) hc37 hc43 hhex hse h2
        have hif : (if Encoding.host = Encoding.queryComponent then (32 : Byte) else 43)
            = 43 := by decide
        rw [hif] at ht
        refine ⟨43 :: ta2, tb, ?_, ?_, htb⟩
        · rw [ht, ht2]
          rfl
        · rw [unescape_cons_plus .host r (by decide), hta]
          rfl
      · obtain ⟨ta2, tb, ht2, hta, htb⟩ := ih r b t2 c
          (by simp only [List.length_cons] at hlen; omega) hc37 hc43 hhex hse h2
        refine ⟨d :: ta2, tb, ?_, ?_, htb⟩
        · rw [ht, ht2]
          rfl
        · rw [unescape_cons_lit .host d r hd1 hd2
            (by
              rintro ⟨-, hlt, hx⟩
              rcases hcls with h1 | h1 | h1
              · omega
              · rw [h1] at hx
                cases hx
              · exact absurd rfl h1.1), hta]
          rfl

theorem unescape_host_split {a b t : GoStr} {c : Byte} (hc37 : ¬c = 37) (hc43 : ¬c = 43)
    (hhex : ishex c = false) (hse : shouldEscape c .host = false)
    (h : unescape .host (a ++ c :: b) = .ok t) :
    ∃ ta tb, t = ta ++ c :: tb ∧ unescape .host a = .ok ta ∧ unescape .host b = .ok tb :=
  unescape_host_splitAux a.length a b t c le_rfl hc37 hc43 hhex hse h

theorem unescape_host_head {d c : Byte} {r tl : GoStr}
    (h : unescape .host (d :: r) = .ok (c :: tl)) :
    c = d ∨ c = 37 ∨ c = 43 ∨ 128 ≤ c.val := by
  rcases unescape_cons_inv _ _ _ _ h with
    ⟨-, x, y, r2, t2, -, ht, -, -, -, hhost, -⟩ | ⟨-, t2, ht, -⟩ | ⟨-, -, -, t2, ht, -⟩
  · injection ht with h1 h2
    rcases Decidable.em (unhex x < 8) with h8 | h8
    · have h2553 : x = 50 ∧ y = 53 := by
        by_contra hno
        exact hhost rfl ⟨h8, hno⟩
      right; left
      rw [h1, h2553.1, h2553.2]
      exact escVal_2553
    · right; right; right
      rw [h1]
      exact escVal_ge x y (Nat.le_of_not_lt h8)
  · right; right; left
    injection ht with h1 h2
  · left
    injection ht with h1 h2

theorem validOptionalPort_shape {p : GoStr} (h : validOptionalPort p = true) :
    p = [] ∨ ∃ d, p = 58 :: d ∧ ∀ b ∈ d, isDigitB b = true := by
  cases p with
  | nil => exact Or.inl rfl
  | cons c rest =>
    simp only [validOptionalPort, Bool.and_eq_true, decide_eq_true_eq] at h
    exact Or.inr ⟨rest, by rw [h.1], fun b hb => List.all_eq_true.mp h.2 b hb⟩

theorem port_classes {p : GoStr} (h : validOptionalPort p = true) :
    ∀ b ∈ p, ¬b = 37 ∧ ¬b = 43 ∧ shouldEscape b .host = false ∧ ¬b = 93 ∧ ¬b = 91 := by
  intro b hb
  rcases validOptionalPort_shape h with hp | ⟨d, hp, hd⟩
  · subst hp
    cases hb
  · subst hp
    rcases List.mem_cons.mp hb with he | hm
    · subst he
      refine ⟨by decide, by decide, by decide, by decide, by decide⟩
    · have hc := digitB_class b (hd b hm)
      exact ⟨hc.1, hc.2.1, hc.2.2.1, hc.2.2.2.1, hc.2.2.2.2.2⟩

theorem unescape_host_93post {p : GoStr} (h : validOptionalPort p = true) :
    unescape .host (93 :: p) = .ok (93 :: p) := by
  apply unescape_host_id
  intro b hb
  rcases List.mem_cons.mp hb with he | hm
  · subst he
    exact ⟨by decide, by decide, by decide⟩
  · have hc := port_classes h b hm
    exact ⟨hc.1, hc.2.1, hc.2.2.1⟩

theorem escape_host_port_id {p : GoStr} (h : validOptionalPort p = true) :
    escape p .host = p :=
  escape_id_of_allowed fun b hb =>
    ⟨(port_classes h b hb).2.2.1, fun hx => Encoding.noConfusion hx.2⟩

theorem parseHost_eq_some_cut (E A post h1raw2 zoneRaw2 : GoStr)
    (hE : E = A ++ 93 :: post)
    (hsw : startsWith E [91] = true)
    (hp93 : containsB post 93 = false)
    (hport : validOptionalPort post = true)
    (hcut : cutSub A (s2b "%25") = some (h1raw2, zoneRaw2)) :
    parseHost E = (do
      let host1 ← unescape .host h1raw2
      let host2 ← unescape .zone zoneRaw2
      let host3 ← unescape .host (93 :: post)
      pure (host1 ++ host2 ++ host3)) := by
  subst hE
  rw [parseHost, if_pos hsw, splitLast_append hp93]
  show (if ¬validOptionalPort post then .error (s2b "invalid port after host")
    else
      match cutSub A (s2b "%25") with
      | some (h1raw, zoneRaw) => do
        let host1 ← unescape .host h1raw
        let host2 ← unescape .zone zoneRaw
        let host3 ← unescape .host (93 :: post)
        pure (host1 ++ host2 ++ host3)
      | none => unescape .host (A ++ 93 :: post)) = _
  rw [if_neg (not_not_intro hport), hcut]

theorem parseHost_eq_none_cut (E A post : GoStr)
    (hE : E = A ++ 93 :: post)
    (hsw : startsWith E [91] = true)
    (hp93 : containsB post 93 = false)
    (hport : validOptionalPort post = true)
    (hcut : cutSub A (s2b "%25") = none) :
    parseHost E = unescape .host E := by
  subst hE
  rw [parseHost, if_pos hsw, splitLast_append hp93]
  show (if ¬validOptionalPort post then .error (s2b "invalid port after host")
    else
      match cutSub A (s2b "%25") with
      | some (h1raw, zoneRaw) => do
        let host1 ← unescape .host h1raw
        let host2 ← unescape .zone zoneRaw
        let host3 ← unescape .host (93 :: post)
        pure (host1 ++ host2 ++ host3)
      | none => unescape .host (A ++ 93 :: post)) = _
  rw [if_neg (not_not_intro hport), hcut]

theorem parseHost_eq_nb_colon (E A post : GoStr)
    (hE : E = A ++ 58 :: post)
    (hsw : startsWith E [91] = false)
    (hp58 : containsB post 58 = false)
    (hport : validOptionalPort (58 :: post) = true) :
    parseHost E = unescape .host E := by
  subst hE
  rw [parseHost, if_neg (by simp [hsw]), splitLast_append hp58]
  show (if ¬validOptionalPort (58 :: post) then .error (s2b "invalid port after host")
    else unescape .host (A ++ 58 :: post)) = _
  rw [if_neg (not_not_intro hport)]

theorem parseHost_eq_nb_nocolon (E : GoStr)
    (hsw : startsWith E [91] = false)
    (hns : splitLast E 58 = none) :
    parseHost E = unescape .host E := by
  rw [parseHost, if_neg (by simp [hsw]), hns]

theorem parseHost_roundtrip {rh h : GoStr} (hp : parseHost rh = .ok h)
    (hz : ∀ b ∈ zoneBytes h, b.val < 128) :
    parseHost (escape h .host) = .ok h := by
  unfold parseHost at hp
  split at hp
  case isTrue hbr =>
    split at hp
    · cases hp
    · next pre post heq =>
      split at hp
      · cases hp
      · next hvp =>
        have hport : validOptionalPort post = true := Decidable.of_not_not hvp
        obtain ⟨hrh_eq, hpost93⟩ := splitLast_some_inv heq
        have hcb93 : containsB post 93 = false := containsB_eq_false_iff.mpr hpost93
        split at hp
        · next h1raw zoneRaw hcut =>
          obtain ⟨host1, hu1, hk⟩ := except_bind_ok_inv hp
          obtain ⟨host2, hu2, hk2⟩ := except_bind_ok_inv hk
          obtain ⟨host3, hu3, hk3⟩ := except_bind_ok_inv hk2
          rw [except_pure, Except.ok.injEq] at hk3
          obtain ⟨zr, hzr⟩ := startsWith_eq_append _ _ (cutSub_starts _ _ _ _ hcut)
          rw [s2b_pct25] at hzr
          rw [show ([37, 50, 53] ++ zr : GoStr) = 37 :: 50 :: 53 :: zr from rfl] at hzr
          subst hzr
          have hcut_none := cutSub_fst_none pre (s2b "%25") h1raw _
            (by rw [s2b_pct25]; exact List.cons_ne_nil _ _) hcut
          have hcsub : containsSub h1raw (s2b "%25") = false := by
            rw [containsSub, hcut_none]
            rfl
          have h37h1 : (37 : Byte) ∉ host1 := unescape_host_no37 hcsub hu1
          have hpre_app : pre = h1raw ++ 37 :: 50 :: 53 :: zr := by
            have hx := cutSub_eq_append _ _ _ _ hcut
            exact hx
          have hpre_head : ∃ q, h1raw = 91 :: q := by
            cases h1raw with
            | nil =>
              exfalso
              rw [hrh_eq, hpre_app, List.nil_append] at hbr
              simp [startsWith, startsWith_nil] at hbr
            | cons q0 q =>
              rw [hrh_eq, hpre_app, List.cons_append, List.cons_append, startsWith,
                startsWith_nil, Bool.and_true] at hbr
              exact ⟨q, by rw [of_decide_eq_true hbr]⟩
          obtain ⟨h1t, hh1⟩ := hpre_head
          subst hh1
          have hu1' := hu1
          rw [unescape_cons_lit .host 91 h1t (by decide) (by decide)
            (by rintro ⟨-, -, hx⟩; exact absurd hx (by decide))] at hu1'
          obtain ⟨t1, ht1, hmap1⟩ := except_map_ok_inv hu1'
          subst hmap1
          have hu2' := hu2
          rw [unescape_cons_esc .zone 50 53 zr ⟨by decide, by decide⟩
            (by rintro ⟨hm, -⟩; exact Encoding.noConfusion hm)
            (by rintro ⟨-, hne, -⟩; exact hne ⟨rfl, rfl⟩)] at hu2'
          obtain ⟨z2, hz2, hmap2⟩ := except_map_ok_inv hu2'
          rw [escVal_2553] at hmap2
          subst hmap2
          rw [unescape_host_93post hport, Except.ok.injEq] at hu3
          subst hu3
          subst hk3
          have cls1 : ∀ b ∈ (91 :: t1 : GoStr),
              128 ≤ b.val ∨ shouldEscape b .host = false ∨ b = 37 :=
            unescape_host_mem hu1
          have clsz0 := unescape_zone_mem hz2
          have hE : escape ((91 :: t1) ++ (37 :: z2) ++ (93 :: post)) .host =
              (escape (91 :: t1) .host ++ 37 :: 50 :: 53 :: escape z2 .host) ++
                93 :: post := by
            rw [show ((91 :: t1) ++ (37 :: z2) ++ (93 :: post) : GoStr) =
              (91 :: t1) ++ ((37 :: z2) ++ (93 :: post)) from by simp]
            rw [escape_append, escape_append, escape_cons 37 z2 .host,
              show escByte Encoding.host 37 = [37, 50, 53] from by decide,
              escape_cons 93 post .host,
              show escByte Encoding.host 93 = [93] from by decide,
              escape_host_port_id hport]
            simp
          have hzb : zoneBytes ((91 :: t1) ++ (37 :: z2) ++ (93 :: post)) = 37 :: z2 := by
            rw [show ((91 :: t1) ++ (37 :: z2) ++ (93 :: post) : GoStr) =
              ((91 :: t1) ++ 37 :: z2) ++ 93 :: post from by simp]
            rw [zoneBytes, if_pos (startsWith_mono _ _ _ (startsWith_mono _ _ _
              (by simp [startsWith, startsWith_nil]))), splitLast_append hcb93]
            show (match cutSub ((91 :: t1) ++ 37 :: z2) [37] with
              | some (_, z) => z
              | none => ([] : GoStr)) = 37 :: z2
            rw [cutSub_single_append _ h37h1]
          have hz2' : ∀ b ∈ z2, b.val < 128 := by
            intro b hb
            apply hz
            rw [hzb]
            exact List.mem_cons_of_mem _ hb
          have clsz : ∀ b ∈ z2, b = 37 ∨ b.val = 32 ∨ shouldEscape b .host = false := by
            intro b hb
            rcases clsz0 b hb with h1 | h1 | h1 | h1
            · exact Or.inl h1
            · exact Or.inr (Or.inl h1)
            · exact Or.inr (Or.inr h1)
            · exact absurd h1 (by have := hz2' b hb; omega)
          rw [hE, parseHost_eq_some_cut _ _ _ _ _ rfl
            (startsWith_mono _ _ _ (startsWith_mono _ _ _
              (escape_host_starts91 (by simp [startsWith, startsWith_nil]))))
            hcb93 hport (escape_host_cutSub_marker h37h1 (escape z2 .host))]
          rw [unescape_escape_host cls1, except_bind_ok]
          rw [unescape_cons_esc .zone 50 53 (escape z2 .host) ⟨by decide, by decide⟩
            (by rintro ⟨hm, -⟩; exact Encoding.noConfusion hm)
            (by rintro ⟨-, hne, -⟩; exact hne ⟨rfl, rfl⟩),
            unescape_zone_escape_host clsz]
          rw [show ((Except.ok z2 : Except GoStr GoStr).map
              (mkByte (unhex 50 * 16 + unhex 53) :: ·)) = Except.ok (37 :: z2) from by
            rw [escVal_2553]
            rfl]
          rw [except_bind_ok, unescape_host_93post hport, except_bind_ok, except_pure]
        · next hcut =>
          rw [hrh_eq] at hp
          obtain ⟨ta, tb, hts, hta, htb⟩ := unescape_host_split (by decide) (by decide)
            (by decide) (by decide) hp
          have htb2 : tb = post := by
            have hid := unescape_host_id (s := post) (fun b hb =>
              ⟨(port_classes hport b hb).1, (port_classes hport b hb).2.1,
               (port_classes hport b hb).2.2.1⟩)
            rw [hid, Except.ok.injEq] at htb
            exact htb.symm
          rw [htb2] at hts
          subst hts
          have hpre_head : ∃ q, pre = 91 :: q := by
            cases pre with
            | nil =>
              exfalso
              rw [hrh_eq, List.nil_append] at hbr
              simp [startsWith, startsWith_nil] at hbr
            | cons q0 q =>
              rw [hrh_eq, List.cons_append, startsWith, startsWith_nil,
                Bool.and_true] at hbr
              exact ⟨q, by rw [of_decide_eq_true hbr]⟩
          obtain ⟨pre', hpre⟩ := hpre_head
          subst hpre
          have hta' := hta
          rw [unescape_cons_lit .host 91 pre' (by decide) (by decide)
            (by rintro ⟨-, -, hx⟩; exact absurd hx (by decide))] at hta'
          obtain ⟨t1, ht1, hmap1⟩ := except_map_ok_inv hta'
          subst hmap1
          have h37ta : (37 : Byte) ∉ (91 :: t1 : GoStr) := by
            have hcsub : containsSub (91 :: pre') (s2b "%25") = false := by
              rw [containsSub, hcut]
              rfl
            exact unescape_host_no37 hcsub hta
          have clsh := unescape_host_mem hp
          have hE : escape ((91 :: t1) ++ 93 :: post) .host =
              escape (91 :: t1) .host ++ 93 :: post := by
            rw [escape_append, escape_cons 93 post .host,
              show escByte Encoding.host 93 = [93] from by decide,
              escape_host_port_id hport]
            simp
          rw [hE, parseHost_eq_none_cut _ _ _ rfl
            (startsWith_mono _ _ _
              (escape_host_starts91 (by simp [startsWith, startsWith_nil])))
            hcb93 hport (escape_host_cutSub_none h37ta), ← hE,
            unescape_escape_host clsh]
  case isFalse hbr =>
    have hbrf : startsWith rh [91] = false := by
      cases hx : startsWith rh [91]
      · rfl
      · exact absurd hx hbr
    split at hp
    · next q post heq =>
      split at hp
      · cases hp
      · next hvp =>
        have hport : validOptionalPort (58 :: post) = true := Decidable.of_not_not hvp
        obtain ⟨hrh_eq, hpost58⟩ := splitLast_some_inv heq
        rw [hrh_eq] at hp
        obtain ⟨ta, tb, hts, hta, htb⟩ := unescape_host_split (by decide) (by decide)
          (by decide) (by decide) hp
        have hdig : ∀ b ∈ post, isDigitB b = true := by
          rcases validOptionalPort_shape hport with h0 | ⟨d, hd, hall⟩
          · cases h0
          · injection hd with h1 h2
            rw [h2]
            exact hall
        have htb2 : tb = post := by
          have hid := unescape_host_id (s := post) (fun b hb =>
            ⟨(digitB_class b (hdig b hb)).1, (digitB_class b (hdig b hb)).2.1,
             (digitB_class b (hdig b hb)).2.2.1⟩)
          rw [hid, Except.ok.injEq] at htb
          exact htb.symm
        rw [htb2] at hts
        subst hts
        have h58post : containsB post 58 = false := containsB_eq_false_iff.mpr hpost58
        have hE : escape (ta ++ 58 :: post) .host = escape ta .host ++ 58 :: post := by
          rw [escape_append, escape_cons 58 post .host,
            show escByte Encoding.host 58 = [58] from by decide,
            escape_id_of_allowed (fun b hb => ⟨(digitB_class b (hdig b hb)).2.2.1,
              fun hx => Encoding.noConfusion hx.2⟩)]
          rfl
        have hsw_h : startsWith (ta ++ 58 :: post) [91] = false := by
          cases hta_shape : ta with
          | nil =>
            show startsWith (58 :: post) [91] = false
            simp [startsWith, startsWith_nil]
          | cons c tl =>
            cases hq : q with
            | nil =>
              exfalso
              rw [hq, hta_shape] at hta
              rw [show unescape Encoding.host [] = (.ok [] : Except GoStr GoStr) from rfl,
                Except.ok.injEq] at hta
              cases hta
            | cons d r =>
              rw [hq, hta_shape] at hta
              have hhead := unescape_host_head hta
              have hd91 : ¬d = 91 := by
                rw [hrh_eq, hq, List.cons_append, startsWith, startsWith_nil,
                  Bool.and_true] at hbrf
                exact of_decide_eq_false hbrf
              have hc91 : ¬c = 91 := by
                rcases hhead with h1 | h1 | h1 | h1
                · rw [h1]; exact hd91
                · rw [h1]; decide
                · rw [h1]; decide
                · intro he
                  rw [he] at h1
                  exact absurd h1 (by decide)
              rw [List.cons_append, startsWith, startsWith_nil, Bool.and_true]
              exact decide_eq_false hc91
        have hswE : startsWith (escape ta .host ++ 58 :: post) [91] = false := by
          rw [← hE]
          exact escape_host_not91 hsw_h
        rw [hE, parseHost_eq_nb_colon _ _ _ rfl hswE h58post hport, ← hE,
          unescape_escape_host (unescape_host_mem hp)]
    · next heq =>
      have h58rh : (58 : Byte) ∉ rh := splitLast_none_not_contains heq
      have h58h : (58 : Byte) ∉ h :=
        unescape_host_not_mem (by decide) (by decide) (by decide) h58rh hp
      have h58E : (58 : Byte) ∉ escape h .host := escape_host_no58 h58h
      have hswE : startsWith (escape h .host) [91] = false := by
        apply escape_host_not91
        cases hrh : rh with
        | nil =>
          rw [hrh] at hp
          rw [show unescape Encoding.host [] = (.ok [] : Except GoStr GoStr) from rfl,
            Except.ok.injEq] at hp
          rw [← hp]
          rfl
        | cons d r =>
          rw [hrh] at hp
          cases hh : h with
          | nil =>
            rfl
          | cons c tl =>
            rw [hh] at hp
            have hhead := unescape_host_head hp
            have hd91 : ¬d = 91 := by
              rw [hrh, startsWith, startsWith_nil, Bool.and_true] at hbrf
              exact of_decide_eq_false hbrf
            have hc91 : ¬c = 91 := by
              rcases hhead with h1 | h1 | h1 | h1
              · rw [h1]; exact hd91
              · rw [h1]; decide
              · rw [h1]; decide
              · intro he
                rw [he] at h1
                exact absurd h1 (by decide)
            rw [startsWith, startsWith_nil, Bool.and_true]
            exact decide_eq_false hc91
      rw [parseHost_eq_nb_nocolon _ hswE
        (splitLast_not_contains (containsB_eq_false_iff.mpr h58E)),
        unescape_escape_host (unescape_host_mem hp)]

theorem escape_up_58_free (s : GoStr) :
    containsB (escape s .userPassword) 58 = false :=
  containsB_false_of_mem fun b hb =>
    (escape_mem (P := fun x => ¬x = 35 ∧ ¬x = 63 ∧ ¬x = 47 ∧ ¬x = 64 ∧ ¬x = 58 ∧
      32 ≤ x.val ∧ ¬x.val = 127) escByte_up_prop s b hb).2.2.2.2.1

theorem parseAuthority_restore (u : URL)
    (hph : parseHost (escape u.host .host) = .ok u.host)
    (huser : ∀ ui, u.user = some ui → ui.passwordSet = true ∨ ui.password = []) :
    parseAuthority (userPart u ++ escape u.host .host) = .ok (u.user, u.host) := by
  have h64 : containsB (escape u.host .host) 64 = false :=
    containsB_false_of_mem fun b hb => (escape_host_mem u.host b hb).2.2.2.1
  cases hu : u.user with
  | none =>
    simp only [userPart, hu, List.nil_append]
    rw [parseAuthority, splitLast_not_contains h64]
    show (do
      let h ← parseHost (escape u.host .host)
      pure (none, h) : Except GoStr (Option Userinfo × GoStr)) = _
    rw [hph, except_bind_ok, except_pure]
  | some ui =>
    obtain ⟨un, pw, ps⟩ := ui
    have hu2 := huser _ hu
    simp only [userPart, hu, List.append_assoc, List.singleton_append]
    simp only [parseAuthority, splitLast_append h64, hph, except_bind_ok]
    cases ps with
    | false =>
      have hpw : pw = [] := by
        rcases hu2 with h | h
        · cases h
        · exact h
      have hui : userinfoString ⟨un, pw, false⟩ = escape un .userPassword := by
        rw [userinfoString]
        simp
      rw [hui, if_neg (not_not_intro (validUserinfo_escape un)),
        splitN2_not_contains (escape_up_58_free un)]
      show (do
        let u2 ← unescape .userPassword (escape un .userPassword)
        pure (some ⟨u2, [], false⟩, u.host) : Except GoStr (Option Userinfo × GoStr)) = _
      rw [unescape_escape (by decide) (by decide) (by decide), except_bind_ok, except_pure,
        hpw]
    | true =>
      have hui : userinfoString ⟨un, pw, true⟩ =
          escape un .userPassword ++ 58 :: escape pw .userPassword := by
        rw [userinfoString]
        simp
      have hvu : validUserinfo (escape un .userPassword ++ 58 :: escape pw .userPassword)
          = true := by
        rw [validUserinfo, List.all_append, List.all_cons]
        have h1 := validUserinfo_escape un
        have h2 := validUserinfo_escape pw
        rw [validUserinfo] at h1 h2
        rw [h1, h2]
        decide
      rw [hui, if_neg (not_not_intro hvu),
        splitN2_append (escape pw .userPassword) (escape_up_58_free un)]
      show (do
        let u2 ← unescape .userPassword (escape un .userPassword)
        let p2 ← unescape .userPassword (escape pw .userPassword)
        pure (some ⟨u2, p2, true⟩, u.host) : Except GoStr (Option Userinfo × GoStr)) = _
      rw [unescape_escape (by decide) (by decide) (by decide),
        unescape_escape (by decide) (by decide) (by decide)]
      rw [except_bind_ok, except_bind_ok, except_pure]

end NetUrl

namespace NetUrl

open GoStrings


theorem urlString_shape (u : URL) (hs : u.scheme ≠ []) (ho : u.opaquePart = [])
    (hh : u.host ≠ [])
    (hP : escapedPath u = [] ∨ ∃ t, escapedPath u = 47 :: t) :
    urlString u = (u.scheme ++ 58 :: 47 :: 47 ::
      (userPart u ++ (escape u.host .host ++ (escapedPath u ++ queryPart u)))) ++ fragPart u := by
  rcases hP with hP0 | ⟨t, hPt⟩
  · simp [urlString, userPart, queryPart, fragPart, ho, hs, hh, hP0]
  · simp [urlString, userPart, queryPart, fragPart, ho, hs, hh, hPt, startsWith,
      startsWith_nil]

end NetUrl

namespace GoStrings

theorem endsWith_append_single_ne {l c : Byte} (W : GoStr) (h : ¬l = c) :
    endsWith (W ++ [l]) [c] = false := by
  show startsWith (W ++ [l]).reverse [c].reverse = false
  rw [List.reverse_append]
  show startsWith (l :: W.reverse) [c] = false
  rw [startsWith]
  simp [h]

theorem containsB_trimSuffix_of_middle {Y rq : GoStr} {c : Byte} (hrq : rq ≠ []) :
    containsB (trimSuffix (Y ++ c :: rq) [c]) c = true := by
  obtain ⟨rq2, l, hrql0⟩ := (List.eq_nil_or_concat rq).resolve_left hrq
  have hrql : rq = rq2 ++ [l] := by rw [hrql0, List.concat_eq_append]
  have hmid : containsB (Y ++ c :: rq2) c = true := by
    rw [containsB_append, containsB]
    simp
  by_cases hl : l = c
  · have hZ : Y ++ c :: rq = (Y ++ c :: rq2) ++ [c] := by
      rw [hrql, hl]
      simp
    rw [hZ, trimSuffix_append_single]
    exact hmid
  · have hZ : Y ++ c :: rq = (Y ++ c :: rq2) ++ [l] := by
      rw [hrql]
      simp
    rw [hZ, trimSuffix, if_neg (by rw [endsWith_append_single_ne _ hl]; intro he; cases he)]
    rw [← hZ, hrql]
    have : containsB (Y ++ c :: (rq2 ++ [l])) c = true := by
      rw [containsB_append, containsB]
      simp
    exact this

end GoStrings


namespace NetUrl

open GoStrings

theorem parseInner_restore (u : URL) (hvs : validSchemeLower u.scheme = true)
    (hph : parseHost (escape u.host .host) = .ok u.host)
    (huser : ∀ ui, u.user = some ui → ui.passwordSet = true ∨ ui.password = [])
    (hpath : u.path = [] ∨ ∃ t, u.path = 47 :: t)
    (hrawpath : u.rawPath = [] ∨ ∃ t, u.rawPath = 47 :: t)
    (hfq : u.forceQuery = true → u.rawQuery = [])
    (hq35 : containsB u.rawQuery 35 = false)
    (hqctl : containsCTL u.rawQuery = false) :
    parseInner (u.scheme ++ 58 :: 47 :: 47 ::
      (userPart u ++ (escape u.host .host ++ (escapedPath u ++ queryPart u)))) =
      .ok { scheme := u.scheme, user := u.user, host := u.host, path := u.path,
            rawPath := if escape u.path .path = escapedPath u then [] else escapedPath u,
            forceQuery := u.forceQuery, rawQuery := u.rawQuery } := by
  have hs : u.scheme ≠ [] := validSchemeLower_ne_nil hvs
  have hSmem := validSchemeLower_bytes hvs
  have hUPmem := userPart_mem u
  have hHmem := escape_host_mem u.host
  have hPmem := escapedPath_mem u
  have hPsh := escapedPath_shape u hpath hrawpath
  have hq35m : (35 : Byte) ∉ u.rawQuery := containsB_eq_false_iff.mp hq35
  have hqctlm := containsCTL_eq_false_iff.mp hqctl
  have hQifmem : ∀ b ∈ queryPart u, ¬b = 35 ∧ 32 ≤ b.val ∧ ¬b.val = 127 := by
    intro b hb
    rw [queryPart] at hb
    split at hb
    · rcases List.mem_cons.mp hb with he | hm
      · rw [he]
        refine ⟨by decide, by decide, by decide⟩
      · refine ⟨fun he2 => hq35m (he2 ▸ hm), ?_, fun he2 => hqctlm b hm (Or.inr he2)⟩
        exact Nat.le_of_not_lt fun hlt => hqctlm b hm (Or.inl hlt)
    · cases hb
  have hCTL : containsCTL (u.scheme ++ 58 :: 47 :: 47 ::
      (userPart u ++ (escape u.host .host ++ (escapedPath u ++ queryPart u)))) = false := by
    rw [containsCTL_eq_false_iff]
    intro b hb h2
    have hnot : 32 ≤ b.val ∧ ¬b.val = 127 → False := by
      rintro ⟨h32, h127⟩
      rcases h2 with h2 | h2
      · omega
      · exact h127 h2
    rcases List.mem_append.mp hb with hbs | hbr
    · exact hnot ⟨(hSmem b hbs).2.2.2.2.1, (hSmem b hbs).2.2.2.2.2⟩
    rcases List.mem_cons.mp hbr with he | hbr2
    · rw [he] at h2; revert h2; decide
    rcases List.mem_cons.mp hbr2 with he | hbr3
    · rw [he] at h2; revert h2; decide
    rcases List.mem_cons.mp hbr3 with he | hbr4
    · rw [he] at h2; revert h2; decide
    rcases List.mem_append.mp hbr4 with hb1 | hbr5
    · exact hnot ⟨(hUPmem b hb1).2.2.2.1, (hUPmem b hb1).2.2.2.2⟩
    rcases List.mem_append.mp hbr5 with hb2 | hbr6
    · exact hnot ⟨(hHmem b hb2).2.2.2.2.1, (hHmem b hb2).2.2.2.2.2⟩
    rcases List.mem_append.mp hbr6 with hb3 | hb4
    · exact hnot ⟨(hPmem b hb3).2.2.1, (hPmem b hb3).2.2.2⟩
    · exact hnot ⟨(hQifmem b hb4).2.1, (hQifmem b hb4).2.2⟩
  have hY63 : containsB ((47:Byte) :: 47 :: (userPart u ++ (escape u.host .host ++ escapedPath u))) 63
      = false := by
    apply containsB_false_of_mem
    intro b hb
    rcases List.mem_cons.mp hb with he | hb2
    · rw [he]; decide
    rcases List.mem_cons.mp hb2 with he | hb3
    · rw [he]; decide
    rcases List.mem_append.mp hb3 with hb4 | hb5
    · exact (hUPmem b hb4).2.1
    rcases List.mem_append.mp hb5 with hb6 | hb7
    · exact (hHmem b hb6).2.1
    · exact (hPmem b hb7).2.1
  have hsplitX : splitB (userPart u ++ (escape u.host .host ++ escapedPath u)) 47 false =
      (userPart u ++ escape u.host .host, escapedPath u) := by
    have hH47 : containsB (escape u.host .host) 47 = false :=
      containsB_false_of_mem fun b hb => (hHmem b hb).2.2.1
    have hU47 : containsB (userPart u) 47 = false :=
      containsB_false_of_mem fun b hb => (hUPmem b hb).2.2.1
    rw [splitB_append (escape u.host .host ++ escapedPath u) false hU47]
    rcases hPsh with hP0 | ⟨t, hPt⟩
    · rw [hP0, List.append_nil, splitB_not_contains false hH47]
    · rw [splitB_append (escapedPath u) false hH47]
      rw [hPt, show splitB ((47:Byte) :: t) 47 false = ([], 47 :: t) from by rw [splitB]; simp]
      simp
  have hauth := parseAuthority_restore u hph huser
  have h2s : s2b "//" = [47, 47] := by decide
  have h3s : s2b "///" = [47, 47, 47] := by decide
  simp only [parseInner]
  rw [if_neg (by intro hx; rw [hCTL] at hx; cases hx)]
  rw [if_neg (show ¬(u.scheme ++ 58 :: 47 :: 47 ::
      (userPart u ++ (escape u.host .host ++ (escapedPath u ++ queryPart u))) = [42]) from by
    intro he
    have hl := congrArg List.length he
    simp [List.length_append] at hl
    have hsl : 1 ≤ u.scheme.length := List.length_pos.mpr hs
    omega)]
  rw [getScheme_valid (47 :: 47 ::
    (userPart u ++ (escape u.host .host ++ (escapedPath u ++ queryPart u)))) hvs]
  rw [except_bind_ok]
  rw [toLowerStr_id_of_schemeLower hvs]
  by_cases hfqt : u.forceQuery = true
  · have hrq : u.rawQuery = [] := hfq hfqt
    have hQ : queryPart u = [63] := by
      rw [queryPart, hfqt, hrq]
      simp
    rw [hQ]
    have hassoc : ((47:Byte) :: 47 :: (userPart u ++ (escape u.host .host ++ escapedPath u))) ++ [63] =
        (47:Byte) :: 47 :: (userPart u ++ (escape u.host .host ++ (escapedPath u ++ [63]))) := by simp
    have hEWA : endsWith ((47:Byte) :: 47 ::
        (userPart u ++ (escape u.host .host ++ (escapedPath u ++ [63])))) [63] = true := by
      rw [← hassoc]
      exact endsWith_append_single _ 63
    have hTRA : trimSuffix ((47:Byte) :: 47 ::
        (userPart u ++ (escape u.host .host ++ (escapedPath u ++ [63])))) [63] =
        (47:Byte) :: 47 :: (userPart u ++ (escape u.host .host ++ escapedPath u)) := by
      rw [← hassoc]
      exact trimSuffix_append_single _ 63
    simp [startsWith, startsWith_nil, h2s, h3s, hs, hEWA, hTRA, hY63, hsplitX, hauth,
      escapedPath_ok u, except_bind_ok, except_pure, hfqt, hrq]
  · have hfqf : u.forceQuery = false := by
      cases hfv : u.forceQuery
      · rfl
      · exact absurd hfv hfqt
    by_cases hrq : u.rawQuery = []
    · have hQ : queryPart u = [] := by
        rw [queryPart, hfqf, hrq]
        simp
      rw [hQ, List.append_nil]
      have hEW : endsWith ((47:Byte) :: 47 ::
          (userPart u ++ (escape u.host .host ++ escapedPath u))) [63] = false := by
        cases hEV : endsWith ((47:Byte) :: 47 ::
            (userPart u ++ (escape u.host .host ++ escapedPath u))) [63]
        · rfl
        · exact absurd (endsWith_single_mem hEV) (containsB_eq_false_iff.mp hY63)
      have hspB := splitB_not_contains (s := (47:Byte) :: 47 ::
        (userPart u ++ (escape u.host .host ++ escapedPath u))) true hY63
      simp [startsWith, startsWith_nil, h2s, h3s, hs, hEW, hspB, hsplitX, hauth,
        escapedPath_ok u, except_bind_ok, except_pure, hfqf, hrq]
    · have hQ : queryPart u = 63 :: u.rawQuery := by
        rw [queryPart, hfqf]
        simp [hrq]
      rw [hQ]
      have hassoc : ((47:Byte) :: 47 :: (userPart u ++ (escape u.host .host ++ escapedPath u))) ++
          63 :: u.rawQuery =
          (47:Byte) :: 47 :: (userPart u ++ (escape u.host .host ++ (escapedPath u ++ 63 :: u.rawQuery)))
          := by simp
    -- canonical-form facts about the query split
      have hTS : containsB (trimSuffix ((47:Byte) :: 47 ::
          (userPart u ++ (escape u.host .host ++ (escapedPath u ++ 63 :: u.rawQuery)))) [63]) 63 = true := by
        rw [← hassoc]
        exact containsB_trimSuffix_of_middle hrq
      have hsp : splitB ((47:Byte) :: 47 ::
          (userPart u ++ (escape u.host .host ++ (escapedPath u ++ 63 :: u.rawQuery)))) 63 true =
          ((47:Byte) :: 47 :: (userPart u ++ (escape u.host .host ++ escapedPath u)), u.rawQuery) := by
        rw [← hassoc, splitB_append (63 :: u.rawQuery) true hY63]
        rw [show splitB (63 :: u.rawQuery) 63 true = ([], u.rawQuery) from by
          rw [splitB]; simp]
        simp
      simp [startsWith, startsWith_nil, h2s, h3s, hs, hTS, hsp, hsplitX, hauth,
        escapedPath_ok u, except_bind_ok, except_pure, hfqf]

end NetUrl

namespace NetUrl

open GoStrings

theorem urlWf_reparse (u : URL) (hw : URLWf u) (hh : u.host ≠ [])
    (hz : ∀ b ∈ zoneBytes u.host, b.val < 128) :
    urlParse (urlString u) = .ok
      { scheme := u.scheme, user := u.user, host := u.host, path := u.path,
        rawPath := if escape u.path .path = escapedPath u then [] else escapedPath u,
        forceQuery := u.forceQuery, rawQuery := u.rawQuery, fragment := u.fragment,
        rawFragment := if u.fragment = [] then []
          else if escape u.fragment .fragment = escapedFragment u then []
          else escapedFragment u } := by
  obtain ⟨hvs, ho, ⟨rh, hrh⟩, huser, hpath, hrawpath, hfq, hq35, hqctl, hfr⟩ := hw
  have hs := validSchemeLower_ne_nil hvs
  have hph : parseHost (escape u.host .host) = .ok u.host := parseHost_roundtrip hrh hz
  have hPsh := escapedPath_shape u hpath hrawpath
  have hinner := parseInner_restore u hvs hph huser hpath hrawpath hfq hq35 hqctl
  have hq35m := containsB_eq_false_iff.mp hq35
  have hpre35 : containsB (u.scheme ++ 58 :: 47 :: 47 ::
      (userPart u ++ (escape u.host .host ++ (escapedPath u ++ queryPart u)))) 35 = false := by
    apply containsB_false_of_mem
    intro b hb
    rcases List.mem_append.mp hb with hbs | hbr
    · exact (validSchemeLower_bytes hvs b hbs).1
    rcases List.mem_cons.mp hbr with he | hbr2
    · rw [he]; decide
    rcases List.mem_cons.mp hbr2 with he | hbr3
    · rw [he]; decide
    rcases List.mem_cons.mp hbr3 with he | hbr4
    · rw [he]; decide
    rcases List.mem_append.mp hbr4 with hb1 | hbr5
    · exact (userPart_mem u b hb1).1
    rcases List.mem_append.mp hbr5 with hb2 | hbr6
    · exact (escape_host_mem u.host b hb2).1
    rcases List.mem_append.mp hbr6 with hb3 | hb4
    · exact (escapedPath_mem u b hb3).1
    · rw [queryPart] at hb4
      split at hb4
      · rcases List.mem_cons.mp hb4 with he | hm
        · rw [he]; decide
        · exact fun he2 => hq35m (he2 ▸ hm)
      · cases hb4
  rw [urlString_shape u hs ho hh hPsh]
  by_cases hfrag : u.fragment = []
  · have hF : fragPart u = [] := by
      rw [fragPart, hfrag]
      simp
    rw [hF, List.append_nil]
    simp only [urlParse]
    simp [splitB_not_contains true hpre35, hinner, except_bind_ok, except_pure, hfrag]
  · have hF : fragPart u = 35 :: escapedFragment u := by
      rw [fragPart]
      simp [hfrag]
    rw [hF]
    have hsp : splitB ((u.scheme ++ 58 :: 47 :: 47 ::
        (userPart u ++ (escape u.host .host ++ (escapedPath u ++ queryPart u)))) ++
        35 :: escapedFragment u) 35 true =
        (u.scheme ++ 58 :: 47 :: 47 ::
          (userPart u ++ (escape u.host .host ++ (escapedPath u ++ queryPart u))), escapedFragment u) := by
      rw [splitB_append (35 :: escapedFragment u) true hpre35]
      rw [show splitB (35 :: escapedFragment u) 35 true = ([], escapedFragment u) from by
        rw [splitB]; simp]
      simp
    have hsp2 : splitB (u.scheme ++ 58 :: 47 :: 47 ::
        (userPart u ++ (escape u.host .host ++ (escapedPath u ++
          (queryPart u ++ 35 :: escapedFragment u))))) 35 true =
        (u.scheme ++ 58 :: 47 :: 47 ::
          (userPart u ++ (escape u.host .host ++ (escapedPath u ++ queryPart u))), escapedFragment u) := by
      rw [show u.scheme ++ 58 :: 47 :: 47 ::
          (userPart u ++ (escape u.host .host ++ (escapedPath u ++
            (queryPart u ++ 35 :: escapedFragment u)))) =
          (u.scheme ++ 58 :: 47 :: 47 ::
            (userPart u ++ (escape u.host .host ++ (escapedPath u ++ queryPart u)))) ++
            35 :: escapedFragment u from by simp]
      exact hsp
    simp only [urlParse]
    simp [hsp2, hinner, except_bind_ok, except_pure, escapedFragment_ne_nil u hfrag,
      escapedFragment_ok u, hfrag]

end NetUrl

namespace NetUrl

open GoStrings

theorem parseAuthority_inv {a : GoStr} {user : Option Userinfo} {host : GoStr}
    (h : parseAuthority a = .ok (user, host)) :
    (∃ rh, parseHost rh = .ok host) ∧
    (∀ ui, user = some ui → ui.passwordSet = true ∨ ui.password = []) := by
  rw [parseAuthority] at h
  split at h
  · obtain ⟨h2, hph, hk⟩ := except_bind_ok_inv h
    rw [except_pure, Except.ok.injEq, Prod.mk.injEq] at hk
    refine ⟨⟨a, ?_⟩, ?_⟩
    · rw [← hk.2]
      exact hph
    · intro ui hui
      rw [← hk.1] at hui
      cases hui
  · next userinfo hostPart heq =>
    obtain ⟨h2, hph, hk⟩ := except_bind_ok_inv h
    split at hk
    · cases hk
    · split at hk
      · obtain ⟨un, hun, hk2⟩ := except_bind_ok_inv hk
        rw [except_pure, Except.ok.injEq, Prod.mk.injEq] at hk2
        refine ⟨⟨hostPart, ?_⟩, ?_⟩
        · rw [← hk2.2]
          exact hph
        · intro ui hui
          rw [← hk2.1, Option.some.injEq] at hui
          rw [← hui]
          exact Or.inr rfl
      · obtain ⟨un, hun, hk2⟩ := except_bind_ok_inv hk
        obtain ⟨pw, hpw, hk3⟩ := except_bind_ok_inv hk2
        rw [except_pure, Except.ok.injEq, Prod.mk.injEq] at hk3
        refine ⟨⟨hostPart, ?_⟩, ?_⟩
        · rw [← hk3.2]
          exact hph
        · intro ui hui
          rw [← hk3.1, Option.some.injEq] at hui
          rw [← hui]
          exact Or.inl rfl

end NetUrl

namespace NetUrl

open GoStrings

theorem parseInner_ok_wf {raw : GoStr} {u : URL} (h : parseInner raw = .ok u)
    (hs : u.scheme ≠ []) (hh : u.host ≠ []) (hq35 : containsB raw 35 = false) :
    URLWf u ∧ u.fragment = [] ∧ u.rawFragment = [] := by
  unfold parseInner at h
  split at h
  · cases h
  · next hctl =>
    split at h
    · next h42 =>
      rw [Except.ok.injEq] at h
      rw [← h] at hs
      exact absurd rfl hs
    · cases hgs : getScheme raw with
      | error e => rw [hgs, except_bind_error] at h; cases h
      | ok p =>
        obtain ⟨schemeRaw, rest0⟩ := p
        rw [hgs, except_bind_ok] at h
        simp only at h
        split at h
        · -- forceQuery branch of the query split
          simp only at h
          split at h
          · -- opaque branch: host is empty, contradiction
            rw [Except.ok.injEq] at h
            rw [← h] at hh
            exact absurd rfl hh
          · split at h
            · cases h
            · split at h
              · -- authority branch
                obtain ⟨pa, hpa, h⟩ := except_bind_ok_inv h
                obtain ⟨pu, ph2⟩ := pa
                obtain ⟨y, hy, h⟩ := except_bind_ok_inv h
                rw [except_pure, Except.ok.injEq] at hy
                subst hy
                obtain ⟨path2, hpok, h⟩ := except_bind_ok_inv h
                rw [Except.ok.injEq] at h
                subst h
                have hinv := parseAuthority_inv hpa
                refine ⟨⟨?_, rfl, hinv.1, hinv.2, ?_, ?_, fun _ => rfl, rfl, rfl,
                  fun _ => rfl⟩, rfl, rfl⟩
                · rcases getScheme_out raw schemeRaw rest0 hgs with h0 | hval
                  · exact absurd (show toLowerStr schemeRaw = [] by rw [h0]; rfl) hs
                  · exact hval
                · rcases splitB_snd_false_shape
                      (List.drop 2 (trimSuffix rest0 [63])) 47 with hP0 | ⟨t, hPt⟩
                  · refine Or.inl ?_
                    rw [hP0] at hpok
                    have h2 : (Except.ok [] : Except GoStr GoStr) = .ok path2 := hpok
                    rw [Except.ok.injEq] at h2
                    exact h2.symm
                  · rw [hPt] at hpok
                    exact Or.inr (unescape_path_head47 hpok)
                · show (if escape path2 .path =
                      (splitB (List.drop 2 (trimSuffix rest0 [63])) 47 false).2 then []
                      else (splitB (List.drop 2 (trimSuffix rest0 [63])) 47 false).2) = [] ∨ _
                  split
                  · exact Or.inl rfl
                  · exact splitB_snd_false_shape (List.drop 2 (trimSuffix rest0 [63])) 47
              · -- no authority: host is empty, contradiction
                obtain ⟨y, hy, h⟩ := except_bind_ok_inv h
                rw [except_pure, Except.ok.injEq] at hy
                subst hy
                obtain ⟨path2, hpok, h⟩ := except_bind_ok_inv h
                rw [Except.ok.injEq] at h
                rw [← h] at hh
                exact absurd rfl hh
        · -- ordinary query split
          simp only at h
          split at h
          · rw [Except.ok.injEq] at h
            rw [← h] at hh
            exact absurd rfl hh
          · split at h
            · cases h
            · have hcf : containsCTL raw = false := by
                cases hcv : containsCTL raw
                · rfl
                · exact absurd hcv hctl
              have hsub : ∀ b ∈ (splitB rest0 63 true).2, b ∈ raw := fun b hb =>
                getScheme_rest_mem raw schemeRaw rest0 hgs b (splitB_snd_mem b hb)
              split at h
              · obtain ⟨pa, hpa, h⟩ := except_bind_ok_inv h
                obtain ⟨pu, ph2⟩ := pa
                obtain ⟨y, hy, h⟩ := except_bind_ok_inv h
                rw [except_pure, Except.ok.injEq] at hy
                subst hy
                obtain ⟨path2, hpok, h⟩ := except_bind_ok_inv h
                rw [Except.ok.injEq] at h
                subst h
                have hinv := parseAuthority_inv hpa
                refine ⟨⟨?_, rfl, hinv.1, hinv.2, ?_, ?_,
                  fun hx => Bool.noConfusion hx, ?_, ?_, fun _ => rfl⟩, rfl, rfl⟩
                · rcases getScheme_out raw schemeRaw rest0 hgs with h0 | hval
                  · exact absurd (show toLowerStr schemeRaw = [] by rw [h0]; rfl) hs
                  · exact hval
                · rcases splitB_snd_false_shape
                      (List.drop 2 (splitB rest0 63 true).1) 47 with hP0 | ⟨t, hPt⟩
                  · refine Or.inl ?_
                    rw [hP0] at hpok
                    have h2 : (Except.ok [] : Except GoStr GoStr) = .ok path2 := hpok
                    rw [Except.ok.injEq] at h2
                    exact h2.symm
                  · rw [hPt] at hpok
                    exact Or.inr (unescape_path_head47 hpok)
                · show (if escape path2 .path =
                      (splitB (List.drop 2 (splitB rest0 63 true).1) 47 false).2 then []
                      else (splitB (List.drop 2 (splitB rest0 63 true).1) 47 false).2) = [] ∨ _
                  split
                  · exact Or.inl rfl
                  · exact splitB_snd_false_shape (List.drop 2 (splitB rest0 63 true).1) 47
                · apply containsB_false_of_mem
                  intro b hb hbe
                  exact containsB_eq_false_iff.mp hq35 (hbe ▸ hsub b hb)
                · rw [containsCTL_eq_false_iff]
                  intro b hb
                  exact containsCTL_eq_false_iff.mp hcf b (hsub b hb)
              · obtain ⟨y, hy, h⟩ := except_bind_ok_inv h
                rw [except_pure, Except.ok.injEq] at hy
                subst hy
                obtain ⟨path2, hpok, h⟩ := except_bind_ok_inv h
                rw [Except.ok.injEq] at h
                rw [← h] at hh
                exact absurd rfl hh

end NetUrl

namespace NetUrl

open GoStrings

theorem urlParse_ok_wf {raw : GoStr} {u : URL} (h : urlParse raw = .ok u)
    (hs : u.scheme ≠ []) (hh : u.host ≠ []) : URLWf u := by
  simp only [urlParse] at h
  obtain ⟨url, hpi, h⟩ := except_bind_ok_inv h
  have h35 : containsB (splitB raw 35 true).1 35 = false := splitB_fst_not_contains raw 35 true
  split at h
  · rw [except_pure, Except.ok.injEq] at h
    subst h
    exact (parseInner_ok_wf hpi hs hh h35).1
  · next hp2 =>
    obtain ⟨f, hf, h⟩ := except_bind_ok_inv h
    rw [except_pure, Except.ok.injEq] at h
    have hfne : f ≠ [] := unescape_ok_ne_nil hp2 hf
    have hw := parseInner_ok_wf hpi
      (show url.scheme ≠ [] from by rw [← h] at hs; exact hs)
      (show url.host ≠ [] from by rw [← h] at hh; exact hh) h35
    obtain ⟨⟨w1, w2, w3, w4, w5, w6, w7, w8, w9, _⟩, _, _⟩ := hw
    rw [← h]
    exact ⟨w1, w2, w3, w4, w5, w6, w7, w8, w9, fun hx => absurd hx hfne⟩

end NetUrl

namespace Webfinger

theorem ParseAux_ok_urlParse : ∀ (n : Nat) (s : GoStr) (u : Resource),
    ParseAux n s = .ok u → (∃ r, NetUrl.urlParse r = .ok u) ∧ u.scheme ≠ [] := by
  intro n
  induction n with
  | zero => intro s u h; cases h
  | succ n ih =>
    intro s u h
    unfold ParseAux at h
    split at h
    · cases h
    · next u0 hu0 =>
      split at h
      · split at h
        · cases h
        · exact ih _ u h
      · next hsc =>
        rw [Except.ok.injEq] at h
        subst h
        exact ⟨⟨s, hu0⟩, hsc⟩

end Webfinger

namespace NetUrl

open GoStrings

theorem escapedPath_eq_or (u : URL) (hpath : u.path = [] ∨ ∃ t, u.path = 47 :: t) :
    escapedPath u = escape u.path .path ∨
    (u.rawPath ≠ [] ∧ validEncoded u.rawPath .path = true ∧
      unescape .path u.rawPath = .ok u.path ∧ escapedPath u = u.rawPath) := by
  have h42 : ¬u.path = [42] := by
    rcases hpath with h0 | ⟨t, ht⟩
    · rw [h0]; intro he; cases he
    · rw [ht]
      intro he
      rw [List.cons.injEq] at he
      exact absurd he.1 (by decide)
  have hdef : escapedPathDefault u = escape u.path .path := by
    rw [escapedPathDefault, if_neg h42]
  rw [escapedPath]
  split
  · next hcond =>
    split
    · next p hup =>
      split
      · next hpu =>
        simp only [Bool.and_eq_true, decide_eq_true_eq] at hcond
        rw [hpu] at hup
        exact Or.inr ⟨hcond.1, hcond.2, hup, rfl⟩
      · exact Or.inl hdef
    · exact Or.inl hdef
  · exact Or.inl hdef

theorem escapedPath_prime (u v : URL) (hvp : v.path = u.path)
    (hvr : v.rawPath = if escape u.path .path = escapedPath u then [] else escapedPath u)
    (hpath : u.path = [] ∨ ∃ t, u.path = 47 :: t) :
    escapedPath v = escapedPath u := by
  have h42 : ¬v.path = [42] := by
    rw [hvp]
    rcases hpath with h0 | ⟨t, ht⟩
    · rw [h0]; intro he; cases he
    · rw [ht]
      intro he
      rw [List.cons.injEq] at he
      exact absurd he.1 (by decide)
  by_cases hE : escape u.path .path = escapedPath u
  · rw [if_pos hE] at hvr
    rw [escapedPath, if_neg (by simp [hvr])]
    rw [escapedPathDefault, if_neg h42, hvp]
    exact hE
  · rw [if_neg hE] at hvr
    rcases escapedPath_eq_or u hpath with hB | ⟨hne, hve, hok, hA⟩
    · exact absurd hB.symm hE
    · rw [hA] at hvr
      rw [escapedPath]
      rw [if_pos (by simp [hvr, hne, hve])]
      rw [hvr, hok]
      dsimp only
      rw [if_pos hvp.symm]
      exact hA.symm

theorem escapedFragment_eq_or (u : URL) :
    escapedFragment u = escape u.fragment .fragment ∨
    (u.rawFragment ≠ [] ∧ validEncoded u.rawFragment .fragment = true ∧
      unescape .fragment u.rawFragment = .ok u.fragment ∧
      escapedFragment u = u.rawFragment) := by
  rw [escapedFragment]
  split
  · next hcond =>
    split
    · next f huf =>
      split
      · next hfu =>
        simp only [Bool.and_eq_true, decide_eq_true_eq] at hcond
        rw [hfu] at huf
        exact Or.inr ⟨hcond.1, hcond.2, huf, rfl⟩
      · exact Or.inl rfl
    · exact Or.inl rfl
  · exact Or.inl rfl

theorem escapedFragment_prime (u v : URL) (hvf : v.fragment = u.fragment)
    (hvr : v.rawFragment = if u.fragment = [] then []
      else if escape u.fragment .fragment = escapedFragment u then []
      else escapedFragment u)
    (hwfr : u.fragment = [] → u.rawFragment = []) :
    escapedFragment v = escapedFragment u := by
  by_cases hfr : u.fragment = []
  · rw [if_pos hfr] at hvr
    have hu0 : escapedFragment u = escape u.fragment .fragment := by
      rw [escapedFragment, if_neg (by simp [hwfr hfr])]
    rw [hu0, escapedFragment, if_neg (by simp [hvr]), hvf]
  · rw [if_neg hfr] at hvr
    by_cases hE : escape u.fragment .fragment = escapedFragment u
    · rw [if_pos hE] at hvr
      rw [escapedFragment, if_neg (by simp [hvr]), hvf]
      exact hE
    · rw [if_neg hE] at hvr
      rcases escapedFragment_eq_or u with hB | ⟨hne, hve, hok, hA⟩
      · exact absurd hB.symm hE
      · rw [hA] at hvr
        rw [escapedFragment]
        rw [if_pos (by simp [hvr, hne, hve])]
        rw [hvr, hok]
        dsimp only
        rw [if_pos hvf.symm]
        exact hA.symm

theorem urlString_fields (u v : URL)
    (h1 : v.scheme = u.scheme) (h2 : v.opaquePart = u.opaquePart) (h3 : v.user = u.user)
    (h4 : v.host = u.host) (h5 : v.path = u.path) (h6 : v.forceQuery = u.forceQuery)
    (h7 : v.rawQuery = u.rawQuery) (h8 : v.fragment = u.fragment)
    (hep : escapedPath v = escapedPath u) (hef : escapedFragment v = escapedFragment u) :
    urlString v = urlString u := by
  rw [urlString, urlString, h1, h2, h3, h4, h5, h6, h7, h8, hep, hef]

end NetUrl

/-- C8, counterexample to the original claim: `http://ex%61mple.com/` is an
absolute URI with an explicit host component (`ex%61mple.com` is a valid RFC
3986 reg-name containing the percent-escape `%61` for `a`), yet `Parse` fails,
because Go's `unescape` rejects percent-escapes of ASCII bytes (first hex digit
below 8, other than `%25`) inside host names. -/
theorem parse_roundtrip_counterexample :
    (Webfinger.Parse (s2b "http://ex%61mple.com/")).toOption = none := by decide

/-- The ASCII-zone restriction in the amended round-trip statement is forced
by the program: this accepted input has a bracketed host whose zone identifier
carries the raw byte 195, and printing escapes that byte to `%C3`, which
`unescape(..., encodeZone)` rejects on re-parsing, so the printed form fails
to parse again. -/
theorem parse_roundtrip_zone_nonascii :
    ((Webfinger.Parse (s2b "http://[v1%25a" ++ [195] ++ s2b "]/")).toOption.map
      (fun u => (NetUrl.urlParse (NetUrl.urlString u)).toOption)) = some none := by
  decide

/-- C8 (amended): for every input accepted by `Parse` whose Resource has a
non-empty host whose zone identifier (the bytes after the first `%` of a
bracketed host; empty for every non-bracketed host) is all-ASCII, the
Resource's canonical string form re-parses successfully into a URL with the
same host (and scheme, path, query and fragment), whose canonical string form
is the same string: the round-trip reaches a fixed point after one printing. -/
theorem parse_roundtrip_spec (raw : GoStr) (u : Webfinger.Resource)
    (hp : Webfinger.Parse raw = .ok u)
    (hh : u.host ≠ [])
    (hz : ∀ b ∈ NetUrl.zoneBytes u.host, b.val < 128) :
    ∃ u2 : NetUrl.URL, NetUrl.urlParse (NetUrl.urlString u) = .ok u2 ∧
      u2.host = u.host ∧ u2.scheme = u.scheme ∧ u2.path = u.path ∧
      u2.rawQuery = u.rawQuery ∧ u2.fragment = u.fragment ∧
      NetUrl.urlString u2 = NetUrl.urlString u := by
  obtain ⟨⟨r, hr⟩, hsne⟩ := Webfinger.ParseAux_ok_urlParse 2 raw u hp
  have hw := NetUrl.urlParse_ok_wf hr hsne hh
  obtain ⟨hvs, ho, hrh, huser, hpath, hrawpath, hfq, hq35, hqctl, hfr⟩ := hw
  refine ⟨_, NetUrl.urlWf_reparse u
    ⟨hvs, ho, hrh, huser, hpath, hrawpath, hfq, hq35, hqctl, hfr⟩ hh hz,
    rfl, rfl, rfl, rfl, rfl, ?_⟩
  exact NetUrl.urlString_fields u _ rfl ho.symm rfl rfl rfl rfl rfl rfl
    (NetUrl.escapedPath_prime u _ rfl rfl hpath)
    (NetUrl.escapedFragment_prime u _ rfl rfl hfr)

/-- Witness for C8 on `http://example.com/`. -/
theorem parse_roundtrip_spec_witness :
    ∃ u2 : NetUrl.URL,
      NetUrl.urlParse (NetUrl.urlString
        { scheme := s2b "http", host := s2b "example.com", path := s2b "/" }) = .ok u2 ∧
      u2.host = s2b "example.com" ∧ u2.scheme = s2b "http" ∧ u2.path = s2b "/" ∧
      u2.rawQuery = [] ∧ u2.fragment = [] ∧
      NetUrl.urlString u2 = NetUrl.urlString
        { scheme := s2b "http", host := s2b "example.com", path := s2b "/" } :=
  parse_roundtrip_spec (s2b "http://example.com/")
    { scheme := s2b "http", host := s2b "example.com", path := s2b "/" }
    (by decide) (by decide) (by decide)
